import Mathlib

/-!
Verification of the AVL tree implementation (avl.h / avl.c): a pointer-based
height-balanced binary search tree with balance factors stored per node, a
slab allocator feeding a free stack of nodes, a non-recursive in-order walk,
and a deferred slab reclamation pass (AVL_dealloc).

Shallow embedding conventions:
* A live tree node (struct AVL_NODE with the USD flag set) is modelled by the
  inductive `Tree`: the two child pointers, the balance stored in the upper
  nibble of the flag byte `f` (an integer in -2..2, accessed through
  AVL_getbal / AVL_setbal / AVL_incbal / AVL_decbal, modelled as a plain
  `Int` field), and the payload pointer `d`.  The in-use / slab-head /
  cleanup flag bits of live nodes are read only by AVL_dealloc, which is
  modelled separately below over an arena of slabs; the tree-level model
  does not carry them.
* The comparator `eval` together with the opaque `user` context pointer
  (passed through unchanged to every call) is modelled as one explicit
  function parameter `cmp : α → α → Int`.
* Nodes sitting on the free stack are observable only through their flag
  bits; the tree-level model keeps the free stack as a list of flag records
  (`FreeNode`).  malloc success/failure is an explicit `mallocOk` parameter.
* AVL_MAX_DEPTH = 64 appears literally in the depth guards of AVL_delete
  and AVL_walk, exactly where the source checks it.
-/

set_option maxHeartbeats 1000000
set_option linter.unusedSectionVars false
set_option linter.unusedTactic false
set_option linter.unnecessarySeqFocus false

namespace AVL

/-- A live node of the tree: left subtree, stored balance factor
(`AVL_getbal((*n).f)`), payload, right subtree. `nil` is the NULL pointer. -/
inductive Tree (α : Type) : Type
  | nil : Tree α
  | node (l : Tree α) (bal : Int) (d : α) (r : Tree α) : Tree α
  deriving DecidableEq

namespace Tree

variable {α : Type}

/-- True height of a subtree: 0 for NULL, 1 + max of children otherwise. -/
def ht : Tree α → Int
  | nil => 0
  | node l _ _ r => 1 + max (ht l) (ht r)

/-- Number of nodes in a subtree. -/
def sizeT : Tree α → Nat
  | nil => 0
  | node l _ _ r => sizeT l + sizeT r + 1

/-- In-order sequence of payloads (left, node, right). -/
def keys : Tree α → List α
  | nil => []
  | node l _ x r => keys l ++ x :: keys r

/-- The left child pointer (`(*c).l`), with NULL for NULL. -/
def leftOf : Tree α → Tree α
  | nil => nil
  | node l _ _ _ => l

/-- The right child pointer (`(*c).r`), with NULL for NULL. -/
def rightOf : Tree α → Tree α
  | nil => nil
  | node _ _ _ r => r

theorem ht_nonneg (t : Tree α) : 0 ≤ t.ht := by
  induction t with
  | nil => simp [ht]
  | node l b x r ihl ihr => simp only [ht]; omega

theorem ht_pos (l : Tree α) (b : Int) (x : α) (r : Tree α) :
    0 < (node l b x r).ht := by
  have hl := ht_nonneg l
  have hr := ht_nonneg r
  simp only [ht]; omega

end Tree

open Tree

variable {α : Type}

/-- Flag record of a node sitting on the allocator's free stack: the
slab-head marker (bit AVL_FLG_1ST) and the cleanup marker (bit AVL_FLG_CLN).
The residual balance bits of a free node are never read by any modelled
operation and are not represented. -/
structure FreeNode : Type where
  fst : Bool
  cln : Bool
  deriving DecidableEq

/-- The tree handle (struct AVL_TREE).  The comparator and user-context
fields are threaded as an explicit `cmp` parameter of each operation. -/
structure AVL_TREE (α : Type) : Type where
  freeStack : List FreeNode
  allocAtOnce : Int
  top : Tree α
  height : Int
  size : Int
  deriving DecidableEq

/-- AVL_newTree: zeroed handle, with an allocAtOnce argument below 1
silently clamped to 1.  (Allocation of the handle itself is assumed to
succeed; the source returns NULL from malloc failure before any argument
is inspected.) -/
def AVL_newTree (allocAtOnce : Int) : AVL_TREE α :=
  { freeStack := []
    allocAtOnce := if allocAtOnce < 1 then 1 else allocAtOnce
    top := Tree.nil
    height := 0
    size := 0 }

/-- The batch of `k` nodes pushed onto the free stack by the allocation
branch of AVL_newNode: nodes n[0..k-1] are pushed in order (so n[k-1] ends
up on top) with flags zeroed, and the slab-head bit is set on n[0], the
base address of the allocation. -/
def slabNodes (k : Nat) : List FreeNode :=
  (List.range k).reverse.map (fun i => { fst := i = 0, cln := false })

/-- AVL_newNode, as its effect on the handle: refill the free stack from a
fresh slab when it is empty (if malloc succeeds), then pop one node and
increment `size`.  Returns `none` exactly when the stack is empty and
malloc fails (the caller sees NULL).  The popped node itself is reset to
children NULL, balance 0, in-use — the caller binds the payload and links
it, which the tree-level callers below reflect by attaching
`node nil 0 d nil`. -/
def AVL_newNode (mallocOk : Bool) (t : AVL_TREE α) : Option (AVL_TREE α) :=
  let fs := if t.freeStack = [] ∧ mallocOk then slabNodes t.allocAtOnce.toNat
            else t.freeStack
  match fs with
  | [] => none
  | _ :: rest => some { t with freeStack := rest, size := t.size + 1 }

/-- AVL_find's search loop on a subtree: compare `eval((*c).d, k, user)`;
0 means found, negative descends left, otherwise right. -/
def findGo (cmp : α → α → Int) (k : α) : Tree α → Option α
  | Tree.nil => none
  | Tree.node l _ x r =>
      let e := cmp x k
      if e = 0 then some x
      else if e < 0 then findGo cmp k l
      else findGo cmp k r

/-- AVL_find. -/
def AVL_find (cmp : α → α → Int) (t : AVL_TREE α) (k : α) : Option α :=
  findGo cmp k t.top

/-- The example comparator AVL_exampleEval for integer payloads:
`(*(int*)data2) - (*(int*)data1)`. -/
def AVL_exampleEval (d1 d2 : Int) : Int := d2 - d1

/-- Which rotation step A7.iii of AVL_insert executed: A8 or A9. -/
inductive RotKind : Type
  | single : RotKind
  | double : RotKind
  deriving DecidableEq

/-- Report of a rotation performed by AVL_insert: the off-balance angle `a`
(`dir`), the pivot's balance read at step A7 (`pivotBal`, equal to its
pre-insert balance), and the heavy child's balance read at the A7.iii
single-vs-double decision (`childBal`). -/
structure InsEv : Type where
  kind : RotKind
  dir : Int
  pivotBal : Int
  childBal : Int
  deriving DecidableEq

/-- Steps A7-A10 of AVL_insert after an insertion that went into the left
subtree (off-balance angle a = -1): if the subtree grew, either deepen the
lean (A7.i at the pivot, or the A6 update loop's setbal(-1) below it, both
of which keep the grew-signal alive from a balanced node), cancel the lean
(A7.ii), or rotate (A7.iii: A8 single when the heavy child leans the same
way, A9 double otherwise, with the closed-form balance table). -/
def insFixL (l' : Tree α) (grew : Bool) (evs : List InsEv) (b : Int) (x : α)
    (r : Tree α) : Tree α × Bool × List InsEv :=
  if grew then
    if b = 0 then
      (Tree.node l' (-1) x r, true, evs)
    else if b = 1 then
      (Tree.node l' 0 x r, false, evs)
    else
      match l' with
      | Tree.nil => (Tree.node l' b x r, false, evs)
        -- unreachable: the source dereferences r=(*b).l here
      | Tree.node ll lb lx lr =>
        if lb = -1 then
          -- A8 single rotation: (*b).l=(*r).r; (*r).r=b; balances 0,0
          (Tree.node ll 0 lx (Tree.node lr 0 x r), false,
           evs ++ [⟨RotKind.single, -1, b, lb⟩])
        else
          -- A9 double rotation: c=(*r).r rewired to the subtree root
          match lr with
          | Tree.nil => (Tree.node l' b x r, false, evs)
            -- unreachable: the source dereferences c here
          | Tree.node cl cb cx cr =>
            let nb : Int := if cb = -1 then 1 else if cb = 0 then 0 else 0
            let nr : Int := if cb = -1 then 0 else if cb = 0 then 0 else -1
            (Tree.node (Tree.node ll nr lx cl) 0 cx (Tree.node cr nb x r), false,
             evs ++ [⟨RotKind.double, -1, b, lb⟩])
  else (Tree.node l' b x r, false, evs)

/-- Steps A7-A10 after an insertion that went right (a = +1), mirroring
`insFixL`. -/
def insFixR (r' : Tree α) (grew : Bool) (evs : List InsEv) (b : Int) (x : α)
    (l : Tree α) : Tree α × Bool × List InsEv :=
  if grew then
    if b = 0 then
      (Tree.node l 1 x r', true, evs)
    else if b = -1 then
      (Tree.node l 0 x r', false, evs)
    else
      match r' with
      | Tree.nil => (Tree.node l b x r', false, evs)
        -- unreachable: the source dereferences r=(*b).r here
      | Tree.node rl rb rx rr =>
        if rb = 1 then
          -- A8 single rotation: (*b).r=(*r).l; (*r).l=b
          (Tree.node (Tree.node l 0 x rl) 0 rx rr, false,
           evs ++ [⟨RotKind.single, 1, b, rb⟩])
        else
          -- A9 double rotation: c=(*r).l
          match rl with
          | Tree.nil => (Tree.node l b x r', false, evs)
            -- unreachable: the source dereferences c here
          | Tree.node cl cb cx cr =>
            let nb : Int := if cb = 1 then -1 else if cb = 0 then 0 else 0
            let nr : Int := if cb = 1 then 0 else if cb = 0 then 0 else 1
            (Tree.node (Tree.node l nb x cl) 0 cx (Tree.node cr nr rx rr), false,
             evs ++ [⟨RotKind.double, 1, b, rb⟩])
  else (Tree.node l b x r', false, evs)

/-- The tree-shape part of AVL_insert (search loop A2-A5, balance update
A6, case analysis A7 and rotations A8-A10), with the imperative
pivot-tracking descent re-expressed as structural recursion: the pivot
(the deepest node on the search path whose balance was nonzero before the
insert) is exactly the node at which the grew-signal stops, since every
node strictly below it had balance 0 and receives ±1 from the A6 update
loop.  Returns `none` when an equal payload is found (rc = 1), otherwise
the rebuilt subtree, whether its height grew, and the list of rotations
performed. -/
def insE (cmp : α → α → Int) (d : α) : Tree α → Option (Tree α × Bool × List InsEv)
  | Tree.nil => some (Tree.node Tree.nil 0 d Tree.nil, true, [])
  | Tree.node l b x r =>
    let e := cmp x d
    if e = 0 then none
    else if e < 0 then
      match insE cmp d l with
      | none => none
      | some (l', grew, evs) => some (insFixL l' grew evs b x r)
    else
      match insE cmp d r with
      | none => none
      | some (r', grew, evs) => some (insFixR r' grew evs b x l)

/-- AVL_insert: rc 0 on success, 1 when already in the tree (no mutation),
2 when AVL_newNode cannot supply a node (no mutation).  On success
the popped free-stack node carries the payload, `size` is incremented by
AVL_newNode, and `height` is incremented exactly when the grew-signal
reaches the root (step A7.i, or the empty-tree branch setting height=1). -/
def AVL_insert (cmp : α → α → Int) (mallocOk : Bool) (t : AVL_TREE α) (d : α) :
    Int × AVL_TREE α :=
  match insE cmp d t.top with
  | none => (1, t)
  | some (t', grew, _) =>
    match AVL_newNode mallocOk t with
    | none => (2, t)
    | some t1 =>
      (0, { t1 with top := t', height := if grew then t.height + 1 else t.height })

/-- The per-ancestor rebalancing block of AVL_delete (the body of the
`while (top>0)` loop): the popped node `a` (whose balance was already
adjusted when it was the parent `p` of the previous iteration, reflected
in the caller) is rotated if its balance reached +2 or -2; the rotation
cases overwrite the height-change signal `h`, otherwise it passes through. -/
def rotateFix (t : Tree α) (h : Int) : Tree α × Int :=
  match t with
  | Tree.nil => (Tree.nil, h)
  | Tree.node l b x r =>
    if b = 2 then
      match r with
      | Tree.nil => (Tree.node l b x r, h)
        -- unreachable: the source dereferences b=(*a).r here
      | Tree.node rl rb rx rr =>
        if 0 ≤ rb then
          -- scenario 1: b becomes the subtree root, c=(*b).r untouched
          match rr with
          | Tree.nil => (Tree.node l b x (Tree.node rl rb rx rr), h)
            -- unreachable: the source dereferences c here
          | Tree.node cl cb cx cr =>
            if rb = 0 then
              (Tree.node (Tree.node l 1 x rl) (-1) rx (Tree.node cl cb cx cr), 0)
            else
              (Tree.node (Tree.node l 0 x rl) 0 rx (Tree.node cl cb cx cr), -1)
        else
          -- scenario 2: c=(*b).l becomes the subtree root
          match rl with
          | Tree.nil => (Tree.node l b x (Tree.node rl rb rx rr), h)
            -- unreachable: the source dereferences c here
          | Tree.node cl cb cx cr =>
            let a1 : Int := if cb = -1 then 0 else if cb = 0 then 0 else -1
            let b1 : Int := if cb = -1 then 1 else 0
            (Tree.node (Tree.node l a1 x cl) 0 cx (Tree.node cr b1 rx rr), -1)
    else if b = -2 then
      match l with
      | Tree.nil => (Tree.node l b x r, h)
        -- unreachable: the source dereferences b=(*a).l here
      | Tree.node ll lb lx lr =>
        if lb ≤ 0 then
          -- mirrored scenario 1: b becomes the subtree root, c=(*b).l untouched
          match ll with
          | Tree.nil => (Tree.node (Tree.node ll lb lx lr) b x r, h)
            -- unreachable: the source dereferences c here
          | Tree.node cl cb cx cr =>
            if lb = 0 then
              (Tree.node (Tree.node cl cb cx cr) 1 lx (Tree.node lr (-1) x r), 0)
            else
              (Tree.node (Tree.node cl cb cx cr) 0 lx (Tree.node lr 0 x r), -1)
        else
          -- mirrored scenario 2: c=(*b).r becomes the subtree root
          match lr with
          | Tree.nil => (Tree.node (Tree.node ll lb lx lr) b x r, h)
            -- unreachable: the source dereferences c here
          | Tree.node cl cb cx cr =>
            let a1 : Int := if cb = 1 then 0 else if cb = 0 then 0 else 1
            let b1 : Int := if cb = 1 then -1 else 0
            (Tree.node (Tree.node ll b1 lx cl) 0 cx (Tree.node cr a1 x r), -1)
    else (Tree.node l b x r, h)

/-- The in-order-successor descent of AVL_delete (taken when the matched
node's balance leans right): from `c=(*sc).r` keep going left while a left
child exists and `top<AVL_MAX_DEPTH`; splice the final node out, handing
its right subtree to its parent.  Arguments are the components of the
current node; `dep` is the value of `top` at this node.  The returned -1
signals the splice to the caller, which performs the parent balance update
(`AVL_incbal`), computes the propagated `h`, and runs the rotation block. -/
def delMin (dep : Nat) (l : Tree α) (b : Int) (x : α) (r : Tree α) :
    α × Tree α × Int :=
  match l with
  | Tree.nil => (x, r, -1)
  | Tree.node ll lb lx lr =>
    if 64 ≤ dep then (x, r, -1)
      -- loop guard top<AVL_MAX_DEPTH failed: splice here; the left subtree
      -- is dropped, exactly as the source then overwrites (*c).l
    else
      let res := delMin (dep + 1) ll lb lx lr
      let b2 := if res.2.2 ≠ 0 then b + 1 else b
      let hm : Int := if res.2.2 ≠ 0 then (if b2 = 0 then -1 else 0) else 0
      let u := rotateFix (Tree.node res.2.1 b2 x r) hm
      (res.1, u.1, u.2)

/-- The in-order-predecessor descent of AVL_delete (balance not leaning
right), mirroring `delMin` on the right side with `AVL_decbal`. -/
def delMax (dep : Nat) (l : Tree α) (b : Int) (x : α) (r : Tree α) :
    α × Tree α × Int :=
  match r with
  | Tree.nil => (x, l, -1)
  | Tree.node rl rb rx rr =>
    if 64 ≤ dep then (x, l, -1)
    else
      let res := delMax (dep + 1) rl rb rx rr
      let b2 := if res.2.2 ≠ 0 then b - 1 else b
      let hm : Int := if res.2.2 ≠ 0 then (if b2 = 0 then -1 else 0) else 0
      let u := rotateFix (Tree.node l b2 x res.2.1) hm
      (res.1, u.1, u.2)

/-- Report of the two-children case of AVL_delete: the matched node's
balance and subtrees, the payload that replaced it, and whether the
in-order successor (true) or predecessor (false) was chosen. -/
structure DelEv (α : Type) : Type where
  matchedBal : Int
  matchedL : Tree α
  matchedR : Tree α
  repl : α
  usedSucc : Bool
  deriving DecidableEq

/-- The search, splice, replacement and bottom-up rebalancing of
AVL_delete on a subtree, with the explicit path stack re-expressed as
recursion: `dep` is the value of `top` at the current node, checked
against AVL_MAX_DEPTH exactly as the search loop guard does (falling out
of the loop leaves d=NULL, i.e. `none`).  On the way back up, each level
performs the balance adjustment the source applies to the parent `p`
(`AVL_incbal`/`AVL_decbal` toward the side that shrank, only while the
height-change signal is nonzero), recomputes the signal, and runs the
rotation block — matching one iteration of the `while (top>0)` loop. -/
def delE (cmp : α → α → Int) (k : α) (dep : Nat) :
    Tree α → Option (α × Tree α × Int × Option (DelEv α))
  | Tree.nil => none
  | Tree.node l b x r =>
    if 64 ≤ dep then none
    else
      let e := cmp x k
      if e = 0 then
        match l, r with
        | Tree.nil, _ => some (x, r, -1, none)
          -- s=(*c).l is NULL, so s=(*c).r replaces the node
        | Tree.node ll lb lx lr, Tree.nil =>
          some (x, Tree.node ll lb lx lr, -1, none)
        | Tree.node ll lb lx lr, Tree.node rl rb rx rr =>
          if 0 < b then
            let res := delMin (dep + 1) rl rb rx rr
            let b2 := if res.2.2 ≠ 0 then b - 1 else b
            let hm : Int := if res.2.2 ≠ 0 then (if b2 = 0 then -1 else 0) else 0
            let u := rotateFix (Tree.node (Tree.node ll lb lx lr) b2 res.1 res.2.1) hm
            some (x, u.1, u.2,
                  some ⟨b, Tree.node ll lb lx lr, Tree.node rl rb rx rr, res.1, true⟩)
          else
            let res := delMax (dep + 1) ll lb lx lr
            let b2 := if res.2.2 ≠ 0 then b + 1 else b
            let hm : Int := if res.2.2 ≠ 0 then (if b2 = 0 then -1 else 0) else 0
            let u := rotateFix (Tree.node res.2.1 b2 res.1 (Tree.node rl rb rx rr)) hm
            some (x, u.1, u.2,
                  some ⟨b, Tree.node ll lb lx lr, Tree.node rl rb rx rr, res.1, false⟩)
      else if e < 0 then
        match delE cmp k (dep + 1) l with
        | none => none
        | some (d0, l', h, ev) =>
          let b2 := if h ≠ 0 then b + 1 else b
          let hm : Int := if h ≠ 0 then (if b2 = 0 then -1 else 0) else 0
          let u := rotateFix (Tree.node l' b2 x r) hm
          some (d0, u.1, u.2, ev)
      else
        match delE cmp k (dep + 1) r with
        | none => none
        | some (d0, r', h, ev) =>
          let b2 := if h ≠ 0 then b - 1 else b
          let hm : Int := if h ≠ 0 then (if b2 = 0 then -1 else 0) else 0
          let u := rotateFix (Tree.node l b2 x r') hm
          some (d0, u.1, u.2, ev)

/-- AVL_delete: empty tree and not-found both return NULL with no
mutation; otherwise the removed node's flag record joins the free stack
(its in-use bit cleared), `size` is decremented, and `height` is
decremented exactly when a net height reduction reached the root (h<0). -/
def AVL_delete (cmp : α → α → Int) (t : AVL_TREE α) (k : α) :
    Option α × AVL_TREE α :=
  match t.top with
  | Tree.nil => (none, t)
  | Tree.node l b x r =>
    match delE cmp k 0 (Tree.node l b x r) with
    | none => (none, t)
    | some (d, t', h, _) =>
      (some d,
       { t with top := t'
                height := if h < 0 then t.height - 1 else t.height
                size := t.size - 1
                freeStack := { fst := false, cln := false } :: t.freeStack })

/-- AVL_checkBalance: the recursive validator.  Returns the height of the
subtree, or -1 if any stored balance disagrees with the computed
height(right)-height(left) or lies outside -1..1. -/
def AVL_checkBalance : Tree α → Int
  | Tree.nil => 0
  | Tree.node ln b _ rn =>
    let l := AVL_checkBalance ln
    let r := AVL_checkBalance rn
    if l = -1 ∨ r = -1 then -1
    else
      let bb := r - l
      if bb ≠ b ∨ bb < -1 ∨ 1 < bb then -1
      else if 0 < bb then r + 1 else l + 1

/-- AVL_walk's machine state: the bounded path stack (an array indexed by
`top`), the current node `c`, the previously visited node `p`, and the
sequence of payloads passed to the callback so far. -/
structure WalkSt (α : Type) : Type where
  st : Nat → Tree α
  top : Nat
  c : Tree α
  p : Tree α
  out : List α

/-- The callback invocation `callback((*c).d, user)`, modelled as emitting
the payload. -/
def visitOut : Tree α → List α
  | Tree.nil => []
  | Tree.node _ _ x _ => [x]

variable [DecidableEq α]

/-- First guarded section of AVL_walk's do-while body: `stack[top-1]==p`
means the node was just entered from its parent; descend left if a left
child exists, else null `p` to trigger the visit section. -/
def wSec1 (s : WalkSt α) : WalkSt α :=
  if s.st (s.top - 1) = s.p then
    if leftOf s.c ≠ Tree.nil then
      { s with st := Function.update s.st s.top s.c, top := s.top + 1,
               p := s.c, c := leftOf s.c }
    else { s with p := Tree.nil }
  else s

/-- Second guarded section: `p==(*c).l` means the left side is exhausted;
invoke the callback and descend right if a right child exists, else null
`p` to trigger the pop section. -/
def wSec2 (s : WalkSt α) : WalkSt α :=
  if s.p = leftOf s.c then
    let s1x := { s with out := s.out ++ visitOut s.c }
    if rightOf s1x.c ≠ Tree.nil then
      { s1x with st := Function.update s1x.st s1x.top s1x.c, top := s1x.top + 1,
                 p := s1x.c, c := rightOf s1x.c }
    else { s1x with p := Tree.nil }
  else s

/-- Third guarded section: `p==(*c).r` means the node is fully processed;
pop the stack. -/
def wSec3 (s : WalkSt α) : WalkSt α :=
  if s.p = rightOf s.c then
    { s with top := s.top - 1, p := s.c, c := s.st (s.top - 1) }
  else s

/-- One iteration of AVL_walk's do-while body: the three pointer-equality
guarded sections (descend left; emit and descend right; pop), executed in
sequence on the evolving state exactly as in the source. -/
def wIter (s : WalkSt α) : WalkSt α := wSec3 (wSec2 (wSec1 s))

/-- AVL_walk's loop: run the body while `top>0 && top<AVL_MAX_DEPTH-1`,
with enough fuel supplied by the caller. -/
def wRun : Nat → WalkSt α → WalkSt α
  | 0, s => s
  | m + 1, s => if 0 < s.top ∧ s.top < 63 then wRun m (wIter s) else s

/-- AVL_walk: empty tree emits nothing; otherwise the top node is placed on
the stack (and is also the initial `c` and `p`, so it sits there twice, as
the source comments), and the do-while loop runs to completion.  The fuel
3*size+2 dominates the loop's iteration count (at most one descent, one
visit and one pop per node). -/
def AVL_walk (t : AVL_TREE α) : List α :=
  match t.top with
  | Tree.nil => []
  | Tree.node l b x r =>
    (wRun (3 * sizeT t.top + 2)
      { st := Function.update (fun _ => Tree.nil) 0 (Tree.node l b x r),
        top := 1, c := Tree.node l b x r, p := Tree.node l b x r, out := [] }).out

/-- The sequence of comparator invocations made by AVL_find's search loop,
each recorded as (first argument, second argument) = ((*c).d, k). -/
def findTrace (cmp : α → α → Int) (k : α) : Tree α → List (α × α)
  | Tree.nil => []
  | Tree.node l _ x r =>
    (x, k) :: (if cmp x k = 0 then []
               else if cmp x k < 0 then findTrace cmp k l
               else findTrace cmp k r)

/-- The comparator invocations of AVL_insert's search loop A2-A4 (the A6
balance-update phase repeats a suffix of these calls with the same
argument order). -/
def insTrace (cmp : α → α → Int) (d : α) : Tree α → List (α × α)
  | Tree.nil => []
  | Tree.node l _ x r =>
    (x, d) :: (if cmp x d = 0 then []
               else if cmp x d < 0 then insTrace cmp d l
               else insTrace cmp d r)

/-- The comparator invocations of AVL_delete's path-recording search loop,
which additionally stops when `top` reaches AVL_MAX_DEPTH. -/
def delTrace (cmp : α → α → Int) (k : α) : Nat → Tree α → List (α × α)
  | _, Tree.nil => []
  | dep, Tree.node l _ x r =>
    if 64 ≤ dep then []
    else (x, k) :: (if cmp x k = 0 then []
                    else if cmp x k < 0 then delTrace cmp k (dep + 1) l
                    else delTrace cmp k (dep + 1) r)

/-- Modelled from the spec (claim C10 wording): the search visits a node,
passes the stored payload as the first comparator argument and the
caller-supplied key as the second, descends left exactly when the result
is negative and right exactly when it is positive, and stops on zero. -/
def searchSpecPath (cmp : α → α → Int) (k : α) : Tree α → List (α × α)
  | Tree.nil => []
  | Tree.node l _ x r =>
    if cmp x k < 0 then (x, k) :: searchSpecPath cmp k l
    else if 0 < cmp x k then (x, k) :: searchSpecPath cmp k r
    else [(x, k)]

/-- Depth (0-based, counting edges from the root) at which the standard
comparator-directed search meets the key, if it does. -/
def findDepth (cmp : α → α → Int) (k : α) : Tree α → Option Nat
  | Tree.nil => none
  | Tree.node l _ x r =>
    let e := cmp x k
    if e = 0 then some 0
    else if e < 0 then (findDepth cmp k l).map (· + 1)
    else (findDepth cmp k r).map (· + 1)

/-- The balance invariant: every stored balance factor equals
height(right)−height(left) and lies in -1..1. -/
def okb : Tree α → Bool
  | Tree.nil => true
  | Tree.node l b _ r =>
    okb l && okb r && decide (b = ht r - ht l) && decide (-1 ≤ b ∧ b ≤ 1)

/-- The search-tree ordering invariant induced by a linear order. -/
def ordb [LinearOrder α] : Tree α → Bool
  | Tree.nil => true
  | Tree.node l _ x r =>
    ordb l && ordb r && (keys l).all (fun y => y < x) && (keys r).all (fun y => x < y)

/-- A comparator respecting the comparator contract for a linear order on
payloads: `cmp stored key` is negative exactly when the key is smaller
than the stored payload and positive exactly when it is larger. -/
def LawfulCmp [LinearOrder α] (cmp : α → α → Int) : Prop :=
  ∀ x k : α, (cmp x k < 0 ↔ k < x) ∧ (0 < cmp x k ↔ x < k)

theorem LawfulCmp.eq_iff [LinearOrder α] {cmp : α → α → Int} (h : LawfulCmp cmp)
    (x k : α) : cmp x k = 0 ↔ x = k := by
  rcases h x k with ⟨h1, h2⟩
  constructor
  · intro he
    rcases lt_trichotomy x k with hc | hc | hc
    · exact absurd (h2.mpr hc) (by omega)
    · exact hc
    · exact absurd (h1.mpr hc) (by omega)
  · intro he
    subst he
    have := h1.not.mpr (lt_irrefl x)
    have := h2.not.mpr (lt_irrefl x)
    omega

theorem lawful_exampleEval : LawfulCmp AVL_exampleEval := by
  intro x k
  unfold AVL_exampleEval
  omega

/-!
Arena model for AVL_dealloc.  The slab allocator's reclamation pass reads
raw memory (it walks the free stack through the intrusive `r` links and
scans each slab by address arithmetic from its base node), so it is
modelled over an explicit arena: a list of slabs, each a list of node
cells, a node address being a (slab, offset) pair.  Cell payloads and
balances are irrelevant to AVL_dealloc and omitted; the flag bits and the
two link fields are kept.  The intrusive to-be-freed list that the source
threads through the `l` fields of scheduled base nodes is represented as
the list of scheduled base addresses (those `l` writes land only on cells
of slabs that are subsequently released).
-/

/-- A node address in the arena: (slab index, offset inside slab). -/
abbrev Ptr : Type := Nat × Nat

/-- A raw node cell as AVL_dealloc sees it: the two links and the flag
bits AVL_FLG_USD, AVL_FLG_1ST, AVL_FLG_CLN. -/
structure MNode : Type where
  l : Option Ptr
  r : Option Ptr
  usd : Bool
  fst : Bool
  cln : Bool
  deriving DecidableEq

/-- The arena: the slabs (released ones are `none`), plus the AVL_TREE
fields AVL_dealloc touches or must not touch. -/
structure Arena : Type where
  mem : List (Option (List MNode))
  allocAtOnce : Nat
  freeStack : Option Ptr
  top : Option Ptr
  height : Int
  size : Int
  deriving DecidableEq

/-- Dereference a node address. -/
def getNode (mem : List (Option (List MNode))) (p : Ptr) : Option MNode :=
  match mem.get? p.1 with
  | some (some slab) => slab.get? p.2
  | _ => none

/-- Write one node cell. -/
def setNode (mem : List (Option (List MNode))) (p : Ptr) (n : MNode) :
    List (Option (List MNode)) :=
  match mem.get? p.1 with
  | some (some slab) => mem.set p.1 (some (slab.set p.2 n))
  | _ => mem

/-- Set or clear the AVL_FLG_CLN bit on the first `k` cells of a slab
(the net effect of the mark/unmark loops of AVL_dealloc's first pass). -/
def markCln (v : Bool) (k : Nat) (slab : List MNode) : List MNode :=
  (slab.take k).map (fun m => { m with cln := v }) ++ slab.drop k

/-- Total number of node cells, used as walking fuel. -/
def totalCells (mem : List (Option (List MNode))) : Nat :=
  (mem.map (fun s => (s.getD []).length)).sum

/-- Walk a chain of nodes linked through their `r` fields (the free
stack), with fuel. -/
def chainN (mem : List (Option (List MNode))) : Nat → Option Ptr → List Ptr
  | 0, _ => []
  | _, none => []
  | fuel + 1, some p =>
    p :: (match getNode mem p with
          | none => []
          | some n => chainN mem fuel n.r)

/-- One visit of AVL_dealloc's first pass: on a node carrying the
slab-head bit, scan its batch; if no cell of the batch is in use, mark the
batch for cleansing, schedule its base, and count its cells; otherwise
clear the cleanup bits again.  State: (memory, scheduled bases, count). -/
def pass1Step (k : Nat) (st : List (Option (List MNode)) × List Ptr × Int)
    (p : Ptr) : List (Option (List MNode)) × List Ptr × Int :=
  match getNode st.1 p with
  | none => st
  | some n =>
    if n.fst then
      match st.1.get? p.1 with
      | some (some slab) =>
        if (slab.take k).all (fun m => !m.usd) then
          (st.1.set p.1 (some (markCln true k slab)), st.2.1 ++ [p], st.2.2 + k)
        else
          (st.1.set p.1 (some (markCln false k slab)), st.2.1, st.2.2)
      | _ => st
    else st

/-- One visit of AVL_dealloc's second pass: unlink every node whose
cleanup bit is set, rewiring the predecessor's `r` link (or the free-stack
head).  State: (memory, free-stack head, last retained node). -/
def pass2Step (st : List (Option (List MNode)) × Option Ptr × Option Ptr)
    (p : Ptr) : List (Option (List MNode)) × Option Ptr × Option Ptr :=
  match getNode st.1 p with
  | none => st
  | some n =>
    if n.cln then
      match st.2.2 with
      | some q =>
        match getNode st.1 q with
        | some m => (setNode st.1 q { m with r := n.r }, st.2.1, st.2.2)
        | none => st
      | none => (st.1, n.r, st.2.2)
    else (st.1, st.2.1, some p)

/-- AVL_dealloc: run the free list, scheduling every slab whose cells are
all unused; if anything was scheduled, run the list again unlinking the
scheduled cells, then release the scheduled slabs.  Returns the number of
node cells released together with the new arena. -/
def AVL_dealloc (a : Arena) : Int × Arena :=
  let k := a.allocAtOnce
  let chain := chainN a.mem (totalCells a.mem) a.freeStack
  let p1 := chain.foldl (pass1Step k) (a.mem, [], 0)
  if p1.2.1 = [] then (p1.2.2, { a with mem := p1.1 })
  else
    let p2 := chain.foldl pass2Step (p1.1, a.freeStack, none)
    let mem3 := p1.2.1.foldl (fun m q => m.set q.1 none) p2.1
    (p1.2.2, { a with mem := mem3, freeStack := p2.2.1 })

/-- Live-node addresses reachable from a root pointer, with fuel. -/
def reachN (mem : List (Option (List MNode))) : Nat → Option Ptr → List Ptr
  | 0, _ => []
  | _, none => []
  | fuel + 1, some p =>
    p :: (match getNode mem p with
          | none => []
          | some n => reachN mem fuel n.l ++ reachN mem fuel n.r)

/-- The balance stored at the root of a subtree (0 for NULL). -/
def rootBal : Tree α → Int
  | Tree.nil => 0
  | Tree.node _ b _ _ => b

/-- Leftmost payload of a subtree, anchored at the payload of its parent:
the in-order successor choice "go right once, then left to the end". -/
def leftmostD : Tree α → α → α
  | Tree.nil, d => d
  | Tree.node l _ x _, _ => leftmostD l x

/-- Rightmost payload, the mirrored in-order predecessor choice. -/
def rightmostD : α → Tree α → α
  | d, Tree.nil => d
  | _, Tree.node _ _ x r => rightmostD x r

/-!  Basic lemmas about the invariant predicates.  -/

theorem okb_node {l r : Tree α} {b : Int} {x : α} :
    okb (Tree.node l b x r) = true ↔
      okb l = true ∧ okb r = true ∧ b = ht r - ht l ∧ -1 ≤ b ∧ b ≤ 1 := by
  simp [okb, and_assoc]

theorem ht_node {l r : Tree α} {b : Int} {x : α} :
    ht (Tree.node l b x r) = 1 + max (ht l) (ht r) := rfl

theorem keys_node {l r : Tree α} {b : Int} {x : α} :
    keys (Tree.node l b x r) = keys l ++ x :: keys r := rfl

theorem keys_eq_nil {t : Tree α} : keys t = [] ↔ t = Tree.nil := by
  cases t with
  | nil => simp [keys]
  | node l b x r => simp [keys]

theorem ordb_node [LinearOrder α] {l r : Tree α} {b : Int} {x : α} :
    ordb (Tree.node l b x r) = true ↔
      ordb l = true ∧ ordb r = true ∧
      (∀ y ∈ keys l, y < x) ∧ (∀ y ∈ keys r, x < y) := by
  simp [ordb, List.all_eq_true, and_assoc]

theorem ordb_iff_sorted [LinearOrder α] {t : Tree α} :
    ordb t = true ↔ (keys t).Sorted (· < ·) := by
  induction t with
  | nil => simp [ordb, keys]
  | node l b x r ihl ihr =>
    rw [ordb_node, keys_node, ihl, ihr]
    show _ ↔ List.Pairwise _ _
    rw [List.pairwise_append]
    constructor
    · rintro ⟨h1, h2, h3, h4⟩
      refine ⟨h1, List.pairwise_cons.mpr ⟨h4, h2⟩, ?_⟩
      intro a ha y hy
      rcases List.mem_cons.mp hy with rfl | hy
      · exact h3 a ha
      · exact lt_trans (h3 a ha) (h4 y hy)
    · rintro ⟨h1, h2, h3⟩
      rcases List.pairwise_cons.mp h2 with ⟨h4, h5⟩
      refine ⟨h1, h5, ?_, h4⟩
      intro y hy
      exact h3 y hy x (List.mem_cons_self x _)

/-!  Claim C9: slab-size arguments below 1 are silently clamped.  -/

/-- C9: for every slab-size argument less than 1 (zero or negative),
AVL_newTree does not reject the argument: it silently clamps the per-batch
allocation count to 1 and returns a valid empty tree (no root, height 0,
size 0, empty free stack). -/
theorem claim_c9 (a : Int) (h : a < 1) :
    AVL_newTree (α := α) a = AVL_newTree 1 ∧
    (AVL_newTree (α := α) a).allocAtOnce = 1 ∧
    (AVL_newTree (α := α) a).top = Tree.nil ∧
    (AVL_newTree (α := α) a).height = 0 ∧
    (AVL_newTree (α := α) a).size = 0 ∧
    (AVL_newTree (α := α) a).freeStack = [] := by
  simp [AVL_newTree, if_pos h]

theorem claim_c9_witness :
    (-3 : Int) < 1 ∧
    (AVL_newTree (α := Int) (-3) = AVL_newTree 1 ∧
     (AVL_newTree (α := Int) (-3)).allocAtOnce = 1 ∧
     (AVL_newTree (α := Int) (-3)).top = Tree.nil ∧
     (AVL_newTree (α := Int) (-3)).height = 0 ∧
     (AVL_newTree (α := Int) (-3)).size = 0 ∧
     (AVL_newTree (α := Int) (-3)).freeStack = []) :=
  ⟨by decide, claim_c9 (-3) (by decide)⟩

/-!  Claim C4: failed mutations leave the whole handle unchanged.  -/

/-- C4: a failed mutation leaves the tree exactly as it was: an insert
returning already-present (rc 1) or allocation-failure (rc 2) and a delete
returning the not-found sentinel leave every field of the handle — root,
all node links and balances, size, height, and the free list — unchanged;
in particular deleting an absent key twice returns not-found both times
with no mutation. -/
theorem claim_c4 (cmp : α → α → Int) (mallocOk : Bool) (t : AVL_TREE α) (d k : α) :
    ((AVL_insert cmp mallocOk t d).1 = 1 → (AVL_insert cmp mallocOk t d).2 = t) ∧
    ((AVL_insert cmp mallocOk t d).1 = 2 → (AVL_insert cmp mallocOk t d).2 = t) ∧
    ((AVL_delete cmp t k).1 = none → (AVL_delete cmp t k).2 = t) ∧
    ((AVL_delete cmp t k).1 = none →
      (AVL_delete cmp (AVL_delete cmp t k).2 k).1 = none ∧
      (AVL_delete cmp (AVL_delete cmp t k).2 k).2 = t) := by
  have hins : ((AVL_insert cmp mallocOk t d).1 = 1 → (AVL_insert cmp mallocOk t d).2 = t) ∧
      ((AVL_insert cmp mallocOk t d).1 = 2 → (AVL_insert cmp mallocOk t d).2 = t) := by
    unfold AVL_insert
    cases hE : insE cmp d t.top with
    | none => exact ⟨fun _ => rfl, fun _ => by simp at *⟩
    | some res =>
      obtain ⟨t', g, evs⟩ := res
      cases hN : AVL_newNode mallocOk t with
      | none => exact ⟨fun h => by simp at h, fun _ => rfl⟩
      | some t1 => exact ⟨fun h => by simp at h, fun h => by simp at h⟩
  have hdel : (AVL_delete cmp t k).1 = none → (AVL_delete cmp t k).2 = t := by
    unfold AVL_delete
    cases ht : t.top with
    | nil => intro _; rfl
    | node l b x r =>
      cases hE : delE cmp k 0 (Tree.node l b x r) with
      | none => intro _; simp only [hE]
      | some res =>
        obtain ⟨d0, t', h, ev⟩ := res
        intro hcontra
        simp only [hE] at hcontra
        simp at hcontra
  refine ⟨hins.1, hins.2, hdel, fun hnone => ?_⟩
  have h2 := hdel hnone
  rw [h2]
  exact ⟨hnone, h2⟩

theorem claim_c4_witness :
    ((AVL_insert AVL_exampleEval true
        { freeStack := [], allocAtOnce := 1,
          top := Tree.node Tree.nil 0 (5 : Int) Tree.nil,
          height := 1, size := 1 } 5).1 = 1 ∧
     (AVL_insert AVL_exampleEval true
        { freeStack := [], allocAtOnce := 1,
          top := Tree.node Tree.nil 0 (5 : Int) Tree.nil,
          height := 1, size := 1 } 5).2 =
       { freeStack := [], allocAtOnce := 1,
         top := Tree.node Tree.nil 0 (5 : Int) Tree.nil,
         height := 1, size := 1 }) ∧
    ((AVL_delete AVL_exampleEval
        { freeStack := [], allocAtOnce := 1,
          top := Tree.node Tree.nil 0 (5 : Int) Tree.nil,
          height := 1, size := 1 } 7).1 = none ∧
     (AVL_delete AVL_exampleEval
        { freeStack := [], allocAtOnce := 1,
          top := Tree.node Tree.nil 0 (5 : Int) Tree.nil,
          height := 1, size := 1 } 7).2 =
       { freeStack := [], allocAtOnce := 1,
         top := Tree.node Tree.nil 0 (5 : Int) Tree.nil,
         height := 1, size := 1 }) := by
  constructor
  · constructor
    · decide
    · exact (claim_c4 AVL_exampleEval true _ 5 7).1 (by decide)
  · constructor
    · decide
    · exact (claim_c4 AVL_exampleEval true _ 5 7).2.2.1 (by decide)

/-!  Claim C10: comparator argument order and descent direction.  -/

theorem findTrace_mem (cmp : α → α → Int) (k : α) (t : Tree α) :
    ∀ pr ∈ findTrace cmp k t, pr.2 = k ∧ pr.1 ∈ keys t := by
  induction t with
  | nil => simp [findTrace]
  | node l b x r ihl ihr =>
    intro pr hpr
    simp only [findTrace, List.mem_cons] at hpr
    rcases hpr with rfl | hpr
    · exact ⟨rfl, by simp [keys_node]⟩
    · split at hpr
      · simp at hpr
      · split at hpr
        · rcases ihl pr hpr with ⟨h1, h2⟩
          refine ⟨h1, ?_⟩
          simp only [keys_node, List.mem_append, List.mem_cons]
          exact Or.inl h2
        · rcases ihr pr hpr with ⟨h1, h2⟩
          refine ⟨h1, ?_⟩
          simp only [keys_node, List.mem_append, List.mem_cons]
          exact Or.inr (Or.inr h2)

theorem findTrace_eq_spec (cmp : α → α → Int) (k : α) (t : Tree α) :
    findTrace cmp k t = searchSpecPath cmp k t := by
  induction t with
  | nil => rfl
  | node l b x r ihl ihr =>
    simp only [findTrace, searchSpecPath]
    rcases lt_trichotomy (cmp x k) 0 with hc | hc | hc
    · rw [if_neg (by omega), if_pos hc, if_pos hc, ihl]
    · rw [if_pos hc, if_neg (by omega), if_neg (by omega)]
    · rw [if_neg (by omega), if_neg (by omega), if_neg (by omega), if_pos hc, ihr]

theorem insTrace_eq_find (cmp : α → α → Int) (d : α) (t : Tree α) :
    insTrace cmp d t = findTrace cmp d t := by
  induction t with
  | nil => rfl
  | node l b x r ihl ihr => simp only [insTrace, findTrace, ihl, ihr]

theorem delTrace_eq_find (cmp : α → α → Int) (k : α) (t : Tree α) :
    ∀ dep : Nat, ht t + dep ≤ 64 → delTrace cmp k dep t = findTrace cmp k t := by
  induction t with
  | nil => intro dep _; rfl
  | node l b x r ihl ihr =>
    intro dep hdep
    have hl := ht_nonneg l
    have hr := ht_nonneg r
    rw [ht_node] at hdep
    simp only [delTrace, findTrace]
    rw [if_neg (by omega)]
    rw [ihl (dep + 1) (by omega), ihr (dep + 1) (by omega)]

theorem insE_none_iff_found (cmp : α → α → Int) (d : α) (t : Tree α) :
    insE cmp d t = none ↔ (findGo cmp d t).isSome = true := by
  induction t with
  | nil => simp [insE, findGo]
  | node l b x r ihl ihr =>
    rcases lt_trichotomy (cmp x d) 0 with hc | hc | hc
    · have h0 : ¬(cmp x d = 0) := by omega
      simp only [insE, findGo, if_neg h0, if_pos hc]
      rw [← ihl]
      cases hE : insE cmp d l with
      | none => simp
      | some res => obtain ⟨l', g, evs⟩ := res; simp
    · simp [insE, findGo, hc]
    · have h0 : ¬(cmp x d = 0) := by omega
      have h1 : ¬(cmp x d < 0) := by omega
      simp only [insE, findGo, if_neg h0, if_neg h1]
      rw [← ihr]
      cases hE : insE cmp d r with
      | none => simp
      | some res => obtain ⟨r', g, evs⟩ := res; simp

theorem delE_isSome_iff_found (cmp : α → α → Int) (k : α) (t : Tree α) :
    ∀ dep : Nat, ht t + dep ≤ 64 →
      ((delE cmp k dep t).isSome = true ↔ (findGo cmp k t).isSome = true) := by
  induction t with
  | nil => intro dep _; simp [delE, findGo]
  | node l b x r ihl ihr =>
    intro dep hdep
    have hl := ht_nonneg l
    have hr := ht_nonneg r
    rw [ht_node] at hdep
    have hg : ¬(64 ≤ dep) := by omega
    rcases lt_trichotomy (cmp x k) 0 with hc | hc | hc
    · have h0 : ¬(cmp x k = 0) := by omega
      simp only [delE, findGo, if_neg hg, if_neg h0, if_pos hc]
      rw [← ihl (dep + 1) (by omega)]
      cases hE : delE cmp k (dep + 1) l with
      | none => simp
      | some res => obtain ⟨d0, l', h, ev⟩ := res; simp
    · simp only [delE, findGo, if_neg hg, if_pos hc]
      cases l with
      | nil => simp
      | node ll lb lx lr =>
        cases r with
        | nil => simp
        | node rl rb rx rr =>
          by_cases hb : 0 < b
          · simp [hb]
          · simp [hb]
    · have h0 : ¬(cmp x k = 0) := by omega
      have h1 : ¬(cmp x k < 0) := by omega
      simp only [delE, findGo, if_neg hg, if_neg h0, if_neg h1]
      rw [← ihr (dep + 1) (by omega)]
      cases hE : delE cmp k (dep + 1) r with
      | none => simp
      | some res => obtain ⟨d0, r', h, ev⟩ := res; simp

/-- C10: in find, insert and delete, every comparator call of the search
passes the stored node's payload first and the caller-supplied key second
(the trace entries are (visited payload, key) pairs over payloads stored in
the tree), and all three searches follow the spec-side descent rule — left
exactly on a negative result, right exactly on a positive one — so that the
three operations' searches agree (insert reports already-present exactly
when find succeeds; delete, within the depth bound, finds exactly when find
does). -/
theorem claim_c10 (cmp : α → α → Int) (t : Tree α) (k : α) :
    (∀ pr ∈ findTrace cmp k t, pr.2 = k ∧ pr.1 ∈ keys t) ∧
    findTrace cmp k t = searchSpecPath cmp k t ∧
    insTrace cmp k t = searchSpecPath cmp k t ∧
    (ht t ≤ 64 → delTrace cmp k 0 t = searchSpecPath cmp k t) ∧
    (insE cmp k t = none ↔ (findGo cmp k t).isSome = true) ∧
    (ht t ≤ 64 → ((delE cmp k 0 t).isSome = true ↔ (findGo cmp k t).isSome = true)) := by
  refine ⟨findTrace_mem cmp k t, findTrace_eq_spec cmp k t, ?_, ?_, ?_, ?_⟩
  · rw [insTrace_eq_find, findTrace_eq_spec]
  · intro hht
    rw [delTrace_eq_find cmp k t 0 (by omega), findTrace_eq_spec]
  · exact insE_none_iff_found cmp k t
  · intro hht
    exact delE_isSome_iff_found cmp k t 0 (by omega)

theorem claim_c10_witness :
    ((∀ pr ∈ findTrace AVL_exampleEval 4
        (Tree.node (Tree.node Tree.nil 0 (3 : Int) Tree.nil) 0 5
          (Tree.node Tree.nil 0 8 Tree.nil)),
        pr.2 = 4 ∧ pr.1 ∈ keys (Tree.node (Tree.node Tree.nil 0 (3 : Int) Tree.nil) 0 5
          (Tree.node Tree.nil 0 8 Tree.nil))) ∧
     findTrace AVL_exampleEval 4 (Tree.node (Tree.node Tree.nil 0 (3 : Int) Tree.nil) 0 5
        (Tree.node Tree.nil 0 8 Tree.nil)) =
       searchSpecPath AVL_exampleEval 4 (Tree.node (Tree.node Tree.nil 0 (3 : Int) Tree.nil) 0 5
        (Tree.node Tree.nil 0 8 Tree.nil)) ∧
     insTrace AVL_exampleEval 4 (Tree.node (Tree.node Tree.nil 0 (3 : Int) Tree.nil) 0 5
        (Tree.node Tree.nil 0 8 Tree.nil)) =
       searchSpecPath AVL_exampleEval 4 (Tree.node (Tree.node Tree.nil 0 (3 : Int) Tree.nil) 0 5
        (Tree.node Tree.nil 0 8 Tree.nil)) ∧
     (ht (Tree.node (Tree.node Tree.nil 0 (3 : Int) Tree.nil) 0 5
        (Tree.node Tree.nil 0 8 Tree.nil)) ≤ 64 →
      delTrace AVL_exampleEval 4 0 (Tree.node (Tree.node Tree.nil 0 (3 : Int) Tree.nil) 0 5
        (Tree.node Tree.nil 0 8 Tree.nil)) =
        searchSpecPath AVL_exampleEval 4 (Tree.node (Tree.node Tree.nil 0 (3 : Int) Tree.nil) 0 5
          (Tree.node Tree.nil 0 8 Tree.nil))) ∧
     (insE AVL_exampleEval 4 (Tree.node (Tree.node Tree.nil 0 (3 : Int) Tree.nil) 0 5
        (Tree.node Tree.nil 0 8 Tree.nil)) = none ↔
      (findGo AVL_exampleEval 4 (Tree.node (Tree.node Tree.nil 0 (3 : Int) Tree.nil) 0 5
        (Tree.node Tree.nil 0 8 Tree.nil))).isSome = true) ∧
     (ht (Tree.node (Tree.node Tree.nil 0 (3 : Int) Tree.nil) 0 5
        (Tree.node Tree.nil 0 8 Tree.nil)) ≤ 64 →
      ((delE AVL_exampleEval 4 0 (Tree.node (Tree.node Tree.nil 0 (3 : Int) Tree.nil) 0 5
          (Tree.node Tree.nil 0 8 Tree.nil))).isSome = true ↔
       (findGo AVL_exampleEval 4 (Tree.node (Tree.node Tree.nil 0 (3 : Int) Tree.nil) 0 5
          (Tree.node Tree.nil 0 8 Tree.nil))).isSome = true))) :=
  claim_c10 AVL_exampleEval
    (Tree.node (Tree.node Tree.nil 0 (3 : Int) Tree.nil) 0 5
      (Tree.node Tree.nil 0 8 Tree.nil)) 4

/-!
Claim C8: behaviour at the AVL_MAX_DEPTH limit.  The search loop of
AVL_delete is guarded by `top<AVL_MAX_DEPTH`, so the bounded path stack is
never overrun; but falling out of the loop leaves d=NULL and the function
returns NULL — the same sentinel as an absent key, not a distinct
outcome.
-/

/-- A right-going chain of `n` nodes with consecutive integer payloads
starting at `v`: payload `v + i` sits at depth `i`. -/
def spine (v : Int) : Nat → Tree Int
  | 0 => Tree.nil
  | n + 1 => Tree.node Tree.nil 1 v (spine (v + 1) n)

/-- A handle whose tree is 65 levels deep, so that the payload 64 sits at
depth 64 = AVL_MAX_DEPTH on the search path. -/
def c8tree : AVL_TREE Int :=
  { freeStack := [], allocAtOnce := 1, top := spine 0 65, height := 65, size := 65 }

/-- Counterexample to C8 as stated: the key 64 lies at depth 64, beyond
the limit for delete's path recording; AVL_find still returns it, but
AVL_delete reports plain not-found (NULL) — exactly the outcome the claim
says it must not report — and an absent key (99) yields the
indistinguishable same result. -/
theorem claim_c8_counterexample :
    AVL_find AVL_exampleEval c8tree 64 = some 64 ∧
    (AVL_delete AVL_exampleEval c8tree 64).1 = none ∧
    (AVL_delete AVL_exampleEval c8tree 64).2 = c8tree ∧
    (AVL_delete AVL_exampleEval c8tree 99).1 = none := by
  refine ⟨?_, ?_, ?_, ?_⟩ <;> rfl

theorem delE_none_of_deep (cmp : α → α → Int) (k : α) (t : Tree α) :
    ∀ (dep dp : Nat), findDepth cmp k t = some dp → 64 ≤ dep + dp →
      delE cmp k dep t = none := by
  induction t with
  | nil => intro dep dp h1 _; simp [findDepth] at h1
  | node l b x r ihl ihr =>
    intro dep dp h1 h2
    by_cases hg : 64 ≤ dep
    · simp [delE, if_pos hg]
    · rcases lt_trichotomy (cmp x k) 0 with hc | hc | hc
      · have h0 : ¬(cmp x k = 0) := by omega
        simp only [findDepth, if_neg h0, if_pos hc, Option.map_eq_some'] at h1
        rcases h1 with ⟨dp', hdp', rfl⟩
        have : delE cmp k (dep + 1) l = none := ihl (dep + 1) dp' hdp' (by omega)
        simp only [delE, if_neg hg, if_neg h0, if_pos hc, this]
      · simp only [findDepth, if_pos hc, Option.some_inj] at h1
        omega
      · have h0 : ¬(cmp x k = 0) := by omega
        have hneg : ¬(cmp x k < 0) := by omega
        simp only [findDepth, if_neg h0, if_neg hneg, Option.map_eq_some'] at h1
        rcases h1 with ⟨dp', hdp', rfl⟩
        have : delE cmp k (dep + 1) r = none := ihr (dep + 1) dp' hdp' (by omega)
        simp only [delE, if_neg hg, if_neg h0, if_neg hneg, this]

/-- C8 amended: when the key lies at or beyond depth AVL_MAX_DEPTH, the
search loop guard stops the descent before the bounded path stack is
overrun, and AVL_delete returns the plain not-found sentinel with no
mutation — it is not surfaced as an outcome distinct from not-found. -/
theorem claim_c8_amended (cmp : α → α → Int) (t : AVL_TREE α) (k : α) (dp : Nat)
    (h1 : findDepth cmp k t.top = some dp) (h2 : 64 ≤ dp) :
    AVL_delete cmp t k = (none, t) := by
  unfold AVL_delete
  cases htt : t.top with
  | nil => rfl
  | node l b x r =>
    rw [htt] at h1
    have hnone : delE cmp k 0 (Tree.node l b x r) = none :=
      delE_none_of_deep cmp k _ 0 dp h1 (by omega)
    simp only [hnone]

theorem claim_c8_amended_witness :
    findDepth AVL_exampleEval 64 c8tree.top = some 64 ∧ 64 ≤ 64 ∧
    AVL_delete AVL_exampleEval c8tree 64 = (none, c8tree) :=
  ⟨rfl, by omega, claim_c8_amended AVL_exampleEval c8tree 64 64 rfl (by omega)⟩

/-!
Correctness of the delete-rebalancing rotation block.  Each evaluation
lemma pins down `rotateFix` on one shape; the two main lemmas show that a
+2 / -2 node with balanced subtrees is rotated back into a balanced
subtree whose height change matches the returned signal.
-/

theorem rotFix_id {l r : Tree α} {b : Int} {x : α} (h0 : Int)
    (h1 : -1 ≤ b) (h2 : b ≤ 1) :
    rotateFix (Tree.node l b x r) h0 = (Tree.node l b x r, h0) := by
  simp only [rotateFix, if_neg (by omega : ¬b = 2), if_neg (by omega : ¬b = -2)]

theorem rotFix_sc1_z {l rl cl cr : Tree α} {x rx cx : α} {cb : Int} (h0 : Int) :
    rotateFix (Tree.node l 2 x (Tree.node rl 0 rx (Tree.node cl cb cx cr))) h0 =
      (Tree.node (Tree.node l 1 x rl) (-1) rx (Tree.node cl cb cx cr), 0) := by
  simp [rotateFix]

theorem rotFix_sc1_p {l rl cl cr : Tree α} {x rx cx : α} {cb : Int} (h0 : Int) :
    rotateFix (Tree.node l 2 x (Tree.node rl 1 rx (Tree.node cl cb cx cr))) h0 =
      (Tree.node (Tree.node l 0 x rl) 0 rx (Tree.node cl cb cx cr), -1) := by
  simp [rotateFix]

theorem rotFix_sc2 {l cl cr rr : Tree α} {x cx rx : α} {cb : Int} (h0 : Int) :
    rotateFix (Tree.node l 2 x (Tree.node (Tree.node cl cb cx cr) (-1) rx rr)) h0 =
      (Tree.node (Tree.node l (if cb = -1 then 0 else if cb = 0 then 0 else -1) x cl)
        0 cx (Tree.node cr (if cb = -1 then 1 else 0) rx rr), -1) := by
  simp [rotateFix]

theorem rotFix_m_sc1_z {cl cr lr r : Tree α} {cx lx x : α} {cb : Int} (h0 : Int) :
    rotateFix (Tree.node (Tree.node (Tree.node cl cb cx cr) 0 lx lr) (-2) x r) h0 =
      (Tree.node (Tree.node cl cb cx cr) 1 lx (Tree.node lr (-1) x r), 0) := by
  simp [rotateFix]

theorem rotFix_m_sc1_n {cl cr lr r : Tree α} {cx lx x : α} {cb : Int} (h0 : Int) :
    rotateFix (Tree.node (Tree.node (Tree.node cl cb cx cr) (-1) lx lr) (-2) x r) h0 =
      (Tree.node (Tree.node cl cb cx cr) 0 lx (Tree.node lr 0 x r), -1) := by
  simp [rotateFix]

theorem rotFix_m_sc2 {ll cl cr r : Tree α} {lx cx x : α} {cb : Int} (h0 : Int) :
    rotateFix (Tree.node (Tree.node ll 1 lx (Tree.node cl cb cx cr)) (-2) x r) h0 =
      (Tree.node (Tree.node ll (if cb = 1 then -1 else 0) lx cl) 0 cx
        (Tree.node cr (if cb = 1 then 0 else if cb = 0 then 0 else 1) x r), -1) := by
  simp [rotateFix]

theorem rotateFix_keys (t : Tree α) (h0 : Int) : keys (rotateFix t h0).1 = keys t := by
  cases t with
  | nil => rfl
  | node l b x r =>
    by_cases hb : b = 2
    · subst hb
      cases r with
      | nil => simp [rotateFix]
      | node rl rb rx rr =>
        by_cases hle : 0 ≤ rb
        · cases rr with
          | nil => simp [rotateFix, if_pos hle]
          | node cl cb cx cr =>
            by_cases hz : rb = 0 <;>
              simp [rotateFix, if_pos hle, hz, keys_node, List.append_assoc]
        · cases rl with
          | nil => simp [rotateFix, if_neg hle]
          | node cl cb cx cr =>
            simp [rotateFix, if_neg hle, keys_node, List.append_assoc]
    · by_cases hb' : b = -2
      · subst hb'
        cases l with
        | nil => simp [rotateFix, hb]
        | node ll lb lx lr =>
          by_cases hle : lb ≤ 0
          · cases ll with
            | nil => simp [rotateFix, hb, if_pos hle]
            | node cl cb cx cr =>
              by_cases hz : lb = 0 <;>
                simp [rotateFix, hb, if_pos hle, hz, keys_node, List.append_assoc]
          · cases lr with
            | nil => simp [rotateFix, hb, if_neg hle]
            | node cl cb cx cr =>
              simp [rotateFix, hb, if_neg hle, keys_node, List.append_assoc]
      · simp [rotateFix, hb, hb']

theorem rotateFix_two {l r : Tree α} {x : α} (h0 : Int)
    (hl : okb l = true) (hr : okb r = true) (hd : ht r = ht l + 2) :
    okb (rotateFix (Tree.node l 2 x r) h0).1 = true ∧
    ((rotateFix (Tree.node l 2 x r) h0).2 = -1 ∨ (rotateFix (Tree.node l 2 x r) h0).2 = 0) ∧
    ht (rotateFix (Tree.node l 2 x r) h0).1 = 1 + ht r + (rotateFix (Tree.node l 2 x r) h0).2 := by
  cases r with
  | nil =>
    exfalso
    have := ht_nonneg l
    simp only [ht] at hd
    omega
  | node rl rb rx rr =>
    rcases okb_node.mp hr with ⟨hrl, hrr, hrb, hrb1, hrb2⟩
    have hhl := ht_nonneg l
    have hhrl := ht_nonneg rl
    have hhrr := ht_nonneg rr
    rw [ht_node] at hd
    have hcases : rb = -1 ∨ rb = 0 ∨ rb = 1 := by omega
    rcases hcases with hc | hc | hc
    · -- scenario 2: the heavy grandchild is on the inner side
      subst hc
      cases rl with
      | nil => exfalso; simp only [ht] at hrb hd; omega
      | node cl cb cx cr =>
        rcases okb_node.mp hrl with ⟨hcl, hcr, hcb, hcb1, hcb2⟩
        have hhcl := ht_nonneg cl
        have hhcr := ht_nonneg cr
        rw [ht_node] at hrb hd
        rw [rotFix_sc2 h0]
        refine ⟨?_, Or.inl rfl, ?_⟩
        · rw [okb_node, okb_node, okb_node]
          refine ⟨⟨hl, hcl, ?_, ?_, ?_⟩, ⟨hcr, hrr, ?_, ?_, ?_⟩, ?_, ?_, ?_⟩ <;>
            (try simp only [ht_node]) <;> (try split_ifs) <;> omega
        · simp only [ht_node]
          omega
    · -- scenario 1, heavy child balanced
      subst hc
      cases rr with
      | nil => exfalso; simp only [ht] at hrb hd; omega
      | node cl cb cx cr =>
        rw [ht_node] at hrb hd
        rw [rotFix_sc1_z h0]
        refine ⟨?_, Or.inr rfl, ?_⟩
        · rw [okb_node, okb_node]
          exact ⟨⟨hl, hrl, by omega, by omega, by omega⟩, hrr,
            by (try simp only [ht_node]); omega, by (try simp only [ht_node]); omega,
            by (try simp only [ht_node]); omega⟩
        · simp only [ht_node]
          omega
    · -- scenario 1, heavy child leaning out
      subst hc
      cases rr with
      | nil => exfalso; simp only [ht] at hrb hd; omega
      | node cl cb cx cr =>
        rw [ht_node] at hrb hd
        rw [rotFix_sc1_p h0]
        refine ⟨?_, Or.inl rfl, ?_⟩
        · rw [okb_node, okb_node]
          exact ⟨⟨hl, hrl, by omega, by omega, by omega⟩, hrr,
            by (try simp only [ht_node]); omega, by (try simp only [ht_node]); omega,
            by (try simp only [ht_node]); omega⟩
        · simp only [ht_node]
          omega

theorem rotateFix_negtwo {l r : Tree α} {x : α} (h0 : Int)
    (hl : okb l = true) (hr : okb r = true) (hd : ht l = ht r + 2) :
    okb (rotateFix (Tree.node l (-2) x r) h0).1 = true ∧
    ((rotateFix (Tree.node l (-2) x r) h0).2 = -1 ∨ (rotateFix (Tree.node l (-2) x r) h0).2 = 0) ∧
    ht (rotateFix (Tree.node l (-2) x r) h0).1 = 1 + ht l + (rotateFix (Tree.node l (-2) x r) h0).2 := by
  cases l with
  | nil =>
    exfalso
    have := ht_nonneg r
    simp only [ht] at hd
    omega
  | node ll lb lx lr =>
    rcases okb_node.mp hl with ⟨hll, hlr, hlb, hlb1, hlb2⟩
    have hhr := ht_nonneg r
    have hhll := ht_nonneg ll
    have hhlr := ht_nonneg lr
    rw [ht_node] at hd
    have hcases : lb = -1 ∨ lb = 0 ∨ lb = 1 := by omega
    rcases hcases with hc | hc | hc
    · -- mirrored scenario 1, heavy child leaning out
      subst hc
      cases ll with
      | nil => exfalso; simp only [ht] at hlb hd; omega
      | node cl cb cx cr =>
        rw [ht_node] at hlb hd
        rw [rotFix_m_sc1_n h0]
        refine ⟨?_, Or.inl rfl, ?_⟩
        · rw [okb_node]
          refine ⟨hll, ?_, ?_, ?_, ?_⟩
          · rw [okb_node]
            exact ⟨hlr, hr, by omega, by omega, by omega⟩
          all_goals ((try simp only [ht_node]); omega)
        · simp only [ht_node]
          omega
    · -- mirrored scenario 1, heavy child balanced
      subst hc
      cases ll with
      | nil => exfalso; simp only [ht] at hlb hd; omega
      | node cl cb cx cr =>
        rw [ht_node] at hlb hd
        rw [rotFix_m_sc1_z h0]
        refine ⟨?_, Or.inr rfl, ?_⟩
        · rw [okb_node]
          refine ⟨hll, ?_, ?_, ?_, ?_⟩
          · rw [okb_node]
            exact ⟨hlr, hr, by omega, by omega, by omega⟩
          all_goals ((try simp only [ht_node]); omega)
        · simp only [ht_node]
          omega
    · -- mirrored scenario 2
      subst hc
      cases lr with
      | nil => exfalso; simp only [ht] at hlb hd; omega
      | node cl cb cx cr =>
        rcases okb_node.mp hlr with ⟨hcl, hcr, hcb, hcb1, hcb2⟩
        have hhcl := ht_nonneg cl
        have hhcr := ht_nonneg cr
        rw [ht_node] at hlb hd
        rw [rotFix_m_sc2 h0]
        refine ⟨?_, Or.inl rfl, ?_⟩
        · rw [okb_node, okb_node, okb_node]
          refine ⟨⟨hll, hcl, ?_, ?_, ?_⟩, ⟨hcr, hr, ?_, ?_, ?_⟩, ?_, ?_, ?_⟩ <;>
            (try simp only [ht_node]) <;> (try split_ifs) <;> omega
        · simp only [ht_node]
          omega

/-- The shared shape of one bottom-up step of AVL_delete's rebalancing
when the LEFT subtree of a path node shrank: the unconditional
`AVL_incbal` on the parent (performed while the height-change signal is
nonzero), the recomputation of the signal from whether the parent became
balanced, and the rotation block.  Restores the balance invariant and
reports the height change of the whole subtree. -/
theorem stepFix_left {l r l2 : Tree α} {b hc b2 hm : Int} {x : α}
    (hok : okb (Tree.node l b x r) = true)
    (hl2 : okb l2 = true) (hht : ht l2 = ht l + hc) (hhc : hc = -1 ∨ hc = 0)
    (hb2 : b2 = if hc ≠ 0 then b + 1 else b)
    (hhm : hm = if hc ≠ 0 then (if b2 = 0 then -1 else 0) else 0) :
    okb (rotateFix (Tree.node l2 b2 x r) hm).1 = true ∧
    ((rotateFix (Tree.node l2 b2 x r) hm).2 = -1 ∨
     (rotateFix (Tree.node l2 b2 x r) hm).2 = 0) ∧
    ht (rotateFix (Tree.node l2 b2 x r) hm).1 = ht (Tree.node l b x r) +
      (rotateFix (Tree.node l2 b2 x r) hm).2 := by
  rcases okb_node.mp hok with ⟨hl, hr, hb, hb1a, hb1b⟩
  have hhl := ht_nonneg l
  have hhr := ht_nonneg r
  rcases hhc with hc1 | hc1
  · subst hc1
    simp only [if_pos (by omega : (-1 : Int) ≠ 0)] at hb2 hhm
    by_cases h2 : b2 = 2
    · have hb' : b = 1 := by omega
      have hd : ht r = ht l2 + 2 := by omega
      subst h2
      have := rotateFix_two (x := x) hm hl2 hr hd
      refine ⟨this.1, this.2.1, ?_⟩
      rw [this.2.2, ht_node]
      omega
    · rw [hb2] at h2 ⊢
      rw [rotFix_id hm (by omega) (by omega)]
      refine ⟨okb_node.mpr ⟨hl2, hr, by omega, by omega, by omega⟩, ?_, ?_⟩
      · rw [hhm, hb2]
        split_ifs <;> simp
      · rw [hhm, hb2]
        simp only [ht_node]
        split_ifs <;> omega
  · subst hc1
    simp only [ne_eq, not_true_eq_false, if_false] at hb2 hhm
    subst hb2
    subst hhm
    rw [rotFix_id 0 (by omega) (by omega)]
    refine ⟨okb_node.mpr ⟨hl2, hr, by omega, by omega, by omega⟩, by simp, ?_⟩
    simp only [ht_node]
    omega

/-- Mirror of `stepFix_left` for a shrink of the RIGHT subtree
(`AVL_decbal`). -/
theorem stepFix_right {l r r2 : Tree α} {b hc b2 hm : Int} {x : α}
    (hok : okb (Tree.node l b x r) = true)
    (hr2 : okb r2 = true) (hht : ht r2 = ht r + hc) (hhc : hc = -1 ∨ hc = 0)
    (hb2 : b2 = if hc ≠ 0 then b - 1 else b)
    (hhm : hm = if hc ≠ 0 then (if b2 = 0 then -1 else 0) else 0) :
    okb (rotateFix (Tree.node l b2 x r2) hm).1 = true ∧
    ((rotateFix (Tree.node l b2 x r2) hm).2 = -1 ∨
     (rotateFix (Tree.node l b2 x r2) hm).2 = 0) ∧
    ht (rotateFix (Tree.node l b2 x r2) hm).1 = ht (Tree.node l b x r) +
      (rotateFix (Tree.node l b2 x r2) hm).2 := by
  rcases okb_node.mp hok with ⟨hl, hr, hb, hb1a, hb1b⟩
  have hhl := ht_nonneg l
  have hhr := ht_nonneg r
  rcases hhc with hc1 | hc1
  · subst hc1
    simp only [if_pos (by omega : (-1 : Int) ≠ 0)] at hb2 hhm
    by_cases h2 : b2 = -2
    · have hb' : b = -1 := by omega
      have hd : ht l = ht r2 + 2 := by omega
      subst h2
      have := rotateFix_negtwo (x := x) hm hl hr2 hd
      refine ⟨this.1, this.2.1, ?_⟩
      rw [this.2.2, ht_node]
      omega
    · rw [hb2] at h2 ⊢
      rw [rotFix_id hm (by omega) (by omega)]
      refine ⟨okb_node.mpr ⟨hl, hr2, by omega, by omega, by omega⟩, ?_, ?_⟩
      · rw [hhm, hb2]
        split_ifs <;> simp
      · rw [hhm, hb2]
        simp only [ht_node]
        split_ifs <;> omega
  · subst hc1
    simp only [ne_eq, not_true_eq_false, if_false] at hb2 hhm
    subst hb2
    subst hhm
    rw [rotFix_id 0 (by omega) (by omega)]
    refine ⟨okb_node.mpr ⟨hl, hr2, by omega, by omega, by omega⟩, by simp, ?_⟩
    simp only [ht_node]
    omega

/-- Correctness of the in-order-successor descent: starting below the
depth limit, it removes exactly the leftmost node, keeps the balance
invariant, and reports the height change of the subtree it was given. -/
theorem delMin_spec (l : Tree α) :
    ∀ (b : Int) (x : α) (r : Tree α) (dep : Nat),
    okb (Tree.node l b x r) = true → (dep : Int) + ht l ≤ 64 →
    okb (delMin dep l b x r).2.1 = true ∧
    ((delMin dep l b x r).2.2 = -1 ∨ (delMin dep l b x r).2.2 = 0) ∧
    ht (delMin dep l b x r).2.1 = ht (Tree.node l b x r) + (delMin dep l b x r).2.2 ∧
    (delMin dep l b x r).1 :: keys (delMin dep l b x r).2.1 = keys (Tree.node l b x r) ∧
    (delMin dep l b x r).1 = leftmostD l x := by
  induction l with
  | nil =>
    intro b x r dep hok hdep
    rcases okb_node.mp hok with ⟨_, hr, hb, hb1, hb2⟩
    have hhr := ht_nonneg r
    refine ⟨hr, Or.inl rfl, ?_, ?_, rfl⟩
    · show ht r = ht (Tree.node Tree.nil b x r) + -1
      simp only [ht] at hb
      simp only [ht_node, ht]
      omega
    · show x :: keys r = keys (Tree.node Tree.nil b x r)
      simp [keys_node, keys]
  | node ll lb lx lr ihll ihlr =>
    intro b x r dep hok hdep
    have hhll := ht_nonneg ll
    have hhlr := ht_nonneg lr
    have hgt : 0 < ht (Tree.node ll lb lx lr) := ht_pos ll lb lx lr
    have hg : ¬(64 ≤ dep) := by omega
    rcases okb_node.mp hok with ⟨hl, hr, hb, hb1, hb2⟩
    have ih := ihll lb lx lr (dep + 1) hl (by rw [ht_node] at hdep; push_cast; omega)
    rcases ih with ⟨ih1, ih2, ih3, ih4, ih5⟩
    have hstep := stepFix_left (l := Tree.node ll lb lx lr) (x := x)
      hok ih1 (by omega) ih2 rfl rfl
    simp only [delMin, if_neg hg]
    refine ⟨hstep.1, hstep.2.1, hstep.2.2, ?_, ?_⟩
    · rw [rotateFix_keys, keys_node, keys_node, ← ih4, List.cons_append]
    · simp only [leftmostD]
      exact ih5

/-- Correctness of the in-order-predecessor descent, mirroring
`delMin_spec`. -/
theorem delMax_spec (r : Tree α) :
    ∀ (b : Int) (x : α) (l : Tree α) (dep : Nat),
    okb (Tree.node l b x r) = true → (dep : Int) + ht r ≤ 64 →
    okb (delMax dep l b x r).2.1 = true ∧
    ((delMax dep l b x r).2.2 = -1 ∨ (delMax dep l b x r).2.2 = 0) ∧
    ht (delMax dep l b x r).2.1 = ht (Tree.node l b x r) + (delMax dep l b x r).2.2 ∧
    keys (delMax dep l b x r).2.1 ++ [(delMax dep l b x r).1] = keys (Tree.node l b x r) ∧
    (delMax dep l b x r).1 = rightmostD x r := by
  induction r with
  | nil =>
    intro b x l dep hok hdep
    rcases okb_node.mp hok with ⟨hl, _, hb, hb1, hb2⟩
    have hhl := ht_nonneg l
    refine ⟨hl, Or.inl rfl, ?_, ?_, rfl⟩
    · show ht l = ht (Tree.node l b x Tree.nil) + -1
      simp only [ht] at hb
      simp only [ht_node, ht]
      omega
    · show keys l ++ [x] = keys (Tree.node l b x Tree.nil)
      simp [keys_node, keys]
  | node rl rb rx rr ihrl ihrr =>
    intro b x l dep hok hdep
    have hhrl := ht_nonneg rl
    have hhrr := ht_nonneg rr
    have hgt : 0 < ht (Tree.node rl rb rx rr) := ht_pos rl rb rx rr
    have hg : ¬(64 ≤ dep) := by omega
    rcases okb_node.mp hok with ⟨hl, hr, hb, hb1, hb2⟩
    have ih := ihrr rb rx rl (dep + 1) hr (by rw [ht_node] at hdep; push_cast; omega)
    rcases ih with ⟨ih1, ih2, ih3, ih4, ih5⟩
    have hstep := stepFix_right (r := Tree.node rl rb rx rr) (x := x)
      hok ih1 (by omega) ih2 rfl rfl
    simp only [delMax, if_neg hg]
    refine ⟨hstep.1, hstep.2.1, hstep.2.2, ?_, ?_⟩
    · rw [rotateFix_keys, keys_node, keys_node, ← ih4, List.append_assoc, List.cons_append]
    · simp only [rightmostD]
      exact ih5

/-- The leftmost payload of a nonempty subtree (its in-order minimum). -/
def leftmostT : Tree α → Option α
  | Tree.nil => none
  | Tree.node l _ x _ => some (leftmostD l x)

/-- The rightmost payload of a nonempty subtree (its in-order maximum). -/
def rightmostT : Tree α → Option α
  | Tree.nil => none
  | Tree.node _ _ x r => some (rightmostD x r)

/-- Correctness of the search-splice-rebalance recursion of AVL_delete on
a balanced subtree, below the depth limit: the balance invariant is
restored, the returned signal matches the true height change, exactly one
in-order occurrence of the matched payload is removed, the matched payload
compares equal to the key, and the two-children report (if any) chose the
in-order successor exactly when the matched balance leaned right, the
in-order predecessor otherwise. -/
theorem delE_spec (cmp : α → α → Int) (k : α) (t : Tree α) :
    ∀ (dep : Nat) (res : α × Tree α × Int × Option (DelEv α)),
    okb t = true → (dep : Int) + ht t ≤ 64 →
    delE cmp k dep t = some res →
    okb res.2.1 = true ∧ (res.2.2.1 = -1 ∨ res.2.2.1 = 0) ∧
    ht res.2.1 = ht t + res.2.2.1 ∧
    (∃ A B, keys t = A ++ res.1 :: B ∧ keys res.2.1 = A ++ B) ∧
    cmp res.1 k = 0 ∧
    (∀ ev, res.2.2.2 = some ev →
      ev.matchedL ≠ Tree.nil ∧ ev.matchedR ≠ Tree.nil ∧
      (ev.usedSucc = true ↔ 0 < ev.matchedBal) ∧
      (0 < ev.matchedBal → some ev.repl = leftmostT ev.matchedR) ∧
      (¬0 < ev.matchedBal → some ev.repl = rightmostT ev.matchedL)) := by
  induction t with
  | nil => intro dep res _ _ hE; simp [delE] at hE
  | node l b x r ihl ihr =>
    intro dep res hok hdep
    have hokn := hok
    rcases okb_node.mp hok with ⟨hl, hr, hb, hb1, hb2⟩
    have hhl := ht_nonneg l
    have hhr := ht_nonneg r
    have hgt : 0 < ht (Tree.node l b x r) := ht_pos l b x r
    have hg : ¬(64 ≤ dep) := by rw [ht_node] at hdep; omega
    rcases lt_trichotomy (cmp x k) 0 with hc | hc | hc
    · -- descend left
      have h0 : ¬(cmp x k = 0) := by omega
      simp only [delE, if_neg hg, if_neg h0, if_pos hc]
      cases hE : delE cmp k (dep + 1) l with
      | none => intro hsome; simp at hsome
      | some dres =>
        obtain ⟨d0, l2, hcc, ev⟩ := dres
        intro hsome
        rw [Option.some_inj] at hsome
        subst hsome
        have ih := ihl (dep + 1) (d0, l2, hcc, ev) hl
          (by rw [ht_node] at hdep; push_cast; omega) hE
        rcases ih with ⟨ih1, ih2, ih3, ⟨A, B, ihk1, ihk2⟩, ih5, ih6⟩
        have hstep := stepFix_left (l := l) (r := r) (x := x) hokn ih1 ih3 ih2 rfl rfl
        refine ⟨hstep.1, hstep.2.1, hstep.2.2, ?_, ih5, ih6⟩
        refine ⟨A, B ++ x :: keys r, ?_, ?_⟩
        · rw [keys_node, ihk1, List.append_assoc, List.cons_append]
        · rw [rotateFix_keys, keys_node, ihk2, List.append_assoc]
    · -- found
      simp only [delE, if_neg hg, if_pos hc]
      cases l with
      | nil =>
        intro hsome
        rw [Option.some_inj] at hsome
        subst hsome
        refine ⟨hr, Or.inl rfl, ?_, ⟨[], keys r, by simp [keys_node, keys], rfl⟩, hc, ?_⟩
        · simp only [ht] at hb
          simp only [ht_node, ht]
          omega
        · intro ev hev; simp at hev
      | node ll lb lx lr =>
        cases r with
        | nil =>
          intro hsome
          rw [Option.some_inj] at hsome
          subst hsome
          refine ⟨hl, Or.inl rfl, ?_,
            ⟨keys (Tree.node ll lb lx lr), [], by simp [keys_node, keys], by simp⟩, hc, ?_⟩
          · have hn1 := ht_nonneg ll
            have hn2 := ht_nonneg lr
            simp only [ht_node, ht] at hb ⊢
            omega
          · intro ev hev; simp at hev
        | node rl rb rx rr =>
          by_cases hbpos : 0 < b
          · simp only [if_pos hbpos]
            intro hsome
            rw [Option.some_inj] at hsome
            subst hsome
            have hmin := delMin_spec rl rb rx rr (dep + 1) hr
              (by simp only [ht_node] at hdep; push_cast; omega)
            rcases hmin with ⟨hm1, hm2, hm3, hm4, hm5⟩
            have hstep := stepFix_right (l := Tree.node ll lb lx lr)
              (r := Tree.node rl rb rx rr) (x := (delMin (dep + 1) rl rb rx rr).1)
              hokn hm1 hm3 hm2 rfl rfl
            refine ⟨hstep.1, hstep.2.1, hstep.2.2, ?_, hc, ?_⟩
            · refine ⟨keys (Tree.node ll lb lx lr), keys (Tree.node rl rb rx rr),
                by rw [keys_node], ?_⟩
              rw [rotateFix_keys, keys_node, hm4]
            · intro ev hev
              rw [Option.some_inj] at hev
              subst hev
              refine ⟨by simp, by simp, by simp [hbpos], ?_, ?_⟩
              · intro _
                simp only [leftmostT]
                rw [hm5]
              · intro hcon; exact absurd hbpos hcon
          · simp only [if_neg hbpos]
            intro hsome
            rw [Option.some_inj] at hsome
            subst hsome
            have hmax := delMax_spec lr lb lx ll (dep + 1) hl
              (by simp only [ht_node] at hdep; push_cast; omega)
            rcases hmax with ⟨hm1, hm2, hm3, hm4, hm5⟩
            have hstep := stepFix_left (l := Tree.node ll lb lx lr)
              (r := Tree.node rl rb rx rr) (x := (delMax (dep + 1) ll lb lx lr).1)
              hokn hm1 hm3 hm2 rfl rfl
            refine ⟨hstep.1, hstep.2.1, hstep.2.2, ?_, hc, ?_⟩
            · refine ⟨keys (Tree.node ll lb lx lr), keys (Tree.node rl rb rx rr),
                by rw [keys_node], ?_⟩
              rw [rotateFix_keys, keys_node, ← hm4, List.append_assoc, List.cons_append]
              simp
            · intro ev hev
              rw [Option.some_inj] at hev
              subst hev
              refine ⟨by simp, by simp, by simp [hbpos], ?_, ?_⟩
              · intro hcon; exact absurd hcon hbpos
              · intro _
                simp only [rightmostT]
                rw [hm5]
    · -- descend right
      have h0 : ¬(cmp x k = 0) := by omega
      have h1 : ¬(cmp x k < 0) := by omega
      simp only [delE, if_neg hg, if_neg h0, if_neg h1]
      cases hE : delE cmp k (dep + 1) r with
      | none => intro hsome; simp at hsome
      | some dres =>
        obtain ⟨d0, r2, hcc, ev⟩ := dres
        intro hsome
        rw [Option.some_inj] at hsome
        subst hsome
        have ih := ihr (dep + 1) (d0, r2, hcc, ev) hr
          (by rw [ht_node] at hdep; push_cast; omega) hE
        rcases ih with ⟨ih1, ih2, ih3, ⟨A, B, ihk1, ihk2⟩, ih5, ih6⟩
        have hstep := stepFix_right (l := l) (r := r) (x := x) hokn ih1 ih3 ih2 rfl rfl
        refine ⟨hstep.1, hstep.2.1, hstep.2.2, ?_, ih5, ih6⟩
        refine ⟨keys l ++ x :: A, B, ?_, ?_⟩
        · rw [keys_node, ihk1, List.append_assoc, List.cons_append]
        · rw [rotateFix_keys, keys_node, ihk2, List.append_assoc, List.cons_append]

/-- Balance correctness of the A7-A10 block for a left insertion: on a
balanced node whose left subtree was rebuilt by a grown (or unchanged)
insertion, the result is balanced, its height grows exactly when the
grew-signal is propagated, and a still-growing subtree is never
root-balanced (unless it is the fresh single node). -/
theorem insFixL_spec {l r l2 : Tree α} {b : Int} {x : α} {g : Bool} {evs : List InsEv}
    (hok : okb (Tree.node l b x r) = true) (hl2 : okb l2 = true)
    (hht : ht l2 = ht l + (if g then 1 else 0))
    (hrb : g = true → rootBal l2 ≠ 0 ∨ ht l2 = 1) :
    okb (insFixL l2 g evs b x r).1 = true ∧
    ht (insFixL l2 g evs b x r).1 =
      ht (Tree.node l b x r) + (if (insFixL l2 g evs b x r).2.1 then 1 else 0) ∧
    ((insFixL l2 g evs b x r).2.1 = true →
      rootBal (insFixL l2 g evs b x r).1 ≠ 0 ∨ ht (insFixL l2 g evs b x r).1 = 1) := by
  rcases okb_node.mp hok with ⟨hl, hr, hb, hb1, hb2⟩
  have hhl := ht_nonneg l
  have hhr := ht_nonneg r
  cases g with
  | false =>
    have hred : insFixL l2 false evs b x r = (Tree.node l2 b x r, false, evs) := by
      simp [insFixL]
    rw [hred]
    simp only [if_false, Bool.false_eq_true] at hht ⊢
    refine ⟨okb_node.mpr ⟨hl2, hr, by omega, hb1, hb2⟩, ?_, by simp⟩
    simp only [ht_node]
    omega
  | true =>
    simp only [if_true] at hht
    by_cases hb0 : b = 0
    · subst hb0
      have hred : insFixL l2 true evs 0 x r = (Tree.node l2 (-1) x r, true, evs) := by
        simp [insFixL]
      rw [hred]
      refine ⟨okb_node.mpr ⟨hl2, hr, by omega, by omega, by omega⟩, ?_,
        by simp [rootBal]⟩
      simp only [ht_node]
      simp only [if_true]
      omega
    · by_cases hbp : b = 1
      · subst hbp
        have hred : insFixL l2 true evs 1 x r = (Tree.node l2 0 x r, false, evs) := by
          simp [insFixL]
        rw [hred]
        refine ⟨okb_node.mpr ⟨hl2, hr, by omega, by omega, by omega⟩, ?_, by simp⟩
        simp only [ht_node]
        simp only [Bool.false_eq_true, if_false]
        omega
      · have hbm : b = -1 := by omega
        subst hbm
        cases l2 with
        | nil => exfalso; simp only [ht] at hht; omega
        | node ll2 lb2 lx2 lr2 =>
          have hne : lb2 ≠ 0 := by
            rcases hrb rfl with h | h
            · exact h
            · exfalso; simp only [ht_node] at h hht; omega
          rcases okb_node.mp hl2 with ⟨hll2, hlr2, hlb2, hlb2a, hlb2b⟩
          have hh1 := ht_nonneg ll2
          have hh2 := ht_nonneg lr2
          rw [ht_node] at hht
          by_cases hsing : lb2 = -1
          · subst hsing
            have hred : insFixL (Tree.node ll2 (-1) lx2 lr2) true evs (-1) x r =
                (Tree.node ll2 0 lx2 (Tree.node lr2 0 x r), false,
                 evs ++ [⟨RotKind.single, -1, -1, -1⟩]) := by
              simp [insFixL]
            rw [hred]
            refine ⟨?_, ?_, by simp⟩
            · rw [okb_node]
              refine ⟨hll2, ?_, ?_, ?_, ?_⟩
              · exact okb_node.mpr ⟨hlr2, hr, by omega, by omega, by omega⟩
              all_goals ((try simp only [ht_node]); omega)
            · simp only [ht_node]
              simp only [Bool.false_eq_true, if_false]
              omega
          · have hdb : lb2 = 1 := by omega
            subst hdb
            cases lr2 with
            | nil => exfalso; simp only [ht] at hlb2; omega
            | node cl cb cx cr =>
              rcases okb_node.mp hlr2 with ⟨hcl, hcr, hcb, hcba, hcbb⟩
              have hh3 := ht_nonneg cl
              have hh4 := ht_nonneg cr
              rw [ht_node] at hlb2 hht
              have hred : insFixL (Tree.node ll2 1 lx2 (Tree.node cl cb cx cr)) true evs
                  (-1) x r =
                  (Tree.node (Tree.node ll2 (if cb = -1 then 0 else if cb = 0 then 0 else -1)
                      lx2 cl) 0 cx
                    (Tree.node cr (if cb = -1 then 1 else if cb = 0 then 0 else 0) x r),
                   false, evs ++ [⟨RotKind.double, -1, -1, 1⟩]) := by
                simp [insFixL]
              rw [hred]
              refine ⟨?_, ?_, by simp⟩
              · rw [okb_node, okb_node, okb_node]
                refine ⟨⟨hll2, hcl, ?_, ?_, ?_⟩, ⟨hcr, hr, ?_, ?_, ?_⟩, ?_, ?_, ?_⟩ <;>
                  (try simp only [ht_node]) <;> (try split_ifs) <;> omega
              · simp only [ht_node]
                simp only [Bool.false_eq_true, if_false]
                (try split_ifs) <;> omega

/-- Mirror of `insFixL_spec` for a right insertion. -/
theorem insFixR_spec {l r r2 : Tree α} {b : Int} {x : α} {g : Bool} {evs : List InsEv}
    (hok : okb (Tree.node l b x r) = true) (hr2 : okb r2 = true)
    (hht : ht r2 = ht r + (if g then 1 else 0))
    (hrb : g = true → rootBal r2 ≠ 0 ∨ ht r2 = 1) :
    okb (insFixR r2 g evs b x l).1 = true ∧
    ht (insFixR r2 g evs b x l).1 =
      ht (Tree.node l b x r) + (if (insFixR r2 g evs b x l).2.1 then 1 else 0) ∧
    ((insFixR r2 g evs b x l).2.1 = true →
      rootBal (insFixR r2 g evs b x l).1 ≠ 0 ∨ ht (insFixR r2 g evs b x l).1 = 1) := by
  rcases okb_node.mp hok with ⟨hl, hr, hb, hb1, hb2⟩
  have hhl := ht_nonneg l
  have hhr := ht_nonneg r
  cases g with
  | false =>
    have hred : insFixR r2 false evs b x l = (Tree.node l b x r2, false, evs) := by
      simp [insFixR]
    rw [hred]
    simp only [if_false, Bool.false_eq_true] at hht ⊢
    refine ⟨okb_node.mpr ⟨hl, hr2, by omega, hb1, hb2⟩, ?_, by simp⟩
    simp only [ht_node]
    omega
  | true =>
    simp only [if_true] at hht
    by_cases hb0 : b = 0
    · subst hb0
      have hred : insFixR r2 true evs 0 x l = (Tree.node l 1 x r2, true, evs) := by
        simp [insFixR]
      rw [hred]
      refine ⟨okb_node.mpr ⟨hl, hr2, by omega, by omega, by omega⟩, ?_,
        by simp [rootBal]⟩
      simp only [ht_node]
      simp only [if_true]
      omega
    · by_cases hbp : b = -1
      · subst hbp
        have hred : insFixR r2 true evs (-1) x l = (Tree.node l 0 x r2, false, evs) := by
          simp [insFixR]
        rw [hred]
        refine ⟨okb_node.mpr ⟨hl, hr2, by omega, by omega, by omega⟩, ?_, by simp⟩
        simp only [ht_node]
        simp only [Bool.false_eq_true, if_false]
        omega
      · have hbm : b = 1 := by omega
        subst hbm
        cases r2 with
        | nil => exfalso; simp only [ht] at hht; omega
        | node rl2 rb2 rx2 rr2 =>
          have hne : rb2 ≠ 0 := by
            rcases hrb rfl with h | h
            · exact h
            · exfalso; simp only [ht_node] at h hht; omega
          rcases okb_node.mp hr2 with ⟨hrl2, hrr2, hrb2, hrb2a, hrb2b⟩
          have hh1 := ht_nonneg rl2
          have hh2 := ht_nonneg rr2
          rw [ht_node] at hht
          by_cases hsing : rb2 = 1
          · subst hsing
            have hred : insFixR (Tree.node rl2 1 rx2 rr2) true evs 1 x l =
                (Tree.node (Tree.node l 0 x rl2) 0 rx2 rr2, false,
                 evs ++ [⟨RotKind.single, 1, 1, 1⟩]) := by
              simp [insFixR]
            rw [hred]
            refine ⟨?_, ?_, by simp⟩
            · rw [okb_node]
              refine ⟨?_, hrr2, ?_, ?_, ?_⟩
              · exact okb_node.mpr ⟨hl, hrl2, by omega, by omega, by omega⟩
              all_goals ((try simp only [ht_node]); omega)
            · simp only [ht_node]
              simp only [Bool.false_eq_true, if_false]
              omega
          · have hdb : rb2 = -1 := by omega
            subst hdb
            cases rl2 with
            | nil => exfalso; simp only [ht] at hrb2; omega
            | node cl cb cx cr =>
              rcases okb_node.mp hrl2 with ⟨hcl, hcr, hcb, hcba, hcbb⟩
              have hh3 := ht_nonneg cl
              have hh4 := ht_nonneg cr
              rw [ht_node] at hrb2 hht
              have hred : insFixR (Tree.node (Tree.node cl cb cx cr) (-1) rx2 rr2) true evs
                  1 x l =
                  (Tree.node (Tree.node l (if cb = 1 then -1 else if cb = 0 then 0 else 0)
                      x cl) 0 cx
                    (Tree.node cr (if cb = 1 then 0 else if cb = 0 then 0 else 1) rx2 rr2),
                   false, evs ++ [⟨RotKind.double, 1, 1, -1⟩]) := by
                simp [insFixR]
              rw [hred]
              refine ⟨?_, ?_, by simp⟩
              · rw [okb_node, okb_node, okb_node]
                refine ⟨⟨hl, hcl, ?_, ?_, ?_⟩, ⟨hcr, hrr2, ?_, ?_, ?_⟩, ?_, ?_, ?_⟩ <;>
                  (try simp only [ht_node]) <;> (try split_ifs) <;> omega
              · simp only [ht_node]
                simp only [Bool.false_eq_true, if_false]
                (try split_ifs) <;> omega

/-- Balance correctness of the insertion recursion: on a balanced subtree
the rebuilt subtree is balanced, grows by exactly the grew-signal, and a
growing subtree is never root-balanced unless it is the fresh node. -/
theorem insE_spec (cmp : α → α → Int) (d : α) (t : Tree α) :
    ∀ res : Tree α × Bool × List InsEv, okb t = true → insE cmp d t = some res →
    okb res.1 = true ∧
    ht res.1 = ht t + (if res.2.1 then 1 else 0) ∧
    (res.2.1 = true → rootBal res.1 ≠ 0 ∨ ht res.1 = 1) := by
  induction t with
  | nil =>
    intro res _ hE
    simp only [insE, Option.some_inj] at hE
    subst hE
    refine ⟨by simp [okb, ht], by simp [ht_node, ht], by simp [ht_node, ht]⟩
  | node l b x r ihl ihr =>
    intro res hok hE
    rcases lt_trichotomy (cmp x d) 0 with hc | hc | hc
    · have h0 : ¬(cmp x d = 0) := by omega
      simp only [insE, if_neg h0, if_pos hc] at hE
      cases hEl : insE cmp d l with
      | none => rw [hEl] at hE; simp at hE
      | some lres =>
        obtain ⟨l2, g, evs⟩ := lres
        rw [hEl] at hE
        simp only [Option.some_inj] at hE
        subst hE
        have hl : okb l = true := (okb_node.mp hok).1
        have ih := ihl (l2, g, evs) hl hEl
        exact insFixL_spec hok ih.1 ih.2.1 ih.2.2
    · simp only [insE, if_pos hc] at hE
      exact absurd hE (by simp)
    · have h0 : ¬(cmp x d = 0) := by omega
      have h1 : ¬(cmp x d < 0) := by omega
      simp only [insE, if_neg h0, if_neg h1] at hE
      cases hEr : insE cmp d r with
      | none => rw [hEr] at hE; simp at hE
      | some rres =>
        obtain ⟨r2, g, evs⟩ := rres
        rw [hEr] at hE
        simp only [Option.some_inj] at hE
        subst hE
        have hr : okb r = true := (okb_node.mp hok).2.1
        have ih := ihr (r2, g, evs) hr hEr
        exact insFixR_spec hok ih.1 ih.2.1 ih.2.2

/-- On a tree satisfying the balance invariant, the validator
AVL_checkBalance reports no corruption and returns the true height. -/
theorem checkBalance_of_okb (t : Tree α) (hok : okb t = true) :
    AVL_checkBalance t = ht t := by
  induction t with
  | nil => rfl
  | node l b x r ihl ihr =>
    rcases okb_node.mp hok with ⟨hl, hr, hb, hb1, hb2⟩
    have hhl := ht_nonneg l
    have hhr := ht_nonneg r
    have h1 := ihl hl
    have h2 := ihr hr
    simp only [AVL_checkBalance, h1, h2]
    rw [if_neg (by omega), if_neg (by omega)]
    rw [ht_node]
    split_ifs <;> omega

/-!  Claim C1: the balance/height invariant is preserved by every
completed insert and delete.  -/

/-- C1: starting from a handle whose tree satisfies the balance invariant
(every stored balance equals height(right)-height(left) and lies in
-1..1) and whose cached height is the true height, any AVL_insert and any
AVL_delete (within the supported depth) completes with the invariant and
the cached height intact, and with the validator AVL_checkBalance
agreeing with the cached height.  The empty tree of AVL_newTree satisfies
the invariant, so every tree built by a sequence of such operations
satisfies it after each step. -/
theorem claim_c1 (cmp : α → α → Int) (mallocOk : Bool) (t : AVL_TREE α) (d k : α)
    (hok : okb t.top = true) (hh : t.height = ht t.top) (hdep : ht t.top ≤ 64) :
    (okb (AVL_insert cmp mallocOk t d).2.top = true ∧
     (AVL_insert cmp mallocOk t d).2.height = ht (AVL_insert cmp mallocOk t d).2.top ∧
     AVL_checkBalance (AVL_insert cmp mallocOk t d).2.top =
       (AVL_insert cmp mallocOk t d).2.height) ∧
    (okb (AVL_delete cmp t k).2.top = true ∧
     (AVL_delete cmp t k).2.height = ht (AVL_delete cmp t k).2.top ∧
     AVL_checkBalance (AVL_delete cmp t k).2.top = (AVL_delete cmp t k).2.height) := by
  constructor
  · -- insert
    unfold AVL_insert
    cases hE : insE cmp d t.top with
    | none =>
      exact ⟨hok, hh, by rw [checkBalance_of_okb _ hok, hh]⟩
    | some res =>
      obtain ⟨t2, g, evs⟩ := res
      cases hN : AVL_newNode mallocOk t with
      | none =>
        exact ⟨hok, hh, by rw [checkBalance_of_okb _ hok, hh]⟩
      | some t1 =>
        have hspec := insE_spec cmp d t.top (t2, g, evs) hok hE
        refine ⟨hspec.1, ?_, ?_⟩
        · have := hspec.2.1
          cases g <;> simp_all
        · rw [checkBalance_of_okb _ hspec.1]
          have := hspec.2.1
          cases g <;> simp_all
  · -- delete
    unfold AVL_delete
    cases htt : t.top with
    | nil =>
      rw [htt] at hok hh
      simp only [htt]
      exact ⟨rfl, hh, by rw [hh]; rfl⟩
    | node l b x r =>
      rw [htt] at hok hh hdep
      simp only [htt]
      cases hE : delE cmp k 0 (Tree.node l b x r) with
      | none =>
        simp only [hE]
        exact ⟨by rw [htt]; exact hok, by rw [htt]; exact hh,
          by rw [htt, checkBalance_of_okb _ hok]; exact hh.symm⟩
      | some res =>
        obtain ⟨d0, t2, h, ev⟩ := res
        simp only [hE]
        have hspec := delE_spec cmp k (Tree.node l b x r) 0 (d0, t2, h, ev) hok
          (by push_cast; omega) hE
        refine ⟨hspec.1, ?_, ?_⟩
        · have h3 := hspec.2.2.1
          rcases hspec.2.1 with h2 | h2 <;> simp_all <;> omega
        · rw [checkBalance_of_okb _ hspec.1]
          have h3 := hspec.2.2.1
          rcases hspec.2.1 with h2 | h2 <;> simp_all <;> omega

theorem claim_c1_witness :
    (okb ({ freeStack := [], allocAtOnce := 4,
            top := Tree.node (Tree.node Tree.nil 0 (1 : Int) Tree.nil) 0 2
              (Tree.node Tree.nil 0 3 Tree.nil),
            height := 2, size := 3 } : AVL_TREE Int).top = true ∧
     ({ freeStack := [], allocAtOnce := 4,
        top := Tree.node (Tree.node Tree.nil 0 (1 : Int) Tree.nil) 0 2
          (Tree.node Tree.nil 0 3 Tree.nil),
        height := 2, size := 3 } : AVL_TREE Int).height =
       ht ({ freeStack := [], allocAtOnce := 4,
             top := Tree.node (Tree.node Tree.nil 0 (1 : Int) Tree.nil) 0 2
               (Tree.node Tree.nil 0 3 Tree.nil),
             height := 2, size := 3 } : AVL_TREE Int).top ∧
     ht ({ freeStack := [], allocAtOnce := 4,
           top := Tree.node (Tree.node Tree.nil 0 (1 : Int) Tree.nil) 0 2
             (Tree.node Tree.nil 0 3 Tree.nil),
           height := 2, size := 3 } : AVL_TREE Int).top ≤ 64) ∧
    ((okb (AVL_insert AVL_exampleEval true
        { freeStack := [], allocAtOnce := 4,
          top := Tree.node (Tree.node Tree.nil 0 (1 : Int) Tree.nil) 0 2
            (Tree.node Tree.nil 0 3 Tree.nil),
          height := 2, size := 3 } 4).2.top = true ∧
      (AVL_insert AVL_exampleEval true
        { freeStack := [], allocAtOnce := 4,
          top := Tree.node (Tree.node Tree.nil 0 (1 : Int) Tree.nil) 0 2
            (Tree.node Tree.nil 0 3 Tree.nil),
          height := 2, size := 3 } 4).2.height =
        ht (AVL_insert AVL_exampleEval true
          { freeStack := [], allocAtOnce := 4,
            top := Tree.node (Tree.node Tree.nil 0 (1 : Int) Tree.nil) 0 2
              (Tree.node Tree.nil 0 3 Tree.nil),
            height := 2, size := 3 } 4).2.top ∧
      AVL_checkBalance (AVL_insert AVL_exampleEval true
        { freeStack := [], allocAtOnce := 4,
          top := Tree.node (Tree.node Tree.nil 0 (1 : Int) Tree.nil) 0 2
            (Tree.node Tree.nil 0 3 Tree.nil),
          height := 2, size := 3 } 4).2.top =
        (AVL_insert AVL_exampleEval true
          { freeStack := [], allocAtOnce := 4,
            top := Tree.node (Tree.node Tree.nil 0 (1 : Int) Tree.nil) 0 2
              (Tree.node Tree.nil 0 3 Tree.nil),
            height := 2, size := 3 } 4).2.height) ∧
     (okb (AVL_delete AVL_exampleEval
        { freeStack := [], allocAtOnce := 4,
          top := Tree.node (Tree.node Tree.nil 0 (1 : Int) Tree.nil) 0 2
            (Tree.node Tree.nil 0 3 Tree.nil),
          height := 2, size := 3 } 2).2.top = true ∧
      (AVL_delete AVL_exampleEval
        { freeStack := [], allocAtOnce := 4,
          top := Tree.node (Tree.node Tree.nil 0 (1 : Int) Tree.nil) 0 2
            (Tree.node Tree.nil 0 3 Tree.nil),
          height := 2, size := 3 } 2).2.height =
        ht (AVL_delete AVL_exampleEval
          { freeStack := [], allocAtOnce := 4,
            top := Tree.node (Tree.node Tree.nil 0 (1 : Int) Tree.nil) 0 2
              (Tree.node Tree.nil 0 3 Tree.nil),
            height := 2, size := 3 } 2).2.top ∧
      AVL_checkBalance (AVL_delete AVL_exampleEval
        { freeStack := [], allocAtOnce := 4,
          top := Tree.node (Tree.node Tree.nil 0 (1 : Int) Tree.nil) 0 2
            (Tree.node Tree.nil 0 3 Tree.nil),
          height := 2, size := 3 } 2).2.top =
        (AVL_delete AVL_exampleEval
          { freeStack := [], allocAtOnce := 4,
            top := Tree.node (Tree.node Tree.nil 0 (1 : Int) Tree.nil) 0 2
              (Tree.node Tree.nil 0 3 Tree.nil),
            height := 2, size := 3 } 2).2.height)) :=
  ⟨⟨by decide, by decide, by decide⟩,
   claim_c1 AVL_exampleEval true
     { freeStack := [], allocAtOnce := 4,
       top := Tree.node (Tree.node Tree.nil 0 (1 : Int) Tree.nil) 0 2
         (Tree.node Tree.nil 0 3 Tree.nil),
       height := 2, size := 3 } 4 2 (by decide) (by decide) (by decide)⟩

/-!  Claim C6: the two-children replacement choice of AVL_delete.  -/

/-- C6: when AVL_delete matches a node that has two children, the
replacement payload is the in-order successor (the leftmost payload of
the right subtree) exactly when the matched node's stored balance leans
right (>0), and the in-order predecessor (the rightmost payload of the
left subtree) when it leans left or is exactly balanced.  The DelEv
report records the matched node's balance and subtrees and the chosen
replacement at the moment of the splice. -/
theorem claim_c6 (cmp : α → α → Int) (k : α) (t : Tree α)
    (res : α × Tree α × Int × Option (DelEv α)) (ev : DelEv α)
    (hok : okb t = true) (hdep : ht t ≤ 64)
    (hE : delE cmp k 0 t = some res) (hev : res.2.2.2 = some ev) :
    ev.matchedL ≠ Tree.nil ∧ ev.matchedR ≠ Tree.nil ∧
    (ev.usedSucc = true ↔ 0 < ev.matchedBal) ∧
    (0 < ev.matchedBal → some ev.repl = leftmostT ev.matchedR) ∧
    (¬0 < ev.matchedBal → some ev.repl = rightmostT ev.matchedL) :=
  (delE_spec cmp k t 0 res hok (by push_cast; omega) hE).2.2.2.2.2 ev hev

theorem claim_c6_witness :
    (okb (Tree.node (Tree.node Tree.nil 0 (1 : Int) Tree.nil) 0 2
        (Tree.node Tree.nil 0 3 Tree.nil)) = true ∧
     ht (Tree.node (Tree.node Tree.nil 0 (1 : Int) Tree.nil) 0 2
        (Tree.node Tree.nil 0 3 Tree.nil)) ≤ 64 ∧
     delE AVL_exampleEval 2 0 (Tree.node (Tree.node Tree.nil 0 (1 : Int) Tree.nil) 0 2
        (Tree.node Tree.nil 0 3 Tree.nil)) =
       some (2, Tree.node Tree.nil 1 1 (Tree.node Tree.nil 0 3 Tree.nil), 0,
         some ⟨0, Tree.node Tree.nil 0 1 Tree.nil, Tree.node Tree.nil 0 3 Tree.nil, 1,
           false⟩)) ∧
    (DelEv.matchedL ⟨0, Tree.node Tree.nil 0 (1 : Int) Tree.nil,
        Tree.node Tree.nil 0 3 Tree.nil, 1, false⟩ ≠ Tree.nil ∧
     DelEv.matchedR ⟨0, Tree.node Tree.nil 0 (1 : Int) Tree.nil,
        Tree.node Tree.nil 0 3 Tree.nil, 1, false⟩ ≠ Tree.nil ∧
     (DelEv.usedSucc ⟨0, Tree.node Tree.nil 0 (1 : Int) Tree.nil,
        Tree.node Tree.nil 0 3 Tree.nil, 1, false⟩ = true ↔
      0 < DelEv.matchedBal ⟨0, Tree.node Tree.nil 0 (1 : Int) Tree.nil,
        Tree.node Tree.nil 0 3 Tree.nil, 1, false⟩) ∧
     (0 < DelEv.matchedBal ⟨0, Tree.node Tree.nil 0 (1 : Int) Tree.nil,
        Tree.node Tree.nil 0 3 Tree.nil, 1, false⟩ →
      some (DelEv.repl ⟨0, Tree.node Tree.nil 0 (1 : Int) Tree.nil,
        Tree.node Tree.nil 0 3 Tree.nil, 1, false⟩) =
        leftmostT (DelEv.matchedR ⟨0, Tree.node Tree.nil 0 (1 : Int) Tree.nil,
          Tree.node Tree.nil 0 3 Tree.nil, 1, false⟩)) ∧
     (¬0 < DelEv.matchedBal ⟨0, Tree.node Tree.nil 0 (1 : Int) Tree.nil,
        Tree.node Tree.nil 0 3 Tree.nil, 1, false⟩ →
      some (DelEv.repl ⟨0, Tree.node Tree.nil 0 (1 : Int) Tree.nil,
        Tree.node Tree.nil 0 3 Tree.nil, 1, false⟩) =
        rightmostT (DelEv.matchedL ⟨0, Tree.node Tree.nil 0 (1 : Int) Tree.nil,
          Tree.node Tree.nil 0 3 Tree.nil, 1, false⟩))) :=
  ⟨⟨by decide, by decide, by decide⟩,
   claim_c6 AVL_exampleEval 2
     (Tree.node (Tree.node Tree.nil 0 (1 : Int) Tree.nil) 0 2
       (Tree.node Tree.nil 0 3 Tree.nil))
     (2, Tree.node Tree.nil 1 1 (Tree.node Tree.nil 0 3 Tree.nil), 0,
       some ⟨0, Tree.node Tree.nil 0 1 Tree.nil, Tree.node Tree.nil 0 3 Tree.nil, 1, false⟩)
     ⟨0, Tree.node Tree.nil 0 1 Tree.nil, Tree.node Tree.nil 0 3 Tree.nil, 1, false⟩
     (by decide) (by decide) (by decide) rfl⟩

/-!  Claim C5: rotation discipline of AVL_insert.  -/

/-- The insertion search path: for each visited node, its pre-insert
stored balance and the direction taken (-1 left, +1 right).  The pivot of
the insertion is the last entry with nonzero balance. -/
def insPath (cmp : α → α → Int) (d : α) : Tree α → List (Int × Int)
  | Tree.nil => []
  | Tree.node l b x r =>
    let e := cmp x d
    if e = 0 then []
    else if e < 0 then (b, -1) :: insPath cmp d l
    else (b, 1) :: insPath cmp d r

theorem insFixL_grew {l2 : Tree α} {g : Bool} {evs : List InsEv} {b : Int} {x : α}
    {r : Tree α} :
    (insFixL l2 g evs b x r).2.1 = true →
    g = true ∧ b = 0 ∧ insFixL l2 g evs b x r = (Tree.node l2 (-1) x r, true, evs) := by
  intro h
  cases g with
  | false => simp [insFixL] at h
  | true =>
    by_cases hb0 : b = 0
    · subst hb0
      exact ⟨rfl, rfl, by simp [insFixL]⟩
    · exfalso
      by_cases hbp : b = 1
      · subst hbp
        simp [insFixL] at h
      · cases l2 with
        | nil => simp [insFixL, hb0, hbp] at h
        | node ll lb lx lr =>
          by_cases hs : lb = -1
          · simp [insFixL, hb0, hbp, hs] at h
          · cases lr with
            | nil => simp [insFixL, hb0, hbp, hs] at h
            | node cl cb cx cr => simp [insFixL, hb0, hbp, hs] at h

theorem insFixR_grew {r2 : Tree α} {g : Bool} {evs : List InsEv} {b : Int} {x : α}
    {l : Tree α} :
    (insFixR r2 g evs b x l).2.1 = true →
    g = true ∧ b = 0 ∧ insFixR r2 g evs b x l = (Tree.node l 1 x r2, true, evs) := by
  intro h
  cases g with
  | false => simp [insFixR] at h
  | true =>
    by_cases hb0 : b = 0
    · subst hb0
      exact ⟨rfl, rfl, by simp [insFixR]⟩
    · exfalso
      by_cases hbp : b = -1
      · subst hbp
        simp [insFixR] at h
      · cases r2 with
        | nil => simp [insFixR, hb0, hbp] at h
        | node rl rb rx rr =>
          by_cases hs : rb = 1
          · simp [insFixR, hb0, hbp, hs] at h
          · cases rl with
            | nil => simp [insFixR, hb0, hbp, hs] at h
            | node cl cb cx cr => simp [insFixR, hb0, hbp, hs] at h

/-- A still-growing insertion performed no rotation, saw only balanced
nodes on its path, and left the direction it took recorded as the root
balance of the rebuilt subtree (the A6 update loop's setbal). -/
theorem insE_grew_spec (cmp : α → α → Int) (d : α) (t : Tree α) :
    ∀ res : Tree α × Bool × List InsEv, insE cmp d t = some res → res.2.1 = true →
    res.2.2 = [] ∧ (∀ w ∈ insPath cmp d t, w.1 = 0) ∧
    (∀ w wp, insPath cmp d t = w :: wp → rootBal res.1 = w.2) := by
  induction t with
  | nil =>
    intro res hE _
    simp only [insE, Option.some_inj] at hE
    subst hE
    exact ⟨rfl, by simp [insPath], by simp [insPath]⟩
  | node l b x r ihl ihr =>
    intro res hE hg
    rcases lt_trichotomy (cmp x d) 0 with hc | hc | hc
    · have h0 : ¬(cmp x d = 0) := by omega
      simp only [insE, if_neg h0, if_pos hc] at hE
      cases hEl : insE cmp d l with
      | none => rw [hEl] at hE; simp at hE
      | some lres =>
        obtain ⟨l2, g, evs⟩ := lres
        rw [hEl] at hE
        simp only [Option.some_inj] at hE
        subst hE
        rcases insFixL_grew hg with ⟨hgT, hb0, hred⟩
        subst hgT hb0
        rcases ihl (l2, true, evs) hEl rfl with ⟨ih1, ih2, _⟩
        rw [hred]
        refine ⟨ih1, ?_, ?_⟩
        · intro w hw
          simp only [insPath, if_neg h0, if_pos hc, List.mem_cons] at hw
          rcases hw with rfl | hw
          · rfl
          · exact ih2 w hw
        · intro w wp hdec
          simp only [insPath, if_neg h0, if_pos hc, List.cons.injEq] at hdec
          rw [← hdec.1]
          rfl
    · simp only [insE, if_pos hc] at hE
      exact absurd hE (by simp)
    · have h0 : ¬(cmp x d = 0) := by omega
      have h1 : ¬(cmp x d < 0) := by omega
      simp only [insE, if_neg h0, if_neg h1] at hE
      cases hEr : insE cmp d r with
      | none => rw [hEr] at hE; simp at hE
      | some rres =>
        obtain ⟨r2, g, evs⟩ := rres
        rw [hEr] at hE
        simp only [Option.some_inj] at hE
        subst hE
        rcases insFixR_grew hg with ⟨hgT, hb0, hred⟩
        subst hgT hb0
        rcases ihr (r2, true, evs) hEr rfl with ⟨ih1, ih2, _⟩
        rw [hred]
        refine ⟨ih1, ?_, ?_⟩
        · intro w hw
          simp only [insPath, if_neg h0, if_neg h1, List.mem_cons] at hw
          rcases hw with rfl | hw
          · rfl
          · exact ih2 w hw
        · intro w wp hdec
          simp only [insPath, if_neg h0, if_neg h1, List.cons.injEq] at hdec
          rw [← hdec.1]
          rfl

/-- A successful insertion whose whole path consisted of balanced nodes
reaches the root still growing. -/
theorem insE_allzero_grew (cmp : α → α → Int) (d : α) (t : Tree α) :
    ∀ res : Tree α × Bool × List InsEv, insE cmp d t = some res →
    (∀ w ∈ insPath cmp d t, w.1 = 0) → res.2.1 = true := by
  induction t with
  | nil =>
    intro res hE _
    simp only [insE, Option.some_inj] at hE
    subst hE
    rfl
  | node l b x r ihl ihr =>
    intro res hE hz
    rcases lt_trichotomy (cmp x d) 0 with hc | hc | hc
    · have h0 : ¬(cmp x d = 0) := by omega
      simp only [insE, if_neg h0, if_pos hc] at hE
      cases hEl : insE cmp d l with
      | none => rw [hEl] at hE; simp at hE
      | some lres =>
        obtain ⟨l2, g, evs⟩ := lres
        rw [hEl] at hE
        simp only [Option.some_inj] at hE
        subst hE
        have hb0 : b = 0 := by
          have := hz (b, -1) (by simp [insPath, if_neg h0, if_pos hc])
          simpa using this
        have hgl : g = true := by
          refine ihl (l2, g, evs) hEl ?_
          intro w hw
          refine hz w ?_
          simp only [insPath, if_neg h0, if_pos hc, List.mem_cons]
          exact Or.inr hw
        subst hb0 hgl
        simp [insFixL]
    · simp only [insE, if_pos hc] at hE
      exact absurd hE (by simp)
    · have h0 : ¬(cmp x d = 0) := by omega
      have h1 : ¬(cmp x d < 0) := by omega
      simp only [insE, if_neg h0, if_neg h1] at hE
      cases hEr : insE cmp d r with
      | none => rw [hEr] at hE; simp at hE
      | some rres =>
        obtain ⟨r2, g, evs⟩ := rres
        rw [hEr] at hE
        simp only [Option.some_inj] at hE
        subst hE
        have hb0 : b = 0 := by
          have := hz (b, 1) (by simp [insPath, if_neg h0, if_neg h1])
          simpa using this
        have hgr : g = true := by
          refine ihr (r2, g, evs) hEr ?_
          intro w hw
          refine hz w ?_
          simp only [insPath, if_neg h0, if_neg h1, List.mem_cons]
          exact Or.inr hw
        subst hb0 hgr
        simp [insFixR]

/-- The rotation discipline asserted of one insert: at most one rotation;
a rotation happens exactly at the pivot (the deepest search-path node with
nonzero pre-insert balance), with the insertion descending into the
pivot's lean (`pivotBal = dir`), and is single precisely when the heavy
child's balance at decision time equals the pivot's lean, double precisely
when it is opposite; and when no rotation happens, any leaning path node
below which all balances are zero was not descended into on its lean. -/
abbrev RotDiscipline (cmp : α → α → Int) (d : α) (t : Tree α)
    (evs : List InsEv) : Prop :=
  evs.length ≤ 1 ∧
  (∀ ev ∈ evs,
    ∃ pre w post2,
      insPath cmp d t = pre ++ (ev.pivotBal, ev.dir) :: w :: post2 ∧
      (∀ q ∈ (w :: post2 : List (Int × Int)), q.1 = 0) ∧
      ev.pivotBal = ev.dir ∧ ev.dir ≠ 0 ∧ w.2 = ev.childBal ∧
      (ev.kind = RotKind.single ↔ ev.childBal = ev.dir) ∧
      (ev.kind = RotKind.double ↔ ev.childBal = -ev.dir)) ∧
  (evs = [] →
    ∀ pre q post, insPath cmp d t = pre ++ q :: post →
      (∀ w ∈ post, w.1 = 0) → q.1 ≠ 0 → q.1 ≠ q.2)

/-- Claim C5: on a balanced tree, an insert performs at most one rotation;
when the new node lands on the same side as the pivot's lean a rotation
is performed at the pivot — single when the heavy child leans the same
direction as the pivot, double when it leans the other way — and when no
rotation is performed, the insert did not land on the lean side of the
pivot. -/
theorem claim_c5 (cmp : α → α → Int) (d : α) (t : Tree α) :
    ∀ res : Tree α × Bool × List InsEv, okb t = true → insE cmp d t = some res →
    RotDiscipline cmp d t res.2.2 := by
  induction t with
  | nil =>
    intro res _ hE
    simp only [insE, Option.some_inj] at hE
    subst hE
    refine ⟨by simp, by simp, ?_⟩
    intro _ pre q post hdec _ _
    simp [insPath] at hdec
  | node l b x r ihl ihr =>
    intro res hok hE
    rcases okb_node.mp hok with ⟨hokl, hokr, hb, hb1, hb2⟩
    rcases lt_trichotomy (cmp x d) 0 with hc | hc | hc
    · -- insertion descends left: off-balance angle a = -1
      have h0 : ¬(cmp x d = 0) := by omega
      simp only [insE, if_neg h0, if_pos hc] at hE
      cases hEl : insE cmp d l with
      | none => rw [hEl] at hE; simp at hE
      | some lres =>
        obtain ⟨l2, g, evs⟩ := lres
        rw [hEl] at hE
        simp only [Option.some_inj] at hE
        subst hE
        have hpathT : insPath cmp d (Tree.node l b x r) = (b, -1) :: insPath cmp d l := by
          simp [insPath, if_neg h0, if_pos hc]
        cases g with
        | false =>
          have hred : insFixL l2 false evs b x r = (Tree.node l2 b x r, false, evs) := by
            simp [insFixL]
          rw [hred]
          rcases ihl (l2, false, evs) hokl hEl with ⟨ih1, ih2, ih3⟩
          refine ⟨ih1, ?_, ?_⟩
          · intro ev hev
            rcases ih2 ev hev with ⟨pre, w, post2, hdec, hrest⟩
            exact ⟨(b, -1) :: pre, w, post2, by rw [hpathT, hdec]; rfl, hrest⟩
          · intro hevs pre q post hdec hz hq
            rw [hpathT] at hdec
            cases pre with
            | nil =>
              simp only [List.nil_append, List.cons.injEq] at hdec
              exfalso
              have hcontra := insE_allzero_grew cmp d l (l2, false, evs) hEl
                (by rw [hdec.2]; exact hz)
              simp at hcontra
            | cons p0 pre2 =>
              simp only [List.cons_append, List.cons.injEq] at hdec
              exact ih3 hevs pre2 q post hdec.2 hz hq
        | true =>
          rcases insE_grew_spec cmp d l (l2, true, evs) hEl rfl with ⟨hevsnil, hzero, hroot⟩
          have hevs0 : evs = [] := hevsnil
          subst hevs0
          by_cases hb0 : b = 0
          · subst hb0
            have hred : insFixL l2 true [] 0 x r = (Tree.node l2 (-1) x r, true, []) := by
              simp [insFixL]
            rw [hred]
            refine ⟨by simp, by simp, ?_⟩
            intro _ pre q post hdec hz hq
            exfalso
            apply hq
            have hmem : q ∈ insPath cmp d (Tree.node l 0 x r) := by
              rw [hdec]; simp
            rw [hpathT] at hmem
            rcases List.mem_cons.mp hmem with h | h
            · rw [h]
            · exact hzero q h
          · by_cases hbp : b = 1
            · subst hbp
              have hred : insFixL l2 true [] 1 x r = (Tree.node l2 0 x r, false, []) := by
                simp [insFixL]
              rw [hred]
              refine ⟨by simp, by simp, ?_⟩
              intro _ pre q post hdec hz hq
              rw [hpathT] at hdec
              cases pre with
              | nil =>
                simp only [List.nil_append, List.cons.injEq] at hdec
                rw [← hdec.1]
                decide
              | cons p0 pre2 =>
                simp only [List.cons_append, List.cons.injEq] at hdec
                exfalso
                apply hq
                have hmem : q ∈ insPath cmp d l := by
                  rw [hdec.2]; simp
                exact hzero q hmem
            · have hbneg : b = -1 := by omega
              subst hbneg
              have hspec := insE_spec cmp d l (l2, true, []) hokl hEl
              have hokl2 : okb l2 = true := hspec.1
              have hhl2 : ht l2 = ht l + 1 := by simpa using hspec.2.1
              have hhl : 1 ≤ ht l := by
                have := ht_nonneg r
                omega
              have hroot2 : rootBal l2 ≠ 0 := by
                rcases hspec.2.2 rfl with h | h
                · exact h
                · exfalso
                  have h2 : ht l2 = 1 := h
                  omega
              cases l with
              | nil =>
                exfalso
                simp only [ht] at hhl
                omega
              | node la ba xa ra =>
                have hw : ∃ wd tl, insPath cmp d (Tree.node la ba xa ra) = (ba, wd) :: tl := by
                  rcases lt_trichotomy (cmp xa d) 0 with hc2 | hc2 | hc2
                  · have h02 : ¬(cmp xa d = 0) := by omega
                    exact ⟨-1, insPath cmp d la, by simp [insPath, if_neg h02, if_pos hc2]⟩
                  · exfalso
                    simp only [insE, if_pos hc2] at hEl
                    exact absurd hEl (by simp)
                  · have h02 : ¬(cmp xa d = 0) := by omega
                    have h12 : ¬(cmp xa d < 0) := by omega
                    exact ⟨1, insPath cmp d ra, by simp [insPath, if_neg h02, if_neg h12]⟩
                obtain ⟨wd, tl, hpl⟩ := hw
                have hwd2 : rootBal l2 = wd := hroot (ba, wd) tl hpl
                cases l2 with
                | nil =>
                  exfalso
                  simp only [ht] at hhl2
                  have := ht_nonneg la
                  have := ht_nonneg ra
                  omega
                | node ll2 lb2 lx2 lr2 =>
                  have hlb2 : lb2 = wd := hwd2
                  have hlb2ne : lb2 ≠ 0 := hroot2
                  rcases okb_node.mp hokl2 with ⟨hokll2, hoklr2, hbl2, hbl21, hbl22⟩
                  by_cases hs : lb2 = -1
                  · subst hs
                    have hred : insFixL (Tree.node ll2 (-1) lx2 lr2) true [] (-1) x r =
                        (Tree.node ll2 0 lx2 (Tree.node lr2 0 x r), false,
                         [⟨RotKind.single, -1, -1, -1⟩]) := by
                      simp [insFixL]
                    rw [hred]
                    refine ⟨by simp, ?_, by intro h; simp at h⟩
                    intro ev hev
                    simp only [List.mem_singleton] at hev
                    subst hev
                    refine ⟨[], (ba, wd), tl, ?_, ?_, rfl, by decide, hlb2.symm,
                      by decide, by decide⟩
                    · rw [hpathT, hpl]
                      rfl
                    · intro q hqmem
                      apply hzero
                      rw [hpl]
                      exact hqmem
                  · have hs2 : lb2 = 1 := by omega
                    subst hs2
                    cases lr2 with
                    | nil =>
                      exfalso
                      simp only [ht] at hbl2
                      have := ht_nonneg ll2
                      omega
                    | node cl cb cx cr =>
                      have hred : insFixL
                          (Tree.node ll2 1 lx2 (Tree.node cl cb cx cr)) true [] (-1) x r =
                          (Tree.node
                            (Tree.node ll2 (if cb = -1 then 0 else if cb = 0 then 0 else -1)
                              lx2 cl) 0 cx
                            (Tree.node cr (if cb = -1 then 1 else if cb = 0 then 0 else 0)
                              x r), false,
                           [⟨RotKind.double, -1, -1, 1⟩]) := by
                        simp [insFixL]
                      rw [hred]
                      refine ⟨by simp, ?_, by intro h; simp at h⟩
                      intro ev hev
                      simp only [List.mem_singleton] at hev
                      subst hev
                      refine ⟨[], (ba, wd), tl, ?_, ?_, rfl, by decide, hlb2.symm,
                        by decide, by decide⟩
                      · rw [hpathT, hpl]
                        rfl
                      · intro q hqmem
                        apply hzero
                        rw [hpl]
                        exact hqmem
    · simp only [insE, if_pos hc] at hE
      exact absurd hE (by simp)
    · -- insertion descends right: off-balance angle a = +1
      have h0 : ¬(cmp x d = 0) := by omega
      have h1 : ¬(cmp x d < 0) := by omega
      simp only [insE, if_neg h0, if_neg h1] at hE
      cases hEr : insE cmp d r with
      | none => rw [hEr] at hE; simp at hE
      | some rres =>
        obtain ⟨r2, g, evs⟩ := rres
        rw [hEr] at hE
        simp only [Option.some_inj] at hE
        subst hE
        have hpathT : insPath cmp d (Tree.node l b x r) = (b, 1) :: insPath cmp d r := by
          simp [insPath, if_neg h0, if_neg h1]
        cases g with
        | false =>
          have hred : insFixR r2 false evs b x l = (Tree.node l b x r2, false, evs) := by
            simp [insFixR]
          rw [hred]
          rcases ihr (r2, false, evs) hokr hEr with ⟨ih1, ih2, ih3⟩
          refine ⟨ih1, ?_, ?_⟩
          · intro ev hev
            rcases ih2 ev hev with ⟨pre, w, post2, hdec, hrest⟩
            exact ⟨(b, 1) :: pre, w, post2, by rw [hpathT, hdec]; rfl, hrest⟩
          · intro hevs pre q post hdec hz hq
            rw [hpathT] at hdec
            cases pre with
            | nil =>
              simp only [List.nil_append, List.cons.injEq] at hdec
              exfalso
              have hcontra := insE_allzero_grew cmp d r (r2, false, evs) hEr
                (by rw [hdec.2]; exact hz)
              simp at hcontra
            | cons p0 pre2 =>
              simp only [List.cons_append, List.cons.injEq] at hdec
              exact ih3 hevs pre2 q post hdec.2 hz hq
        | true =>
          rcases insE_grew_spec cmp d r (r2, true, evs) hEr rfl with ⟨hevsnil, hzero, hroot⟩
          have hevs0 : evs = [] := hevsnil
          subst hevs0
          by_cases hb0 : b = 0
          · subst hb0
            have hred : insFixR r2 true [] 0 x l = (Tree.node l 1 x r2, true, []) := by
              simp [insFixR]
            rw [hred]
            refine ⟨by simp, by simp, ?_⟩
            intro _ pre q post hdec hz hq
            exfalso
            apply hq
            have hmem : q ∈ insPath cmp d (Tree.node l 0 x r) := by
              rw [hdec]; simp
            rw [hpathT] at hmem
            rcases List.mem_cons.mp hmem with h | h
            · rw [h]
            · exact hzero q h
          · by_cases hbp : b = -1
            · subst hbp
              have hred : insFixR r2 true [] (-1) x l = (Tree.node l 0 x r2, false, []) := by
                simp [insFixR]
              rw [hred]
              refine ⟨by simp, by simp, ?_⟩
              intro _ pre q post hdec hz hq
              rw [hpathT] at hdec
              cases pre with
              | nil =>
                simp only [List.nil_append, List.cons.injEq] at hdec
                rw [← hdec.1]
                decide
              | cons p0 pre2 =>
                simp only [List.cons_append, List.cons.injEq] at hdec
                exfalso
                apply hq
                have hmem : q ∈ insPath cmp d r := by
                  rw [hdec.2]; simp
                exact hzero q hmem
            · have hbpos : b = 1 := by omega
              subst hbpos
              have hspec := insE_spec cmp d r (r2, true, []) hokr hEr
              have hokr2 : okb r2 = true := hspec.1
              have hhr2 : ht r2 = ht r + 1 := by simpa using hspec.2.1
              have hhr : 1 ≤ ht r := by
                have := ht_nonneg l
                omega
              have hroot2 : rootBal r2 ≠ 0 := by
                rcases hspec.2.2 rfl with h | h
                · exact h
                · exfalso
                  have h2 : ht r2 = 1 := h
                  omega
              cases r with
              | nil =>
                exfalso
                simp only [ht] at hhr
                omega
              | node ra2 ba xa rb2t =>
                have hw : ∃ wd tl, insPath cmp d (Tree.node ra2 ba xa rb2t) = (ba, wd) :: tl := by
                  rcases lt_trichotomy (cmp xa d) 0 with hc2 | hc2 | hc2
                  · have h02 : ¬(cmp xa d = 0) := by omega
                    exact ⟨-1, insPath cmp d ra2, by simp [insPath, if_neg h02, if_pos hc2]⟩
                  · exfalso
                    simp only [insE, if_pos hc2] at hEr
                    exact absurd hEr (by simp)
                  · have h02 : ¬(cmp xa d = 0) := by omega
                    have h12 : ¬(cmp xa d < 0) := by omega
                    exact ⟨1, insPath cmp d rb2t, by simp [insPath, if_neg h02, if_neg h12]⟩
                obtain ⟨wd, tl, hpr⟩ := hw
                have hwd2 : rootBal r2 = wd := hroot (ba, wd) tl hpr
                cases r2 with
                | nil =>
                  exfalso
                  simp only [ht] at hhr2
                  have := ht_nonneg ra2
                  have := ht_nonneg rb2t
                  omega
                | node rl2 rb2 rx2 rr2 =>
                  have hrb2 : rb2 = wd := hwd2
                  have hrb2ne : rb2 ≠ 0 := hroot2
                  rcases okb_node.mp hokr2 with ⟨hokrl2, hokrr2, hbr2, hbr21, hbr22⟩
                  by_cases hs : rb2 = 1
                  · subst hs
                    have hred : insFixR (Tree.node rl2 1 rx2 rr2) true [] 1 x l =
                        (Tree.node (Tree.node l 0 x rl2) 0 rx2 rr2, false,
                         [⟨RotKind.single, 1, 1, 1⟩]) := by
                      simp [insFixR]
                    rw [hred]
                    refine ⟨by simp, ?_, by intro h; simp at h⟩
                    intro ev hev
                    simp only [List.mem_singleton] at hev
                    subst hev
                    refine ⟨[], (ba, wd), tl, ?_, ?_, rfl, by decide, hrb2.symm,
                      by decide, by decide⟩
                    · rw [hpathT, hpr]
                      rfl
                    · intro q hqmem
                      apply hzero
                      rw [hpr]
                      exact hqmem
                  · have hs2 : rb2 = -1 := by omega
                    subst hs2
                    cases rl2 with
                    | nil =>
                      exfalso
                      simp only [ht] at hbr2
                      have := ht_nonneg rr2
                      omega
                    | node cl cb cx cr =>
                      have hred : insFixR
                          (Tree.node (Tree.node cl cb cx cr) (-1) rx2 rr2) true [] 1 x l =
                          (Tree.node
                            (Tree.node l (if cb = 1 then -1 else if cb = 0 then 0 else 0)
                              x cl) 0 cx
                            (Tree.node cr (if cb = 1 then 0 else if cb = 0 then 0 else 1)
                              rx2 rr2), false,
                           [⟨RotKind.double, 1, 1, -1⟩]) := by
                        simp [insFixR]
                      rw [hred]
                      refine ⟨by simp, ?_, by intro h; simp at h⟩
                      intro ev hev
                      simp only [List.mem_singleton] at hev
                      subst hev
                      refine ⟨[], (ba, wd), tl, ?_, ?_, rfl, by decide, hrb2.symm,
                        by decide, by decide⟩
                      · rw [hpathT, hpr]
                        rfl
                      · intro q hqmem
                        apply hzero
                        rw [hpr]
                        exact hqmem

theorem claim_c5_witness :
    okb (Tree.node Tree.nil 1 (1 : Int) (Tree.node Tree.nil 0 2 Tree.nil)) = true ∧
    insE AVL_exampleEval 3 (Tree.node Tree.nil 1 (1 : Int) (Tree.node Tree.nil 0 2 Tree.nil)) =
      some (Tree.node (Tree.node Tree.nil 0 1 Tree.nil) 0 2 (Tree.node Tree.nil 0 3 Tree.nil),
            false, [⟨RotKind.single, 1, 1, 1⟩]) ∧
    RotDiscipline AVL_exampleEval 3
      (Tree.node Tree.nil 1 (1 : Int) (Tree.node Tree.nil 0 2 Tree.nil))
      [⟨RotKind.single, 1, 1, 1⟩] :=
  ⟨by decide, by decide,
   claim_c5 AVL_exampleEval 3
     (Tree.node Tree.nil 1 (1 : Int) (Tree.node Tree.nil 0 2 Tree.nil))
     (Tree.node (Tree.node Tree.nil 0 1 Tree.nil) 0 2 (Tree.node Tree.nil 0 3 Tree.nil),
      false, [⟨RotKind.single, 1, 1, 1⟩]) (by decide) (by decide)⟩

/-!  Claim C3: delete-then-find misses, insert-then-find hits.  -/

theorem insFixL_keys (l2 : Tree α) (g : Bool) (evs : List InsEv) (b : Int) (x : α)
    (r : Tree α) : keys (insFixL l2 g evs b x r).1 = keys l2 ++ x :: keys r := by
  cases g with
  | false => rfl
  | true =>
    by_cases hb0 : b = 0
    · subst hb0
      simp [insFixL, keys_node]
    · by_cases hbp : b = 1
      · subst hbp
        simp [insFixL, keys_node]
      · cases l2 with
        | nil => simp [insFixL, hb0, hbp, keys_node]
        | node ll lb lx lr =>
          by_cases hs : lb = -1
          · simp [insFixL, hb0, hbp, hs, keys_node, List.append_assoc]
          · cases lr with
            | nil => simp [insFixL, hb0, hbp, hs, keys_node]
            | node cl cb cx cr =>
              simp [insFixL, hb0, hbp, hs, keys_node, List.append_assoc]

theorem insFixR_keys (r2 : Tree α) (g : Bool) (evs : List InsEv) (b : Int) (x : α)
    (l : Tree α) : keys (insFixR r2 g evs b x l).1 = keys l ++ x :: keys r2 := by
  cases g with
  | false => rfl
  | true =>
    by_cases hb0 : b = 0
    · subst hb0
      simp [insFixR, keys_node]
    · by_cases hbp : b = -1
      · subst hbp
        simp [insFixR, keys_node]
      · cases r2 with
        | nil => simp [insFixR, hb0, hbp, keys_node]
        | node rl rb rx rr =>
          by_cases hs : rb = 1
          · simp [insFixR, hb0, hbp, hs, keys_node, List.append_assoc]
          · cases rl with
            | nil => simp [insFixR, hb0, hbp, hs, keys_node]
            | node cl cb cx cr =>
              simp [insFixR, hb0, hbp, hs, keys_node, List.append_assoc]

/-- On an ordered tree with a comparator respecting the order, the find
loop returns the stored payload equal to the key exactly when the key is
among the tree's payloads. -/
theorem find_correct [LinearOrder α] (cmp : α → α → Int) (hcmp : LawfulCmp cmp)
    (k : α) (t : Tree α) (hord : ordb t = true) :
    findGo cmp k t = if k ∈ keys t then some k else none := by
  induction t with
  | nil => simp [findGo, keys]
  | node l b x r ihl ihr =>
    have hsort := ordb_iff_sorted.mp hord
    rw [keys_node] at hsort
    rcases List.pairwise_append.mp hsort with ⟨hsl, hsxr, hcr⟩
    rcases List.pairwise_cons.mp hsxr with ⟨hxr, hsr⟩
    have hordl : ordb l = true := ordb_iff_sorted.mpr hsl
    have hordr : ordb r = true := ordb_iff_sorted.mpr hsr
    rcases lt_trichotomy (cmp x k) 0 with hc | hc | hc
    · have hkx : k < x := (hcmp x k).1.mp hc
      have h0 : ¬(cmp x k = 0) := by omega
      simp only [findGo, if_neg h0, if_pos hc]
      rw [ihl hordl]
      by_cases hmem : k ∈ keys l
      · rw [if_pos hmem, if_pos (by rw [keys_node]; exact List.mem_append_left _ hmem)]
      · rw [if_neg hmem, if_neg ?_]
        rw [keys_node]
        simp only [List.mem_append, List.mem_cons]
        rintro (h | h | h)
        · exact hmem h
        · exact absurd h (ne_of_lt hkx)
        · exact absurd (hxr k h) (not_lt_of_lt hkx)
    · have hxk : x = k := (LawfulCmp.eq_iff hcmp x k).mp hc
      simp only [findGo, if_pos hc]
      rw [if_pos (by rw [keys_node, ← hxk]; exact List.mem_append_right _ (List.mem_cons_self x _)), hxk]
    · have hxk : x < k := (hcmp x k).2.mp hc
      have h0 : ¬(cmp x k = 0) := by omega
      have h1 : ¬(cmp x k < 0) := by omega
      simp only [findGo, if_neg h0, if_neg h1]
      rw [ihr hordr]
      by_cases hmem : k ∈ keys r
      · rw [if_pos hmem, if_pos ?_]
        rw [keys_node]
        exact List.mem_append_right _ (List.mem_cons_of_mem _ hmem)
      · rw [if_neg hmem, if_neg ?_]
        rw [keys_node]
        simp only [List.mem_append, List.mem_cons]
        rintro (h | h | h)
        · exact absurd (lt_trans (hcr k h x (List.mem_cons_self x _)) hxk)
            (lt_irrefl k)
        · exact absurd h.symm (ne_of_lt hxk)
        · exact hmem h

/-- The tree-shape part of AVL_insert keeps the search-tree order and adds
exactly the new payload to the key multiset. -/
theorem insE_sorted [LinearOrder α] (cmp : α → α → Int) (hcmp : LawfulCmp cmp) (d : α)
    (t : Tree α) :
    ∀ res : Tree α × Bool × List InsEv, ordb t = true → insE cmp d t = some res →
    ordb res.1 = true ∧ ∀ y : α, y ∈ keys res.1 ↔ y ∈ keys t ∨ y = d := by
  induction t with
  | nil =>
    intro res _ hE
    simp only [insE, Option.some_inj] at hE
    subst hE
    constructor
    · simp [ordb, keys]
    · intro y
      simp [keys]
  | node l b x r ihl ihr =>
    intro res hord hE
    have hsort := ordb_iff_sorted.mp hord
    rw [keys_node] at hsort
    rcases List.pairwise_append.mp hsort with ⟨hsl, hsxr, hcr⟩
    rcases List.pairwise_cons.mp hsxr with ⟨hxr, hsr⟩
    rcases lt_trichotomy (cmp x d) 0 with hc | hc | hc
    · have hdx : d < x := (hcmp x d).1.mp hc
      have h0 : ¬(cmp x d = 0) := by omega
      simp only [insE, if_neg h0, if_pos hc] at hE
      cases hEl : insE cmp d l with
      | none => rw [hEl] at hE; simp at hE
      | some lres =>
        obtain ⟨l2, g, evs⟩ := lres
        rw [hEl] at hE
        simp only [Option.some_inj] at hE
        subst hE
        rcases ihl (l2, g, evs) (ordb_iff_sorted.mpr hsl) hEl with ⟨hordl2, hmem⟩
        have hkeys := insFixL_keys l2 g evs b x r
        constructor
        · rw [ordb_iff_sorted, hkeys]
          show List.Pairwise _ _
          rw [List.pairwise_append]
          refine ⟨ordb_iff_sorted.mp hordl2, hsxr, ?_⟩
          intro a ha y hy
          rcases (hmem a).mp ha with h | h
          · exact hcr a h y hy
          · subst h
            rcases List.mem_cons.mp hy with rfl | hy
            · exact hdx
            · exact lt_trans hdx (hxr y hy)
        · intro y
          rw [hkeys, keys_node]
          simp only [List.mem_append, List.mem_cons]
          rw [hmem y]
          tauto
    · simp only [insE, if_pos hc] at hE
      exact absurd hE (by simp)
    · have hxd : x < d := (hcmp x d).2.mp hc
      have h0 : ¬(cmp x d = 0) := by omega
      have h1 : ¬(cmp x d < 0) := by omega
      simp only [insE, if_neg h0, if_neg h1] at hE
      cases hEr : insE cmp d r with
      | none => rw [hEr] at hE; simp at hE
      | some rres =>
        obtain ⟨r2, g, evs⟩ := rres
        rw [hEr] at hE
        simp only [Option.some_inj] at hE
        subst hE
        rcases ihr (r2, g, evs) (ordb_iff_sorted.mpr hsr) hEr with ⟨hordr2, hmem⟩
        have hkeys := insFixR_keys r2 g evs b x l
        constructor
        · rw [ordb_iff_sorted, hkeys]
          show List.Pairwise _ _
          rw [List.pairwise_append]
          refine ⟨hsl, ?_, ?_⟩
          · show List.Pairwise _ _
            rw [List.pairwise_cons]
            refine ⟨?_, ordb_iff_sorted.mp hordr2⟩
            intro y hy
            rcases (hmem y).mp hy with h | h
            · exact hxr y h
            · subst h
              exact hxd
          · intro a ha y hy
            rcases List.mem_cons.mp hy with rfl | hy
            · exact hcr a ha y (List.mem_cons_self y _)
            · rcases (hmem y).mp hy with h | h
              · exact hcr a ha y (List.mem_cons_of_mem _ h)
              · subst h
                exact lt_trans (hcr a ha x (List.mem_cons_self x _)) hxd
        · intro y
          rw [hkeys, keys_node]
          simp only [List.mem_append, List.mem_cons]
          rw [hmem y]
          tauto

/-- Claim C3: on a balanced, ordered tree within the depth bound (and with
a positive slab size, so allocation succeeds), deleting a key and then
finding it reports not-found, and inserting a payload not already present
and then finding it returns that payload. -/
theorem claim_c3 [LinearOrder α] (cmp : α → α → Int) (hcmp : LawfulCmp cmp)
    (t : AVL_TREE α) (k d : α)
    (hok : okb t.top = true) (hord : ordb t.top = true)
    (hht : ht t.top ≤ 64) (halloc : 1 ≤ t.allocAtOnce) :
    AVL_find cmp (AVL_delete cmp t k).2 k = none ∧
    (AVL_find cmp t d = none →
      AVL_find cmp (AVL_insert cmp true t d).2 d = some d) := by
  constructor
  · cases htt : t.top with
    | nil =>
      simp only [AVL_delete, htt]
      simp [AVL_find, htt, findGo]
    | node l b x r =>
      rw [htt] at hok hord hht
      cases hE : delE cmp k 0 (Tree.node l b x r) with
      | none =>
        simp only [AVL_delete, htt, hE]
        have hiff := delE_isSome_iff_found cmp k (Tree.node l b x r) 0 (by omega)
        rw [hE] at hiff
        have hfg : findGo cmp k (Tree.node l b x r) = none := by
          cases hfg2 : findGo cmp k (Tree.node l b x r) with
          | none => rfl
          | some v =>
            rw [hfg2] at hiff
            simp at hiff
        simp [AVL_find, htt, hfg]
      | some res =>
        obtain ⟨d0, t2, hch, ev⟩ := res
        simp only [AVL_delete, htt, hE]
        have hspec := delE_spec cmp k (Tree.node l b x r) 0 (d0, t2, hch, ev) hok
          (by omega) hE
        rcases hspec with ⟨hokb2, hh2, hht2, ⟨A, B, hsplit, hnew⟩, hc0, _⟩
        have hd0 : d0 = k := (LawfulCmp.eq_iff hcmp d0 k).mp hc0
        subst hd0
        have hs : List.Pairwise (· < ·) (A ++ d0 :: B) := by
          have hps := ordb_iff_sorted.mp hord
          rw [hsplit] at hps
          exact hps
        rcases List.pairwise_append.mp hs with ⟨hA, hkB, hcross⟩
        have hknotin : d0 ∉ A ++ B := by
          rw [List.mem_append]
          rintro (h | h)
          · exact absurd (hcross d0 h d0 (List.mem_cons_self d0 _)) (lt_irrefl d0)
          · exact absurd ((List.pairwise_cons.mp hkB).1 d0 h) (lt_irrefl d0)
        have hord2 : ordb t2 = true := by
          rw [ordb_iff_sorted, hnew]
          exact List.Pairwise.sublist
            (List.Sublist.append_left ((List.Sublist.refl B).cons d0) A) hs
        show findGo cmp d0 t2 = none
        rw [find_correct cmp hcmp d0 t2 hord2, if_neg ?_]
        rw [hnew]
        exact hknotin
  · intro hfind
    simp only [AVL_find] at hfind
    cases hI : insE cmp d t.top with
    | none =>
      exfalso
      have hcontra := (insE_none_iff_found cmp d t.top).mp hI
      rw [hfind] at hcontra
      simp at hcontra
    | some res =>
      obtain ⟨t2, grew, evs⟩ := res
      rcases insE_sorted cmp hcmp d t.top (t2, grew, evs) hord hI with ⟨hord2, hmem⟩
      have hd2 : d ∈ keys t2 := (hmem d).mpr (Or.inr rfl)
      by_cases hemp : t.freeStack = []
      · have hk : t.allocAtOnce.toNat ≠ 0 := by omega
        cases hsl : slabNodes t.allocAtOnce.toNat with
        | nil =>
          exfalso
          have hlen : (slabNodes t.allocAtOnce.toNat).length = t.allocAtOnce.toNat := by
            simp [slabNodes]
          rw [hsl] at hlen
          simp at hlen
          exact hk hlen.symm
        | cons hd0 rest =>
          have hnn : AVL_newNode true t =
              some { t with freeStack := rest, size := t.size + 1 } := by
            simp only [AVL_newNode, hemp, hsl]
            simp
          simp only [AVL_insert, hI, hnn]
          show findGo cmp d t2 = some d
          rw [find_correct cmp hcmp d t2 hord2, if_pos hd2]
      · cases hfs2 : t.freeStack with
        | nil => exact absurd hfs2 hemp
        | cons hd0 rest =>
          have hnn : AVL_newNode true t =
              some { t with freeStack := rest, size := t.size + 1 } := by
            simp only [AVL_newNode, hfs2]
            simp [hemp]
          simp only [AVL_insert, hI, hnn]
          show findGo cmp d t2 = some d
          rw [find_correct cmp hcmp d t2 hord2, if_pos hd2]

/-- A concrete handle holding 1, 2, 3 for exercising claim C3. -/
def c3tree : AVL_TREE Int :=
  { freeStack := []
    allocAtOnce := 4
    top := Tree.node (Tree.node Tree.nil 0 1 Tree.nil) 0 2 (Tree.node Tree.nil 0 3 Tree.nil)
    height := 2
    size := 3 }

theorem claim_c3_witness :
    (LawfulCmp (α := Int) AVL_exampleEval ∧ okb c3tree.top = true ∧
     ordb c3tree.top = true ∧ ht c3tree.top ≤ 64 ∧ 1 ≤ c3tree.allocAtOnce) ∧
    (AVL_find AVL_exampleEval (AVL_delete AVL_exampleEval c3tree 2).2 2 = none ∧
     (AVL_find AVL_exampleEval c3tree 5 = none →
      AVL_find AVL_exampleEval (AVL_insert AVL_exampleEval true c3tree 5).2 5 = some 5)) :=
  ⟨⟨lawful_exampleEval, by decide, by decide, by decide, by decide⟩,
   claim_c3 AVL_exampleEval lawful_exampleEval c3tree 2 5 (by decide) (by decide)
     (by decide) (by decide)⟩

/-!  Claim C2: walk visits every live node once, in sorted order.  -/

theorem sizeT_node {l r : Tree α} {b : Int} {x : α} :
    sizeT (Tree.node l b x r) = sizeT l + sizeT r + 1 := rfl

theorem sizeT_leftOf_le (t : Tree α) : sizeT (leftOf t) ≤ sizeT t := by
  cases t with
  | nil => exact Nat.le_refl 0
  | node l b x r =>
    show sizeT l ≤ sizeT l + sizeT r + 1
    omega

theorem sizeT_rightOf_le (t : Tree α) : sizeT (rightOf t) ≤ sizeT t := by
  cases t with
  | nil => exact Nat.le_refl 0
  | node l b x r =>
    show sizeT r ≤ sizeT l + sizeT r + 1
    omega

/-- Distinct sizes separate tree values: the model's stand-in for distinct
pointers to structurally nested nodes. -/
theorem tree_ne_of_sizeT {t1 t2 : Tree α} (h : sizeT t2 < sizeT t1) : t1 ≠ t2 := by
  intro he
  rw [he] at h
  exact Nat.lt_irrefl _ h

/-- Number of do-while iterations AVL_walk spends between entering a
subtree (just pushed, `c` at its root) and popping back to its parent:
one per edge traversal plus one visiting step. -/
def wCount : Tree α → Nat
  | Tree.nil => 0
  | Tree.node l _ _ r =>
    (if l = Tree.nil then 0 else 1 + wCount l) + 1 +
    (if r = Tree.nil then 0 else 1 + wCount r)

theorem wCount_le (t : Tree α) : wCount t ≤ 3 * sizeT t := by
  induction t with
  | nil => exact Nat.le_refl 0
  | node l b x r ihl ihr =>
    show (if l = Tree.nil then 0 else 1 + wCount l) + 1 +
      (if r = Tree.nil then 0 else 1 + wCount r) ≤ 3 * (sizeT l + sizeT r + 1)
    split_ifs <;> omega

theorem wRun_stuck (m : Nat) (s : WalkSt α) (h : ¬(0 < s.top ∧ s.top < 63)) :
    wRun m s = s := by
  cases m with
  | zero => rfl
  | succ m =>
    show (if 0 < s.top ∧ s.top < 63 then wRun m (wIter s) else s) = s
    rw [if_neg h]

theorem wRun_cons (m : Nat) (s : WalkSt α) (h : 0 < s.top ∧ s.top < 63) :
    wRun (m + 1) s = wRun m (wIter s) := by
  show (if 0 < s.top ∧ s.top < 63 then wRun m (wIter s) else s) = _
  rw [if_pos h]

theorem wSec1_push (st : Nat → Tree α) (k : Nat) (c p : Tree α) (out : List α)
    (hq : st (k - 1) = p) (hl : leftOf c ≠ Tree.nil) :
    wSec1 ⟨st, k, c, p, out⟩ =
      ⟨Function.update st k c, k + 1, leftOf c, c, out⟩ := by
  simp only [wSec1]
  rw [if_pos hq, if_pos hl]

theorem wSec1_nilL (st : Nat → Tree α) (k : Nat) (c p : Tree α) (out : List α)
    (hq : st (k - 1) = p) (hl : leftOf c = Tree.nil) :
    wSec1 ⟨st, k, c, p, out⟩ = ⟨st, k, c, Tree.nil, out⟩ := by
  simp only [wSec1]
  rw [if_pos hq, if_neg (fun h => h hl)]

theorem wSec1_skip (st : Nat → Tree α) (k : Nat) (c p : Tree α) (out : List α)
    (hq : st (k - 1) ≠ p) :
    wSec1 ⟨st, k, c, p, out⟩ = ⟨st, k, c, p, out⟩ := by
  simp only [wSec1]
  rw [if_neg hq]

theorem wSec2_push (st : Nat → Tree α) (k : Nat) (c p : Tree α) (out : List α)
    (hp : p = leftOf c) (hr : rightOf c ≠ Tree.nil) :
    wSec2 ⟨st, k, c, p, out⟩ =
      ⟨Function.update st k c, k + 1, rightOf c, c, out ++ visitOut c⟩ := by
  simp only [wSec2]
  rw [if_pos hp, if_pos hr]

theorem wSec2_nilR (st : Nat → Tree α) (k : Nat) (c p : Tree α) (out : List α)
    (hp : p = leftOf c) (hr : rightOf c = Tree.nil) :
    wSec2 ⟨st, k, c, p, out⟩ = ⟨st, k, c, Tree.nil, out ++ visitOut c⟩ := by
  simp only [wSec2]
  rw [if_pos hp, if_neg (fun h => h hr)]

theorem wSec2_skip (st : Nat → Tree α) (k : Nat) (c p : Tree α) (out : List α)
    (hp : p ≠ leftOf c) :
    wSec2 ⟨st, k, c, p, out⟩ = ⟨st, k, c, p, out⟩ := by
  simp only [wSec2]
  rw [if_neg hp]

theorem wSec3_pop (st : Nat → Tree α) (k : Nat) (c p : Tree α) (out : List α)
    (hp : p = rightOf c) :
    wSec3 ⟨st, k, c, p, out⟩ = ⟨st, k - 1, st (k - 1), c, out⟩ := by
  simp only [wSec3]
  rw [if_pos hp]

theorem wSec3_skip (st : Nat → Tree α) (k : Nat) (c p : Tree α) (out : List α)
    (hp : p ≠ rightOf c) :
    wSec3 ⟨st, k, c, p, out⟩ = ⟨st, k, c, p, out⟩ := by
  simp only [wSec3]
  rw [if_neg hp]

/-- Big-step behaviour of the walk loop on one subtree: entered with the
subtree in `c`, its parent both in `p` and on top of the stack, the loop
spends exactly `wCount` iterations inside the subtree, leaves the stack
below the entry level untouched, pops back to the parent, and appends the
subtree's in-order payload sequence to the output.  The size hypothesis
`sizeT S ≤ sizeT q` and the Nodup hypothesis stand in for pointer
distinctness of live nodes when the source compares pointers. -/
theorem wRun_subtree (S : Tree α) :
    ∀ (st : Nat → Tree α) (k : Nat) (q : Tree α) (out : List α) (m : Nat),
    S ≠ Tree.nil → 1 ≤ k → st (k - 1) = q → sizeT S ≤ sizeT q →
    (k : Int) + ht S ≤ 63 → (keys S).Nodup →
    ∃ st2 : Nat → Tree α,
      (∀ i : Nat, i < k → st2 i = st i) ∧
      wRun (wCount S + m) ⟨st, k, S, q, out⟩ =
        wRun m ⟨st2, k - 1, q, S, out ++ keys S⟩ := by
  induction S with
  | nil =>
    intro st k q out m hS
    exact absurd rfl hS
  | node l b x r ihl ihr =>
    intro st k q out m _ hk hq hsz hdep hnd
    rw [ht_node] at hdep
    have hhl := ht_nonneg l
    have hhr := ht_nonneg r
    have hcond : (0:Nat) < k ∧ k < 63 := ⟨by omega, by omega⟩
    have hszl : sizeT l < sizeT (Tree.node l b x r) := by rw [sizeT_node]; omega
    have hszr : sizeT r < sizeT (Tree.node l b x r) := by rw [sizeT_node]; omega
    rw [keys_node] at hnd
    rcases List.nodup_append.mp hnd with ⟨hndl, hndxr, hdisj⟩
    rcases List.nodup_cons.mp hndxr with ⟨hxnotr, hndr⟩
    by_cases hl : l = Tree.nil
    · subst hl
      by_cases hr : r = Tree.nil
      · -- leaf: one iteration visits and pops
        subst hr
        have hwc : wCount (Tree.node Tree.nil b x Tree.nil) + m = m + 1 := by
          have h1 : wCount (Tree.node Tree.nil b x Tree.nil) = 1 := rfl
          rw [h1]
          omega
        refine ⟨st, fun i _ => rfl, ?_⟩
        rw [hwc, wRun_cons m _ hcond]
        simp only [wIter]
        rw [wSec1_nilL st k (Tree.node Tree.nil b x Tree.nil) q out hq rfl]
        rw [wSec2_nilR st k (Tree.node Tree.nil b x Tree.nil) Tree.nil out rfl rfl]
        rw [wSec3_pop st k (Tree.node Tree.nil b x Tree.nil) Tree.nil
          (out ++ visitOut (Tree.node Tree.nil b x Tree.nil)) rfl]
        rw [hq]
        rfl
      · -- no left child: visit, descend right, then pop on return
        have hwc : wCount (Tree.node Tree.nil b x r) + m = (wCount r + (m + 1)) + 1 := by
          have h1 : wCount (Tree.node Tree.nil b x r) =
              1 + (if r = Tree.nil then 0 else 1 + wCount r) := rfl
          rw [h1, if_neg hr]
          omega
        have hupd : (Function.update st k (Tree.node Tree.nil b x r)) (k + 1 - 1) =
            Tree.node Tree.nil b x r := by
          rw [Nat.add_sub_cancel, Function.update_same]
        obtain ⟨st2, hag2, heq2⟩ := ihr (Function.update st k (Tree.node Tree.nil b x r))
          (k + 1) (Tree.node Tree.nil b x r) (out ++ [x]) (m + 1) hr (by omega) hupd
          (le_of_lt hszr) (by omega) hndr
        have hst2q : st2 (k - 1) = q := by
          rw [hag2 (k - 1) (by omega), Function.update_apply,
            if_neg (by omega : ¬(k - 1 = k)), hq]
        refine ⟨st2, ?_, ?_⟩
        · intro i hi
          rw [hag2 i (by omega), Function.update_apply, if_neg (by omega : ¬(i = k))]
        · rw [hwc, wRun_cons _ _ hcond]
          simp only [wIter]
          rw [wSec1_nilL st k (Tree.node Tree.nil b x r) q out hq rfl]
          rw [wSec2_push st k (Tree.node Tree.nil b x r) Tree.nil out rfl hr]
          rw [wSec3_skip (Function.update st k (Tree.node Tree.nil b x r)) (k + 1)
            (rightOf (Tree.node Tree.nil b x r)) (Tree.node Tree.nil b x r)
            (out ++ visitOut (Tree.node Tree.nil b x r))
            (tree_ne_of_sizeT (lt_of_le_of_lt (sizeT_rightOf_le r) hszr))]
          show wRun (wCount r + (m + 1))
              ⟨Function.update st k (Tree.node Tree.nil b x r), k + 1, r,
               Tree.node Tree.nil b x r, out ++ [x]⟩ = _
          rw [heq2]
          simp only [Nat.add_sub_cancel]
          rw [wRun_cons m _ hcond]
          simp only [wIter]
          rw [wSec1_skip st2 k (Tree.node Tree.nil b x r) r ((out ++ [x]) ++ keys r)
            (by rw [hst2q]; exact tree_ne_of_sizeT (lt_of_lt_of_le hszr hsz))]
          rw [wSec2_skip st2 k (Tree.node Tree.nil b x r) r ((out ++ [x]) ++ keys r) hr]
          rw [wSec3_pop st2 k (Tree.node Tree.nil b x r) r ((out ++ [x]) ++ keys r) rfl]
          rw [hst2q]
          have hout : (out ++ [x]) ++ keys r = out ++ keys (Tree.node Tree.nil b x r) := by
            rw [keys_node]
            simp [keys]
          rw [hout]
    · by_cases hr : r = Tree.nil
      · -- no right child: descend left, then visit and pop on return
        subst hr
        have hwc : wCount (Tree.node l b x Tree.nil) + m = (wCount l + (m + 1)) + 1 := by
          have h1 : wCount (Tree.node l b x Tree.nil) =
              (if l = Tree.nil then 0 else 1 + wCount l) + 1 := rfl
          rw [h1, if_neg hl]
          omega
        have hupd : (Function.update st k (Tree.node l b x Tree.nil)) (k + 1 - 1) =
            Tree.node l b x Tree.nil := by
          rw [Nat.add_sub_cancel, Function.update_same]
        obtain ⟨st2, hag2, heq2⟩ := ihl (Function.update st k (Tree.node l b x Tree.nil))
          (k + 1) (Tree.node l b x Tree.nil) out (m + 1) hl (by omega) hupd
          (le_of_lt hszl) (by omega) hndl
        have hst2q : st2 (k - 1) = q := by
          rw [hag2 (k - 1) (by omega), Function.update_apply,
            if_neg (by omega : ¬(k - 1 = k)), hq]
        refine ⟨st2, ?_, ?_⟩
        · intro i hi
          rw [hag2 i (by omega), Function.update_apply, if_neg (by omega : ¬(i = k))]
        · rw [hwc, wRun_cons _ _ hcond]
          simp only [wIter]
          rw [wSec1_push st k (Tree.node l b x Tree.nil) q out hq hl]
          rw [wSec2_skip (Function.update st k (Tree.node l b x Tree.nil)) (k + 1)
            (leftOf (Tree.node l b x Tree.nil)) (Tree.node l b x Tree.nil) out
            (tree_ne_of_sizeT (lt_of_le_of_lt (sizeT_leftOf_le l) hszl))]
          rw [wSec3_skip (Function.update st k (Tree.node l b x Tree.nil)) (k + 1)
            (leftOf (Tree.node l b x Tree.nil)) (Tree.node l b x Tree.nil) out
            (tree_ne_of_sizeT (lt_of_le_of_lt (sizeT_rightOf_le l) hszl))]
          show wRun (wCount l + (m + 1))
              ⟨Function.update st k (Tree.node l b x Tree.nil), k + 1, l,
               Tree.node l b x Tree.nil, out⟩ = _
          rw [heq2]
          simp only [Nat.add_sub_cancel]
          rw [wRun_cons m _ hcond]
          simp only [wIter]
          rw [wSec1_skip st2 k (Tree.node l b x Tree.nil) l (out ++ keys l)
            (by rw [hst2q]; exact tree_ne_of_sizeT (lt_of_lt_of_le hszl hsz))]
          rw [wSec2_nilR st2 k (Tree.node l b x Tree.nil) l (out ++ keys l) rfl rfl]
          rw [wSec3_pop st2 k (Tree.node l b x Tree.nil) Tree.nil
            ((out ++ keys l) ++ visitOut (Tree.node l b x Tree.nil)) rfl]
          rw [hst2q]
          have hout : (out ++ keys l) ++ visitOut (Tree.node l b x Tree.nil) =
              out ++ keys (Tree.node l b x Tree.nil) := by
            rw [keys_node]
            show (out ++ keys l) ++ [x] = _
            simp [keys]
          rw [hout]
      · -- two children: descend left, return and visit, descend right, pop
        have hrl : r ≠ l := by
          intro he
          cases hkl : keys l with
          | nil => exact hl (keys_eq_nil.mp hkl)
          | cons y ys =>
            have hyl : y ∈ keys l := by
              rw [hkl]
              exact List.mem_cons_self y ys
            have hyr : y ∈ keys r := by
              rw [he]
              exact hyl
            exact hdisj hyl (List.mem_cons_of_mem x hyr)
        have hwc : wCount (Tree.node l b x r) + m =
            (wCount l + ((wCount r + (m + 1)) + 1)) + 1 := by
          have h1 : wCount (Tree.node l b x r) =
              (if l = Tree.nil then 0 else 1 + wCount l) + 1 +
              (if r = Tree.nil then 0 else 1 + wCount r) := rfl
          rw [h1, if_neg hl, if_neg hr]
          omega
        have hupd : (Function.update st k (Tree.node l b x r)) (k + 1 - 1) =
            Tree.node l b x r := by
          rw [Nat.add_sub_cancel, Function.update_same]
        obtain ⟨st2, hag2, heq2⟩ := ihl (Function.update st k (Tree.node l b x r))
          (k + 1) (Tree.node l b x r) out ((wCount r + (m + 1)) + 1) hl (by omega) hupd
          (le_of_lt hszl) (by omega) hndl
        have hst2q : st2 (k - 1) = q := by
          rw [hag2 (k - 1) (by omega), Function.update_apply,
            if_neg (by omega : ¬(k - 1 = k)), hq]
        have hupd2 : (Function.update st2 k (Tree.node l b x r)) (k + 1 - 1) =
            Tree.node l b x r := by
          rw [Nat.add_sub_cancel, Function.update_same]
        obtain ⟨st4, hag4, heq4⟩ := ihr (Function.update st2 k (Tree.node l b x r))
          (k + 1) (Tree.node l b x r) ((out ++ keys l) ++ [x]) (m + 1) hr (by omega) hupd2
          (le_of_lt hszr) (by omega) hndr
        have hst4q : st4 (k - 1) = q := by
          rw [hag4 (k - 1) (by omega), Function.update_apply,
            if_neg (by omega : ¬(k - 1 = k)), hst2q]
        refine ⟨st4, ?_, ?_⟩
        · intro i hi
          rw [hag4 i (by omega), Function.update_apply, if_neg (by omega : ¬(i = k)),
            hag2 i (by omega), Function.update_apply, if_neg (by omega : ¬(i = k))]
        · rw [hwc, wRun_cons _ _ hcond]
          simp only [wIter]
          rw [wSec1_push st k (Tree.node l b x r) q out hq hl]
          rw [wSec2_skip (Function.update st k (Tree.node l b x r)) (k + 1)
            (leftOf (Tree.node l b x r)) (Tree.node l b x r) out
            (tree_ne_of_sizeT (lt_of_le_of_lt (sizeT_leftOf_le l) hszl))]
          rw [wSec3_skip (Function.update st k (Tree.node l b x r)) (k + 1)
            (leftOf (Tree.node l b x r)) (Tree.node l b x r) out
            (tree_ne_of_sizeT (lt_of_le_of_lt (sizeT_rightOf_le l) hszl))]
          show wRun (wCount l + ((wCount r + (m + 1)) + 1))
              ⟨Function.update st k (Tree.node l b x r), k + 1, l,
               Tree.node l b x r, out⟩ = _
          rw [heq2]
          simp only [Nat.add_sub_cancel]
          rw [wRun_cons _ _ hcond]
          simp only [wIter]
          rw [wSec1_skip st2 k (Tree.node l b x r) l (out ++ keys l)
            (by rw [hst2q]; exact tree_ne_of_sizeT (lt_of_lt_of_le hszl hsz))]
          rw [wSec2_push st2 k (Tree.node l b x r) l (out ++ keys l) rfl hr]
          rw [wSec3_skip (Function.update st2 k (Tree.node l b x r)) (k + 1)
            (rightOf (Tree.node l b x r)) (Tree.node l b x r)
            ((out ++ keys l) ++ visitOut (Tree.node l b x r))
            (tree_ne_of_sizeT (lt_of_le_of_lt (sizeT_rightOf_le r) hszr))]
          show wRun (wCount r + (m + 1))
              ⟨Function.update st2 k (Tree.node l b x r), k + 1, r,
               Tree.node l b x r, (out ++ keys l) ++ [x]⟩ = _
          rw [heq4]
          simp only [Nat.add_sub_cancel]
          rw [wRun_cons m _ hcond]
          simp only [wIter]
          rw [wSec1_skip st4 k (Tree.node l b x r) r (((out ++ keys l) ++ [x]) ++ keys r)
            (by rw [hst4q]; exact tree_ne_of_sizeT (lt_of_lt_of_le hszr hsz))]
          rw [wSec2_skip st4 k (Tree.node l b x r) r (((out ++ keys l) ++ [x]) ++ keys r) hrl]
          rw [wSec3_pop st4 k (Tree.node l b x r) r
            (((out ++ keys l) ++ [x]) ++ keys r) rfl]
          rw [hst4q]
          have hout : ((out ++ keys l) ++ [x]) ++ keys r =
              out ++ keys (Tree.node l b x r) := by
            rw [keys_node]
            simp
          rw [hout]

/-- AVL_walk emits exactly the in-order payload sequence of any tree whose
live nodes carry pairwise distinct payloads and whose height stays below
the loop guard. -/
theorem AVL_walk_eq_keys (t : AVL_TREE α) (hnd : (keys t.top).Nodup)
    (hht : ht t.top ≤ 62) : AVL_walk t = keys t.top := by
  cases htt : t.top with
  | nil => simp [AVL_walk, htt, keys]
  | node l b x r =>
    rw [htt] at hnd hht
    simp only [AVL_walk, htt]
    have hfuel : 3 * sizeT (Tree.node l b x r) + 2 =
        wCount (Tree.node l b x r) +
          (3 * sizeT (Tree.node l b x r) + 2 - wCount (Tree.node l b x r)) := by
      have := wCount_le (Tree.node l b x r)
      omega
    have hq : (Function.update (fun _ => (Tree.nil : Tree α)) 0
        (Tree.node l b x r)) (1 - 1) = Tree.node l b x r := by
      rw [Function.update_same]
    obtain ⟨st2, _, heq⟩ := wRun_subtree (Tree.node l b x r)
      (Function.update (fun _ => Tree.nil) 0 (Tree.node l b x r)) 1
      (Tree.node l b x r) []
      (3 * sizeT (Tree.node l b x r) + 2 - wCount (Tree.node l b x r))
      (by intro h; cases h) (le_refl 1) hq (le_refl _) (by omega) hnd
    rw [hfuel, heq, wRun_stuck _ _ (by intro h; exact absurd h.1 (by simp))]
    simp

/-- A tree handle built by folding AVL_insert over a payload list, starting
from AVL_newTree. -/
def buildT (cmp : α → α → Int) (ds : List α) : AVL_TREE α :=
  ds.foldl (fun t d => (AVL_insert cmp true t d).2) (AVL_newTree 8)

theorem insert_preserves_ordb [LinearOrder α] (cmp : α → α → Int)
    (hcmp : LawfulCmp cmp) (t : AVL_TREE α) (d : α) (hord : ordb t.top = true) :
    ordb (AVL_insert cmp true t d).2.top = true := by
  cases hI : insE cmp d t.top with
  | none => simp only [AVL_insert, hI]; exact hord
  | some res =>
    obtain ⟨t2, grew, evs⟩ := res
    cases hN : AVL_newNode true t with
    | none => simp only [AVL_insert, hI, hN]; exact hord
    | some t1 =>
      simp only [AVL_insert, hI, hN]
      exact (insE_sorted cmp hcmp d t.top (t2, grew, evs) hord hI).1

theorem buildT_ordb [LinearOrder α] (cmp : α → α → Int) (hcmp : LawfulCmp cmp)
    (ds : List α) : ordb (buildT cmp ds).top = true := by
  suffices h : ∀ t0 : AVL_TREE α, ordb t0.top = true →
      ordb (ds.foldl (fun t d => (AVL_insert cmp true t d).2) t0).top = true by
    exact h (AVL_newTree 8) rfl
  induction ds with
  | nil => intro t0 h; exact h
  | cons d ds ih =>
    intro t0 h
    exact ih _ (insert_preserves_ordb cmp hcmp t0 d h)

/-- Claim C2: for a tree built by any sequence of inserts (the comparator
lawful for a linear order, so distinct live payloads are automatic), with
the resulting height within the walk guard, AVL_walk invokes the callback
exactly once per live node — its emission list is exactly the in-order
key list — in strictly increasing comparator order, with no repeats. -/
theorem claim_c2 [LinearOrder α] (cmp : α → α → Int) (hcmp : LawfulCmp cmp)
    (ds : List α) (hht : ht (buildT cmp ds).top ≤ 62) :
    AVL_walk (buildT cmp ds) = keys (buildT cmp ds).top ∧
    List.Sorted (· < ·) (AVL_walk (buildT cmp ds)) ∧
    (AVL_walk (buildT cmp ds)).Nodup := by
  have hord := buildT_ordb cmp hcmp ds
  have hsort := ordb_iff_sorted.mp hord
  have hnd : (keys (buildT cmp ds).top).Nodup := hsort.nodup
  have hw := AVL_walk_eq_keys (buildT cmp ds) hnd hht
  refine ⟨hw, ?_, ?_⟩
  · rw [hw]; exact hsort
  · rw [hw]; exact hnd

theorem claim_c2_witness :
    (LawfulCmp (α := Int) AVL_exampleEval ∧
     ht (buildT AVL_exampleEval [2, 1, 3, 5, 4]).top ≤ 62) ∧
    (AVL_walk (buildT AVL_exampleEval [2, 1, 3, 5, 4]) =
       keys (buildT AVL_exampleEval [2, 1, 3, 5, 4]).top ∧
     List.Sorted (· < ·) (AVL_walk (buildT AVL_exampleEval [2, 1, 3, 5, 4])) ∧
     (AVL_walk (buildT AVL_exampleEval [2, 1, 3, 5, 4])).Nodup) :=
  ⟨⟨lawful_exampleEval, by decide⟩,
   claim_c2 AVL_exampleEval lawful_exampleEval [2, 1, 3, 5, 4] (by decide)⟩

/-!  Claim C7: AVL_dealloc releases only fully-unused slabs, returns their
cell count, and leaves the tree fields and every in-use node intact.  -/

/-- Whether slab `i` is currently allocated. -/
def slabAlive (mem : List (Option (List MNode))) (i : Nat) : Bool :=
  match mem.get? i with
  | some (some _) => true
  | _ => false

theorem getNode_eq_some_iff {mem : List (Option (List MNode))} {p : Ptr} {n : MNode} :
    getNode mem p = some n ↔
      ∃ slab, mem.get? p.1 = some (some slab) ∧ slab.get? p.2 = some n := by
  unfold getNode
  cases h : mem.get? p.1 with
  | none => simp
  | some o =>
    cases o with
    | none => simp
    | some slab => simp

theorem markCln_get (v : Bool) :
    ∀ (slab : List MNode) (k j : Nat),
    (markCln v k slab).get? j =
      if j < k then (slab.get? j).map (fun m => { m with cln := v }) else slab.get? j := by
  intro slab
  induction slab with
  | nil =>
    intro k j
    simp [markCln]
  | cons m s ih =>
    intro k j
    cases k with
    | zero => simp [markCln]
    | succ k =>
      cases j with
      | zero => simp [markCln]
      | succ j =>
        have h := ih k j
        show ((markCln v k s).get? j : Option MNode) = _
        rw [h]
        simp [Nat.succ_lt_succ_iff]

theorem get_memset (mem : List (Option (List MNode))) (i : Nat)
    (v : Option (List MNode)) (j : Nat) :
    (mem.set i v).get? j =
      if j = i ∧ i < mem.length then some v else mem.get? j := by
  by_cases h1 : j = i
  · subst h1
    by_cases h2 : j < mem.length
    · rw [if_pos ⟨rfl, h2⟩, List.get?_set_eq]
      cases hj : mem.get? j with
      | none =>
        rw [List.get?_eq_none] at hj
        omega
      | some o => simp
    · rw [if_neg (by tauto), List.set_eq_of_length_le (by omega)]
  · rw [if_neg (by tauto), List.get?_set_ne _ _ (fun he => h1 he.symm)]

theorem getNode_memset_some (mem : List (Option (List MNode))) (i : Nat)
    (s2 : List MNode) (p : Ptr) (hin : i < mem.length) :
    getNode (mem.set i (some s2)) p =
      if p.1 = i then s2.get? p.2 else getNode mem p := by
  unfold getNode
  rw [get_memset]
  by_cases h1 : p.1 = i
  · rw [if_pos ⟨h1, hin⟩, if_pos h1]
  · rw [if_neg (by tauto), if_neg h1]

theorem getNode_memset_none (mem : List (Option (List MNode))) (i : Nat)
    (p : Ptr) (hin : i < mem.length) :
    getNode (mem.set i none) p =
      if p.1 = i then none else getNode mem p := by
  unfold getNode
  rw [get_memset]
  by_cases h1 : p.1 = i
  · rw [if_pos ⟨h1, hin⟩, if_pos h1]
  · rw [if_neg (by tauto), if_neg h1]

theorem slabAlive_set_none (mem : List (Option (List MNode))) (i j : Nat) :
    slabAlive (mem.set i none) j = if j = i then false else slabAlive mem j := by
  unfold slabAlive
  rw [get_memset]
  by_cases h1 : j = i
  · subst h1
    by_cases h2 : j < mem.length
    · rw [if_pos ⟨rfl, h2⟩, if_pos rfl]
    · rw [if_neg (by tauto), if_pos rfl]
      have : mem.get? j = none := by
        rw [List.get?_eq_none]
        omega
      rw [this]
  · rw [if_neg (by tauto), if_neg h1]

theorem slabAlive_set_slab {mem : List (Option (List MNode))} {i : Nat}
    {slab : List MNode} (h : mem.get? i = some (some slab)) (s2 : List MNode) (j : Nat) :
    slabAlive (mem.set i (some s2)) j = slabAlive mem j := by
  have hin : i < mem.length := by
    by_contra hc
    rw [List.get?_eq_none.mpr (by omega)] at h
    cases h
  unfold slabAlive
  rw [get_memset]
  by_cases h1 : j = i
  · subst h1
    rw [if_pos ⟨rfl, hin⟩, h]
  · rw [if_neg (by tauto)]

theorem length_memset (mem : List (Option (List MNode))) (i : Nat)
    (v : Option (List MNode)) : (mem.set i v).length = mem.length :=
  List.length_set mem i v

theorem getNode_setNode_ne (mem : List (Option (List MNode))) (q p : Ptr) (n : MNode)
    (h : p ≠ q) : getNode (setNode mem q n) p = getNode mem p := by
  unfold setNode
  cases hq : mem.get? q.1 with
  | none => rfl
  | some o =>
    cases o with
    | none => rfl
    | some slab =>
      have hin : q.1 < mem.length := by
        by_contra hc
        rw [List.get?_eq_none.mpr (by omega)] at hq
        cases hq
      rw [getNode_memset_some mem q.1 _ p hin]
      by_cases h1 : p.1 = q.1
      · rw [if_pos h1]
        have h2 : p.2 ≠ q.2 := by
          intro he
          exact h (Prod.ext h1 he)
        show (slab.set q.2 n).get? p.2 = _
        rw [List.get?_set_ne _ _ (fun he => h2 he.symm)]
        unfold getNode
        rw [h1, hq]
      · rw [if_neg h1]

theorem getNode_setNode_eq {mem : List (Option (List MNode))} {q : Ptr} {m : MNode}
    (n : MNode) (h : getNode mem q = some m) :
    getNode (setNode mem q n) q = some n := by
  rcases getNode_eq_some_iff.mp h with ⟨slab, hq, hcell⟩
  have hin : q.1 < mem.length := by
    by_contra hc
    rw [List.get?_eq_none.mpr (by omega)] at hq
    cases hq
  have hj : q.2 < slab.length := by
    by_contra hc
    rw [List.get?_eq_none.mpr (by omega)] at hcell
    cases hcell
  unfold setNode
  rw [hq, getNode_memset_some mem q.1 _ q hin, if_pos rfl]
  show (slab.set q.2 n).get? q.2 = some n
  rw [List.get?_set_eq]
  cases hc : slab.get? q.2 with
  | none =>
    rw [List.get?_eq_none] at hc
    omega
  | some o => simp

theorem slabAlive_setNode (mem : List (Option (List MNode))) (q : Ptr) (n : MNode)
    (j : Nat) : slabAlive (setNode mem q n) j = slabAlive mem j := by
  unfold setNode
  cases hq : mem.get? q.1 with
  | none => rfl
  | some o =>
    cases o with
    | none => rfl
    | some slab => rw [slabAlive_set_slab hq]

theorem mnode_set_cln_self {m : MNode} (h : m.cln = false) :
    ({ m with cln := false } : MNode) = m := by
  cases m
  simp only at h
  rw [h]

theorem slabAlive_iff {mem : List (Option (List MNode))} {i : Nat} :
    slabAlive mem i = true ↔ ∃ slab, mem.get? i = some (some slab) := by
  unfold slabAlive
  cases h : mem.get? i with
  | none => simp
  | some o =>
    cases o with
    | none => simp
    | some slab => simp

theorem getNode_mk {mem : List (Option (List MNode))} {i : Nat} {slab : List MNode}
    (h : mem.get? i = some (some slab)) (j : Nat) : getNode mem (i, j) = slab.get? j := by
  unfold getNode
  rw [h]

theorem markCln_length (v : Bool) (k : Nat) (slab : List MNode) :
    (markCln v k slab).length = slab.length := by
  simp [markCln]
  omega

/-- Invariant of AVL_dealloc's first pass relative to the starting memory:
lengths, slab aliveness and every field but the cleanup bit are untouched,
in-use cells are bitwise untouched, every scheduled base is the base of an
originally fully-unused slab, and the running count is the slab size times
the number of scheduled slabs. -/
def P1Inv (mem0 : List (Option (List MNode))) (k : Nat)
    (st : List (Option (List MNode)) × List Ptr × Int) : Prop :=
  st.1.length = mem0.length ∧
  (∀ j, slabAlive st.1 j = slabAlive mem0 j) ∧
  (∀ p n, getNode mem0 p = some n → n.usd = true → getNode st.1 p = some n) ∧
  (∀ p m1, getNode st.1 p = some m1 → ∃ m0, getNode mem0 p = some m0 ∧
      m1.l = m0.l ∧ m1.r = m0.r ∧ m1.usd = m0.usd ∧ m1.fst = m0.fst) ∧
  (∀ i s1, st.1.get? i = some (some s1) → ∃ s0, mem0.get? i = some (some s0) ∧
      s1.length = s0.length) ∧
  (∀ q ∈ st.2.1, q.2 = 0 ∧ ∃ slab, mem0.get? q.1 = some (some slab) ∧
      slab.all (fun m => !m.usd) = true) ∧
  st.2.2 = (k : Int) * st.2.1.length

theorem pass1Step_props (mem0 : List (Option (List MNode))) (k : Nat)
    (hcln : ∀ p n, getNode mem0 p = some n → n.cln = false)
    (hlen : ∀ i slab, mem0.get? i = some (some slab) → slab.length = k)
    (hfst : ∀ p n, getNode mem0 p = some n → n.fst = true → p.2 = 0)
    (st : List (Option (List MNode)) × List Ptr × Int) (p : Ptr)
    (hI : P1Inv mem0 k st) :
    P1Inv mem0 k (pass1Step k st p) ∧
    ((pass1Step k st p).2.1 = st.2.1 ∨ (pass1Step k st p).2.1 = st.2.1 ++ [p]) := by
  obtain ⟨h1, h2, h3, h4, h5, h6, h7⟩ := hI
  unfold pass1Step
  cases hg : getNode st.1 p with
  | none => exact ⟨⟨h1, h2, h3, h4, h5, h6, h7⟩, Or.inl rfl⟩
  | some n =>
    dsimp only
    by_cases hf : n.fst
    · rw [if_pos hf]
      cases hs : st.1.get? p.1 with
      | none => exact ⟨⟨h1, h2, h3, h4, h5, h6, h7⟩, Or.inl rfl⟩
      | some o =>
        cases o with
        | none => exact ⟨⟨h1, h2, h3, h4, h5, h6, h7⟩, Or.inl rfl⟩
        | some slab =>
          dsimp only
          -- the original slab behind the current one
          obtain ⟨slab0, hs0, hlen10⟩ := h5 p.1 slab hs
          have hk0 : slab0.length = k := hlen p.1 slab0 hs0
          have hcell : ∀ j m1, slab.get? j = some m1 → ∃ m0, slab0.get? j = some m0 ∧
              m1.l = m0.l ∧ m1.r = m0.r ∧ m1.usd = m0.usd ∧ m1.fst = m0.fst := by
            intro j m1 hj
            have := h4 (p.1, j) m1 (by rw [getNode_mk hs]; exact hj)
            rwa [getNode_mk hs0] at this
          have hin : p.1 < st.1.length := by
            by_contra hc
            rw [List.get?_eq_none.mpr (by omega)] at hs
            cases hs
          by_cases hall : (slab.take k).all (fun m => !m.usd) = true
          · rw [if_pos hall]
            -- all cells of the original slab are unused
            have htake : slab.take k = slab := by
              rw [← hlen10] at hk0
              rw [← hk0]
              exact List.take_length slab
            rw [htake] at hall
            have hall0 : slab0.all (fun m => !m.usd) = true := by
              rw [List.all_eq_true]
              intro m0 hm0
              rcases List.mem_iff_get?.mp hm0 with ⟨j, hj⟩
              have hjlt : j < slab.length := by
                by_contra hc
                rw [List.get?_eq_none.mpr (by omega)] at hj
                cases hj
              cases hcur : slab.get? j with
              | none =>
                rw [List.get?_eq_none] at hcur
                omega
              | some m1 =>
                rcases hcell j m1 hcur with ⟨m0x, hm0x, _, _, husd, _⟩
                rw [hj] at hm0x
                cases hm0x
                have := List.all_eq_true.mp hall m1 (List.get?_mem hcur)
                simp only [Bool.not_eq_true'] at this ⊢
                rw [← husd]
                exact this
            have hnousd : ∀ pp nn, getNode mem0 pp = some nn → nn.usd = true →
                pp.1 ≠ p.1 := by
              intro pp nn hpp husd he
              rcases getNode_eq_some_iff.mp hpp with ⟨sl, hsl, hc⟩
              rw [he, hs0] at hsl
              cases hsl
              have := List.all_eq_true.mp hall0 nn (List.get?_mem hc)
              simp only [Bool.not_eq_true'] at this
              rw [husd] at this
              cases this
            refine ⟨⟨?_, ?_, ?_, ?_, ?_, ?_, ?_⟩, Or.inr rfl⟩
            · rw [length_memset]
              exact h1
            · intro j
              rw [slabAlive_set_slab hs]
              exact h2 j
            · intro pp nn hpp husd
              rw [getNode_memset_some _ _ _ _ hin, if_neg (hnousd pp nn hpp husd)]
              exact h3 pp nn hpp husd
            · intro pp m1 hpp
              rw [getNode_memset_some _ _ _ _ hin] at hpp
              by_cases hpe : pp.1 = p.1
              · rw [if_pos hpe] at hpp
                rw [markCln_get] at hpp
                by_cases hjk : pp.2 < k
                · rw [if_pos hjk] at hpp
                  cases hcur : slab.get? pp.2 with
                  | none => rw [hcur] at hpp; cases hpp
                  | some m2 =>
                    rw [hcur] at hpp
                    simp only [Option.map_some'] at hpp
                    cases hpp
                    rcases hcell pp.2 m2 hcur with ⟨m0, hm0, e1, e2, e3, e4⟩
                    refine ⟨m0, ?_, e1, e2, e3, e4⟩
                    have : getNode st.1 (p.1, pp.2) = some m2 := by
                      rw [getNode_mk hs]
                      exact hcur
                    rcases h4 (p.1, pp.2) m2 this with ⟨m0y, hm0y, _⟩
                    rw [getNode_mk hs0] at hm0y
                    rw [hm0] at hm0y
                    cases hm0y
                    rcases getNode_eq_some_iff.mp (show getNode mem0 (p.1, pp.2) = some m0 by
                      rw [getNode_mk hs0]; exact hm0) with ⟨_, _, _⟩
                    have hppeq : pp = (p.1, pp.2) := Prod.ext hpe rfl
                    rw [hppeq, getNode_mk hs0]
                    exact hm0
                · rw [if_neg hjk] at hpp
                  have : getNode st.1 pp = some m1 := by
                    have hppeq : pp = (p.1, pp.2) := Prod.ext hpe rfl
                    rw [hppeq, getNode_mk hs]
                    rw [hppeq] at hpp
                    exact hpp
                  exact h4 pp m1 this
              · rw [if_neg hpe] at hpp
                exact h4 pp m1 hpp
            · intro i s1 hi
              rw [get_memset] at hi
              by_cases hie : i = p.1 ∧ p.1 < st.1.length
              · rw [if_pos hie] at hi
                injection hi with hi
                injection hi with hi
                refine ⟨slab0, by rw [hie.1]; exact hs0, ?_⟩
                rw [← hi, markCln_length]
                exact hlen10
              · rw [if_neg hie] at hi
                exact h5 i s1 hi
            · intro q hq
              rcases List.mem_append.mp hq with hq | hq
              · exact h6 q hq
              · have hqp : q = p := List.mem_singleton.mp hq
                subst hqp
                rcases h4 q n hg with ⟨n0, hn0, _, _, _, hfst0⟩
                refine ⟨hfst q n0 hn0 (by rw [← hfst0]; exact hf), slab0, hs0, hall0⟩
            · show st.2.2 + (k : Int) = (k : Int) * ((st.2.1 ++ [p]).length : Int)
              have hlen2 : (st.2.1 ++ [p]).length = st.2.1.length + 1 := by simp
              rw [hlen2, h7]
              push_cast
              ring
          · rw [if_neg hall]
            refine ⟨⟨?_, ?_, ?_, ?_, ?_, h6, h7⟩, Or.inl rfl⟩
            · rw [length_memset]
              exact h1
            · intro j
              rw [slabAlive_set_slab hs]
              exact h2 j
            · intro pp nn hpp husd
              rw [getNode_memset_some _ _ _ _ hin]
              by_cases hpe : pp.1 = p.1
              · rw [if_pos hpe]
                have hcur := h3 pp nn hpp husd
                have hppeq : pp = (p.1, pp.2) := Prod.ext hpe rfl
                rw [hppeq, getNode_mk hs] at hcur
                show (markCln false k slab).get? pp.2 = some nn
                rw [markCln_get]
                by_cases hjk : pp.2 < k
                · rw [if_pos hjk, hcur]
                  simp only [Option.map_some']
                  rw [mnode_set_cln_self]
                  rcases hcell pp.2 nn hcur with ⟨m0, hm0, _, _, _, _⟩
                  have : getNode mem0 (p.1, pp.2) = some m0 := by
                    rw [getNode_mk hs0]
                    exact hm0
                  have hc0 := hcln (p.1, pp.2) m0 this
                  rw [hppeq] at hpp
                  rw [getNode_mk hs0] at hpp
                  rw [hpp] at hm0
                  cases hm0
                  exact hc0
                · rw [if_neg hjk]
                  exact hcur
              · rw [if_neg hpe]
                exact h3 pp nn hpp husd
            · intro pp m1 hpp
              rw [getNode_memset_some _ _ _ _ hin] at hpp
              by_cases hpe : pp.1 = p.1
              · rw [if_pos hpe] at hpp
                rw [markCln_get] at hpp
                have hppeq : pp = (p.1, pp.2) := Prod.ext hpe rfl
                by_cases hjk : pp.2 < k
                · rw [if_pos hjk] at hpp
                  cases hcur : slab.get? pp.2 with
                  | none => rw [hcur] at hpp; cases hpp
                  | some m2 =>
                    rw [hcur] at hpp
                    simp only [Option.map_some'] at hpp
                    cases hpp
                    rcases hcell pp.2 m2 hcur with ⟨m0, hm0, e1, e2, e3, e4⟩
                    refine ⟨m0, by rw [hppeq, getNode_mk hs0]; exact hm0, e1, e2, e3, e4⟩
                · rw [if_neg hjk] at hpp
                  refine h4 pp m1 ?_
                  rw [hppeq, getNode_mk hs]
                  rw [hppeq] at hpp
                  exact hpp
              · rw [if_neg hpe] at hpp
                exact h4 pp m1 hpp
            · intro i s1 hi
              rw [get_memset] at hi
              by_cases hie : i = p.1 ∧ p.1 < st.1.length
              · rw [if_pos hie] at hi
                injection hi with hi
                injection hi with hi
                refine ⟨slab0, by rw [hie.1]; exact hs0, ?_⟩
                rw [← hi, markCln_length]
                exact hlen10
              · rw [if_neg hie] at hi
                exact h5 i s1 hi
    · rw [if_neg hf]
      exact ⟨⟨h1, h2, h3, h4, h5, h6, h7⟩, Or.inl rfl⟩

theorem P1Inv_init (mem0 : List (Option (List MNode))) (k : Nat) :
    P1Inv mem0 k (mem0, [], 0) := by
  refine ⟨rfl, fun j => rfl, fun p n h _ => h,
    fun p m1 h => ⟨m1, h, rfl, rfl, rfl, rfl⟩,
    fun i s1 h => ⟨s1, h, rfl⟩, ?_, by simp⟩
  intro q hq
  cases hq

theorem pass1_fold (mem0 : List (Option (List MNode))) (k : Nat)
    (hcln : ∀ p n, getNode mem0 p = some n → n.cln = false)
    (hlen : ∀ i slab, mem0.get? i = some (some slab) → slab.length = k)
    (hfst : ∀ p n, getNode mem0 p = some n → n.fst = true → p.2 = 0) :
    ∀ (ps : List Ptr) (st : List (Option (List MNode)) × List Ptr × Int),
    ps.Nodup → P1Inv mem0 k st → st.2.1.Nodup → (∀ q ∈ st.2.1, q ∉ ps) →
    P1Inv mem0 k (ps.foldl (pass1Step k) st) ∧
    (ps.foldl (pass1Step k) st).2.1.Nodup := by
  intro ps
  induction ps with
  | nil =>
    intro st _ hI hnd _
    exact ⟨hI, hnd⟩
  | cons p ps ih =>
    intro st hndps hI hnd hdisj
    rcases List.nodup_cons.mp hndps with ⟨hpps, hndps2⟩
    rcases pass1Step_props mem0 k hcln hlen hfst st p hI with ⟨hI2, hsch⟩
    show P1Inv mem0 k (ps.foldl (pass1Step k) (pass1Step k st p)) ∧ _
    refine ih (pass1Step k st p) hndps2 hI2 ?_ ?_
    · rcases hsch with h | h
      · rw [h]
        exact hnd
      · rw [h]
        rw [List.nodup_append]
        refine ⟨hnd, List.nodup_singleton p, ?_⟩
        intro a ha hpa
        have hap : a = p := List.mem_singleton.mp hpa
        exact hdisj a ha (by rw [hap]; exact List.mem_cons_self p ps)
    · intro q hq
      rcases hsch with h | h
      · rw [h] at hq
        exact fun hqps => hdisj q hq (List.mem_cons_of_mem p hqps)
      · rw [h] at hq
        rcases List.mem_append.mp hq with hq | hq
        · exact fun hqps => hdisj q hq (List.mem_cons_of_mem p hqps)
        · have hqp : q = p := List.mem_singleton.mp hq
          subst hqp
          exact hpps

/-- Invariant of AVL_dealloc's second pass: aliveness and in-use cells
are untouched, the in-use bit of every cell is untouched, and the
retained-predecessor pointer always aims at a free (not in-use) cell, so
its relink write can never hit a live node. -/
def P2Inv (mem0 : List (Option (List MNode)))
    (st : List (Option (List MNode)) × Option Ptr × Option Ptr) : Prop :=
  (∀ j, slabAlive st.1 j = slabAlive mem0 j) ∧
  (∀ p n, getNode mem0 p = some n → n.usd = true → getNode st.1 p = some n) ∧
  (∀ p m1, getNode st.1 p = some m1 → ∃ m0, getNode mem0 p = some m0 ∧
      m1.usd = m0.usd) ∧
  (∀ q, st.2.2 = some q → ∃ m, getNode st.1 q = some m ∧ m.usd = false)

theorem pass2Step_inv (mem0 : List (Option (List MNode)))
    (st : List (Option (List MNode)) × Option Ptr × Option Ptr) (p : Ptr)
    (hI : P2Inv mem0 st)
    (hp : ∃ n0, getNode mem0 p = some n0 ∧ n0.usd = false) :
    P2Inv mem0 (pass2Step st p) := by
  obtain ⟨h1, h2, h3, h4⟩ := hI
  unfold pass2Step
  cases hg : getNode st.1 p with
  | none => exact ⟨h1, h2, h3, h4⟩
  | some n =>
    dsimp only
    by_cases hcl : n.cln
    · rw [if_pos hcl]
      cases hprev : st.2.2 with
      | none =>
        dsimp only
        refine ⟨h1, h2, h3, ?_⟩
        intro q hq
        cases hq
      | some q =>
        dsimp only
        cases hgq : getNode st.1 q with
        | none => exact ⟨h1, h2, h3, h4⟩
        | some m =>
          dsimp only
          rcases h4 q hprev with ⟨m2, hm2, husd2⟩
          rw [hgq] at hm2
          injection hm2 with hm2
          subst hm2
          refine ⟨?_, ?_, ?_, ?_⟩
          · intro j
            rw [slabAlive_setNode]
            exact h1 j
          · intro pp nn hpp husd
            have hne : pp ≠ q := by
              intro he
              have hx := h2 pp nn hpp husd
              rw [he, hgq] at hx
              injection hx with hx
              rw [hx] at husd2
              rw [husd] at husd2
              cases husd2
            rw [getNode_setNode_ne _ _ _ _ hne]
            exact h2 pp nn hpp husd
          · intro pp m1 hpp
            by_cases he : pp = q
            · subst he
              rw [getNode_setNode_eq _ hgq] at hpp
              injection hpp with hpp
              subst hpp
              rcases h3 pp m hgq with ⟨m0, hm0, husd0⟩
              exact ⟨m0, hm0, husd0⟩
            · rw [getNode_setNode_ne _ _ _ _ he] at hpp
              exact h3 pp m1 hpp
          · intro q2 hq2
            have hq2q : q2 = q := by
              injection hq2 with h
              exact h.symm
            subst hq2q
            exact ⟨{ m with r := n.r }, getNode_setNode_eq _ hgq, husd2⟩
    · rw [if_neg hcl]
      refine ⟨h1, h2, h3, ?_⟩
      intro q hq
      have hqp : q = p := by
        injection hq with h
        exact h.symm
      subst hqp
      rcases h3 q n hg with ⟨m0, hm0, husd0⟩
      rcases hp with ⟨n0, hn0, hn0u⟩
      rw [hm0] at hn0
      injection hn0 with hn0
      subst hn0
      exact ⟨n, hg, by rw [husd0]; exact hn0u⟩

theorem pass2_fold (mem0 : List (Option (List MNode))) :
    ∀ (ps : List Ptr) (st : List (Option (List MNode)) × Option Ptr × Option Ptr),
    P2Inv mem0 st →
    (∀ p ∈ ps, ∃ n0, getNode mem0 p = some n0 ∧ n0.usd = false) →
    P2Inv mem0 (ps.foldl pass2Step st) := by
  intro ps
  induction ps with
  | nil =>
    intro st hI _
    exact hI
  | cons p ps ih =>
    intro st hI hps
    show P2Inv mem0 (ps.foldl pass2Step (pass2Step st p))
    refine ih (pass2Step st p)
      (pass2Step_inv mem0 st p hI (hps p (List.mem_cons_self p ps))) ?_
    intro p2 hp2
    exact hps p2 (List.mem_cons_of_mem p hp2)

theorem setNoneFold_alive :
    ∀ (L : List Ptr) (mem : List (Option (List MNode))) (i : Nat),
    slabAlive (L.foldl (fun m q => m.set q.1 none) mem) i =
      if i ∈ L.map Prod.fst then false else slabAlive mem i := by
  intro L
  induction L with
  | nil =>
    intro mem i
    simp
  | cons q L ih =>
    intro mem i
    show slabAlive (L.foldl (fun m q => m.set q.1 none) (mem.set q.1 none)) i = _
    rw [ih]
    by_cases h1 : i ∈ L.map Prod.fst
    · rw [if_pos h1, if_pos (by show i ∈ q.1 :: L.map Prod.fst
                                exact List.mem_cons_of_mem _ h1)]
    · rw [if_neg h1, slabAlive_set_none]
      by_cases h2 : i = q.1
      · rw [if_pos h2, if_pos (by show i ∈ q.1 :: L.map Prod.fst
                                  rw [h2]
                                  exact List.mem_cons_self _ _)]
      · rw [if_neg h2, if_neg ?_]
        intro hc
        rcases List.mem_cons.mp hc with h | h
        · exact h2 h
        · exact h1 h

theorem setNoneFold_getNode :
    ∀ (L : List Ptr) (mem : List (Option (List MNode))) (p : Ptr),
    p.1 ∉ L.map Prod.fst →
    getNode (L.foldl (fun m q => m.set q.1 none) mem) p = getNode mem p := by
  intro L
  induction L with
  | nil =>
    intro mem p _
    rfl
  | cons q L ih =>
    intro mem p hnm
    have hne : p.1 ≠ q.1 := by
      intro he
      exact hnm (by rw [he]; exact List.mem_cons_self _ _)
    have htl : p.1 ∉ L.map Prod.fst := fun hc => hnm (List.mem_cons_of_mem _ hc)
    show getNode (L.foldl (fun m q => m.set q.1 none) (mem.set q.1 none)) p = _
    rw [ih _ _ htl]
    by_cases hin : q.1 < mem.length
    · rw [getNode_memset_none _ _ _ hin, if_neg hne]
    · rw [List.set_eq_of_length_le (by omega)]

theorem countP_mem_range (S : List Nat) (n : Nat) (hnd : S.Nodup)
    (hlt : ∀ s ∈ S, s < n) :
    (List.range n).countP (fun i => decide (i ∈ S)) = S.length := by
  rw [List.countP_eq_length_filter]
  have hperm : List.Perm ((List.range n).filter (fun i => decide (i ∈ S))) S := by
    apply List.perm_of_nodup_nodup_toFinset_eq
    · exact (List.nodup_range n).filter _
    · exact hnd
    · ext a
      simp only [List.mem_toFinset, List.mem_filter, List.mem_range, decide_eq_true_eq]
      constructor
      · rintro ⟨_, h⟩
        exact h
      · intro h
        exact ⟨hlt a h, h⟩
  exact hperm.length_eq

theorem reachN_congr (mem mem2 : List (Option (List MNode))) :
    ∀ (F : Nat) (op : Option Ptr),
    (∀ p ∈ reachN mem F op, getNode mem2 p = getNode mem p) →
    reachN mem2 F op = reachN mem F op := by
  intro F
  induction F with
  | zero =>
    intro op _
    cases op <;> rfl
  | succ F ih =>
    intro op h
    cases op with
    | none => rfl
    | some p =>
      have hexp2 : reachN mem2 (F + 1) (some p) =
          p :: (match getNode mem2 p with
                | none => []
                | some n => reachN mem2 F n.l ++ reachN mem2 F n.r) := rfl
      have hexp1 : reachN mem (F + 1) (some p) =
          p :: (match getNode mem p with
                | none => []
                | some n => reachN mem F n.l ++ reachN mem F n.r) := rfl
      have hp : getNode mem2 p = getNode mem p := by
        refine h p ?_
        rw [hexp1]
        exact List.mem_cons_self p _
      cases hg : getNode mem p with
      | none =>
        rw [hexp2, hexp1, hp]
        simp only [hg]
      | some n =>
        have hexp : reachN mem (F + 1) (some p) =
            p :: (reachN mem F n.l ++ reachN mem F n.r) := by
          rw [hexp1]
          simp only [hg]
        have hl : reachN mem2 F n.l = reachN mem F n.l := by
          refine ih n.l ?_
          intro p2 hp2
          refine h p2 ?_
          rw [hexp]
          exact List.mem_cons_of_mem _ (List.mem_append_left _ hp2)
        have hr : reachN mem2 F n.r = reachN mem F n.r := by
          refine ih n.r ?_
          intro p2 hp2
          refine h p2 ?_
          rw [hexp]
          exact List.mem_cons_of_mem _ (List.mem_append_right _ hp2)
        rw [hexp2, hp]
        simp only [hg]
        rw [hl, hr, hexp]

/-- Case analysis on AVL_dealloc's two exits, exposing the pass-1 state
(and pass-2 state in the unlinking branch) as abstract values. -/
theorem AVL_dealloc_cases (a : Arena) (P : Int × Arena → Prop)
    (hno : ∀ p1 : List (Option (List MNode)) × List Ptr × Int,
      p1 = (chainN a.mem (totalCells a.mem) a.freeStack).foldl
        (pass1Step a.allocAtOnce) (a.mem, [], 0) →
      p1.2.1 = [] → P (p1.2.2, { a with mem := p1.1 }))
    (hyes : ∀ (p1 : List (Option (List MNode)) × List Ptr × Int)
      (p2 : List (Option (List MNode)) × Option Ptr × Option Ptr),
      p1 = (chainN a.mem (totalCells a.mem) a.freeStack).foldl
        (pass1Step a.allocAtOnce) (a.mem, [], 0) →
      p2 = (chainN a.mem (totalCells a.mem) a.freeStack).foldl pass2Step
        (p1.1, a.freeStack, none) →
      ¬p1.2.1 = [] →
      P (p1.2.2,
         { a with
           mem := p1.2.1.foldl (fun m q => m.set q.1 none) p2.1
           freeStack := p2.2.1 })) :
    P (AVL_dealloc a) := by
  unfold AVL_dealloc
  dsimp only
  split
  case isTrue h => exact hno _ rfl h
  case isFalse h => exact hyes _ _ rfl rfl h

/-- Claim C7: under the allocator's representation invariants (slabs of
exactly allocAtOnce cells, cleanup bits clear, the slab-head bit only at
offset 0, the free chain acyclic and consisting of free cells),
AVL_dealloc keeps size, root and height; leaves every in-use cell — hence
everything reachable from the root — bitwise intact with its slab still
allocated, so it never releases a slab containing an in-use node; and
returns allocAtOnce times the number of slabs it released. -/
theorem claim_c7 (a : Arena)
    (hcln : ∀ p n, getNode a.mem p = some n → n.cln = false)
    (hlen : ∀ i slab, a.mem.get? i = some (some slab) → slab.length = a.allocAtOnce)
    (hfst : ∀ p n, getNode a.mem p = some n → n.fst = true → p.2 = 0)
    (hchain : ∀ p ∈ chainN a.mem (totalCells a.mem) a.freeStack,
       ∃ n, getNode a.mem p = some n ∧ n.usd = false)
    (hchnd : (chainN a.mem (totalCells a.mem) a.freeStack).Nodup) :
    ((AVL_dealloc a).2.size = a.size ∧ (AVL_dealloc a).2.top = a.top ∧
     (AVL_dealloc a).2.height = a.height) ∧
    (∀ p n, getNode a.mem p = some n → n.usd = true →
       getNode (AVL_dealloc a).2.mem p = some n ∧
       slabAlive (AVL_dealloc a).2.mem p.1 = true) ∧
    (∀ F : Nat,
       (∀ p ∈ reachN a.mem F a.top, ∃ n, getNode a.mem p = some n ∧ n.usd = true) →
       reachN (AVL_dealloc a).2.mem F a.top = reachN a.mem F a.top) ∧
    (AVL_dealloc a).1 = (a.allocAtOnce : Int) *
      ((List.range a.mem.length).countP
        (fun i => slabAlive a.mem i && !slabAlive (AVL_dealloc a).2.mem i)) := by
  apply AVL_dealloc_cases a (fun res =>
    ((res.2.size = a.size ∧ res.2.top = a.top ∧ res.2.height = a.height) ∧
     (∀ p n, getNode a.mem p = some n → n.usd = true →
        getNode res.2.mem p = some n ∧ slabAlive res.2.mem p.1 = true) ∧
     (∀ F : Nat,
        (∀ p ∈ reachN a.mem F a.top, ∃ n, getNode a.mem p = some n ∧ n.usd = true) →
        reachN res.2.mem F a.top = reachN a.mem F a.top) ∧
     res.1 = (a.allocAtOnce : Int) *
       ((List.range a.mem.length).countP
         (fun i => slabAlive a.mem i && !slabAlive res.2.mem i))))
  · intro p1 hp1 hL
    have hIc := pass1_fold a.mem a.allocAtOnce hcln hlen hfst
      (chainN a.mem (totalCells a.mem) a.freeStack) (a.mem, [], 0) hchnd
      (P1Inv_init a.mem a.allocAtOnce) List.nodup_nil
      (fun q hq => absurd hq (List.not_mem_nil q))
    rw [← hp1] at hIc
    obtain ⟨⟨h1, h2, h3, h4, h5, h6, h7⟩, hnd⟩ := hIc
    refine ⟨⟨rfl, rfl, rfl⟩, ?_, ?_, ?_⟩
    · intro p n hp husd
      refine ⟨h3 p n hp husd, ?_⟩
      show slabAlive p1.1 p.1 = true
      rw [h2]
      rcases getNode_eq_some_iff.mp hp with ⟨slab, hslab, _⟩
      rw [slabAlive_iff]
      exact ⟨slab, hslab⟩
    · intro F hused
      apply reachN_congr
      intro p hp
      rcases hused p hp with ⟨n, hn, husd⟩
      rw [h3 p n hn husd, hn]
    · show p1.2.2 = _
      have hcz : ((List.range a.mem.length).countP
          (fun i => slabAlive a.mem i && !slabAlive p1.1 i)) = 0 := by
        rw [List.countP_eq_zero]
        intro i _
        rw [h2 i]
        simp
      rw [h7, hL, hcz]
      simp
  · intro p1 p2 hp1 hp2 hL
    have hIc := pass1_fold a.mem a.allocAtOnce hcln hlen hfst
      (chainN a.mem (totalCells a.mem) a.freeStack) (a.mem, [], 0) hchnd
      (P1Inv_init a.mem a.allocAtOnce) List.nodup_nil
      (fun q hq => absurd hq (List.not_mem_nil q))
    rw [← hp1] at hIc
    obtain ⟨⟨h1, h2, h3, h4, h5, h6, h7⟩, hnd⟩ := hIc
    have hI2start : P2Inv a.mem (p1.1, a.freeStack, none) := by
      refine ⟨h2, h3, ?_, ?_⟩
      · intro p m1 hpm
        rcases h4 p m1 hpm with ⟨m0, hm0, _, _, e3, _⟩
        exact ⟨m0, hm0, e3⟩
      · intro q hq
        cases hq
    have hI2 := pass2_fold a.mem (chainN a.mem (totalCells a.mem) a.freeStack)
      (p1.1, a.freeStack, none) hI2start hchain
    rw [← hp2] at hI2
    obtain ⟨g1, g2, g3, g4⟩ := hI2
    have husdnotin : ∀ p n, getNode a.mem p = some n → n.usd = true →
        p.1 ∉ p1.2.1.map Prod.fst := by
      intro p n hp husd hmem
      rcases List.mem_map.mp hmem with ⟨q, hq, hq1⟩
      rcases h6 q hq with ⟨_, slab, hslab, hall⟩
      rcases getNode_eq_some_iff.mp hp with ⟨slab2, hslab2, hcell⟩
      rw [hq1] at hslab
      rw [hslab2] at hslab
      injection hslab with hslab
      injection hslab with hslab
      have hmem2 : n ∈ slab := by
        rw [← hslab]
        exact List.get?_mem hcell
      have := List.all_eq_true.mp hall n hmem2
      simp only [Bool.not_eq_true'] at this
      rw [husd] at this
      cases this
    refine ⟨⟨rfl, rfl, rfl⟩, ?_, ?_, ?_⟩
    · intro p n hp husd
      have hnot := husdnotin p n hp husd
      constructor
      · show getNode (p1.2.1.foldl (fun m q => m.set q.1 none) p2.1) p = some n
        rw [setNoneFold_getNode _ _ _ hnot]
        exact g2 p n hp husd
      · show slabAlive (p1.2.1.foldl (fun m q => m.set q.1 none) p2.1) p.1 = true
        rw [setNoneFold_alive, if_neg hnot, g1]
        rcases getNode_eq_some_iff.mp hp with ⟨slab, hslab, _⟩
        rw [slabAlive_iff]
        exact ⟨slab, hslab⟩
    · intro F hused
      apply reachN_congr
      intro p hp
      rcases hused p hp with ⟨n, hn, husd⟩
      have hnot := husdnotin p n hn husd
      show getNode (p1.2.1.foldl (fun m q => m.set q.1 none) p2.1) p = getNode a.mem p
      rw [setNoneFold_getNode _ _ _ hnot, g2 p n hn husd, hn]
    · show p1.2.2 = _
      have hmapnd : (p1.2.1.map Prod.fst).Nodup := by
        refine List.Nodup.map_on ?_ hnd
        intro x hx y hy he
        rcases h6 x hx with ⟨hx2, _⟩
        rcases h6 y hy with ⟨hy2, _⟩
        exact Prod.ext he (by rw [hx2, hy2])
      have hlt : ∀ s ∈ p1.2.1.map Prod.fst, s < a.mem.length := by
        intro s hs
        rcases List.mem_map.mp hs with ⟨q, hq, hq1⟩
        rcases h6 q hq with ⟨_, slab, hslab, _⟩
        rw [← hq1]
        by_contra hc
        rw [List.get?_eq_none.mpr (by omega)] at hslab
        cases hslab
      have hchar : ∀ i, slabAlive (p1.2.1.foldl (fun m q => m.set q.1 none) p2.1) i =
          if i ∈ p1.2.1.map Prod.fst then false else slabAlive a.mem i := by
        intro i
        rw [setNoneFold_alive]
        by_cases h : i ∈ p1.2.1.map Prod.fst
        · rw [if_pos h, if_pos h]
        · rw [if_neg h, if_neg h, g1]
      have hcc : ((List.range a.mem.length).countP
          (fun i => slabAlive a.mem i &&
            !slabAlive (p1.2.1.foldl (fun m q => m.set q.1 none) p2.1) i)) =
          ((List.range a.mem.length).countP
            (fun i => decide (i ∈ p1.2.1.map Prod.fst))) := by
        apply List.countP_congr
        intro i _
        rw [hchar i]
        by_cases h : i ∈ p1.2.1.map Prod.fst
        · rw [if_pos h]
          have halive : slabAlive a.mem i = true := by
            rcases List.mem_map.mp h with ⟨q, hq, hq1⟩
            rcases h6 q hq with ⟨_, slab, hslab, _⟩
            rw [← hq1, slabAlive_iff]
            exact ⟨slab, hslab⟩
          rw [halive]
          simp [h]
        · rw [if_neg h]
          simp [h]
      rw [hcc, countP_mem_range _ _ hmapnd hlt, List.length_map, h7]

/-- Executable form of a per-cell representation check, for discharging
the quantified hypotheses of claim C7 on concrete arenas. -/
def cellCheck (q : Nat → MNode → Bool) (mem : List (Option (List MNode))) : Bool :=
  mem.all (fun os =>
    match os with
    | none => true
    | some slab => (List.range slab.length).all (fun j =>
        match slab.get? j with
        | some n => q j n
        | none => true))

theorem cellCheck_spec (q : Nat → MNode → Bool) (mem : List (Option (List MNode)))
    (h : cellCheck q mem = true) :
    ∀ p n, getNode mem p = some n → q p.2 n = true := by
  intro p n hp
  rcases getNode_eq_some_iff.mp hp with ⟨slab, hs, hc⟩
  have h1 := List.all_eq_true.mp h (some slab) (List.get?_mem hs)
  have h2 : (List.range slab.length).all (fun j =>
      match slab.get? j with
      | some n => q j n
      | none => true) = true := h1
  have hj : p.2 < slab.length := by
    by_contra hcc
    rw [List.get?_eq_none.mpr (by omega)] at hc
    cases hc
  have h3 := List.all_eq_true.mp h2 p.2 (List.mem_range.mpr hj)
  rw [hc] at h3
  exact h3

/-- Executable form of a per-slab representation check. -/
def slabCheck (q : List MNode → Bool) (mem : List (Option (List MNode))) : Bool :=
  mem.all (fun os =>
    match os with
    | none => true
    | some slab => q slab)

theorem slabCheck_spec (q : List MNode → Bool) (mem : List (Option (List MNode)))
    (h : slabCheck q mem = true) :
    ∀ i slab, mem.get? i = some (some slab) → q slab = true := by
  intro i slab hs
  exact List.all_eq_true.mp h (some slab) (List.get?_mem hs)

/-- A concrete arena for exercising claim C7: slab 0 holds two free cells
(both on the free chain, base first), slab 1 holds a free base cell on the
chain and one in-use cell (the tree root). -/
def c7arena : Arena :=
  { mem := [some [⟨none, some (0, 1), false, true, false⟩,
                  ⟨none, some (1, 0), false, false, false⟩],
            some [⟨none, none, false, true, false⟩,
                  ⟨none, none, true, false, false⟩]]
    allocAtOnce := 2
    freeStack := some (0, 0)
    top := some (1, 1)
    height := 1
    size := 1 }

theorem claim_c7_witness :
    ((∀ p n, getNode c7arena.mem p = some n → n.cln = false) ∧
     (∀ i slab, c7arena.mem.get? i = some (some slab) →
        slab.length = c7arena.allocAtOnce) ∧
     (∀ p n, getNode c7arena.mem p = some n → n.fst = true → p.2 = 0) ∧
     (∀ p ∈ chainN c7arena.mem (totalCells c7arena.mem) c7arena.freeStack,
        ∃ n, getNode c7arena.mem p = some n ∧ n.usd = false) ∧
     (chainN c7arena.mem (totalCells c7arena.mem) c7arena.freeStack).Nodup) ∧
    (((AVL_dealloc c7arena).2.size = c7arena.size ∧
      (AVL_dealloc c7arena).2.top = c7arena.top ∧
      (AVL_dealloc c7arena).2.height = c7arena.height) ∧
     (∀ p n, getNode c7arena.mem p = some n → n.usd = true →
        getNode (AVL_dealloc c7arena).2.mem p = some n ∧
        slabAlive (AVL_dealloc c7arena).2.mem p.1 = true) ∧
     (∀ F : Nat,
        (∀ p ∈ reachN c7arena.mem F c7arena.top,
           ∃ n, getNode c7arena.mem p = some n ∧ n.usd = true) →
        reachN (AVL_dealloc c7arena).2.mem F c7arena.top =
          reachN c7arena.mem F c7arena.top) ∧
     (AVL_dealloc c7arena).1 = (c7arena.allocAtOnce : Int) *
       ((List.range c7arena.mem.length).countP
         (fun i => slabAlive c7arena.mem i &&
           !slabAlive (AVL_dealloc c7arena).2.mem i))) := by
  have hcln : ∀ p n, getNode c7arena.mem p = some n → n.cln = false := by
    intro p n h
    have hx := cellCheck_spec (fun _ n => !n.cln) c7arena.mem (by decide) p n h
    simpa using hx
  have hlen : ∀ i slab, c7arena.mem.get? i = some (some slab) →
      slab.length = c7arena.allocAtOnce := by
    intro i slab h
    have hx := slabCheck_spec (fun s => s.length == 2) c7arena.mem (by decide) i slab h
    have hx2 : (slab.length == 2) = true := hx
    show slab.length = 2
    simp only [beq_iff_eq] at hx2
    exact hx2
  have hfst : ∀ p n, getNode c7arena.mem p = some n → n.fst = true → p.2 = 0 := by
    intro p n h hf
    have hx := cellCheck_spec (fun j n => !n.fst || (j == 0)) c7arena.mem (by decide) p n h
    have hx2 : (!n.fst || (p.2 == 0)) = true := hx
    rw [hf] at hx2
    simpa using hx2
  have hchain : ∀ p ∈ chainN c7arena.mem (totalCells c7arena.mem) c7arena.freeStack,
      ∃ n, getNode c7arena.mem p = some n ∧ n.usd = false := by
    intro p hp
    rw [show chainN c7arena.mem (totalCells c7arena.mem) c7arena.freeStack =
        [((0 : Nat), (0 : Nat)), (0, 1), (1, 0)] from rfl] at hp
    fin_cases hp
    · exact ⟨_, rfl, rfl⟩
    · exact ⟨_, rfl, rfl⟩
    · exact ⟨_, rfl, rfl⟩
  have hchnd : (chainN c7arena.mem (totalCells c7arena.mem) c7arena.freeStack).Nodup := by
    decide
  exact ⟨⟨hcln, hlen, hfst, hchain, hchnd⟩,
    claim_c7 c7arena hcln hlen hfst hchain hchnd⟩

end AVL